import Mathlib

/-!
# Image manipulation core (`imagemanip.cpp`): embedding and verified properties

The C++ source works on `float` channels and `int` coordinates.  The
embedding is over an arbitrary ordered field `K` with a floor function
(instantiated at `ℚ` for evaluation and at `ℝ` for the Gaussian kernels), so
its statements are ones of exact arithmetic; `int` values are unbounded
integers.  The C library functions `expf`, `sqrtf`, `cosf`, `sinf` and the
constant `M_PI` are passed in as a record.

The numeric output dimensions depend on `float` rounding (the span is rounded
before it is truncated to `int`), so for them a second model,
`transformDimsF32`, rounds each operation of lines 61-80 to single precision.

`Image`, `Image::Pixel`, `Vec2` and `Mat2` are declared in headers that are not
part of `imagemanip.cpp`; they are modelled from the specification.
-/

namespace ImageManip

/-! ## Data model -/

/-- Modelled from the spec: `Image::Pixel` (declared in the absent `imagemanip.h`),
a triple of channels `r`, `g`, `b`, default-constructed to zero. -/
structure Pixel (K : Type) where
  r : K
  g : K
  b : K
deriving DecidableEq

/-- Modelled from the spec: `Image` (declared in the absent `imagemanip.h`), an
integer width and height and random access to pixels by integer coordinates. -/
structure Image (K : Type) where
  width : Int
  height : Int
  pix : Int → Int → Pixel K

/-- Modelled from the spec: `Vec2` (absent `vec2.h`), two components. -/
structure Vec2 (K : Type) where
  x : K
  y : K
deriving DecidableEq

/-- Modelled from the spec: `Mat2` (absent `mat2.h`), a row-major 2×2 matrix
with rows `(a, b)` and `(c, d)`. -/
structure Mat2 (K : Type) where
  a : K
  b : K
  c : K
  d : K
deriving DecidableEq

/-- The `<cmath>` functions and constant used by the source, as parameters. -/
structure Libm (K : Type) where
  expf : K → K
  sqrtf : K → K
  cosf : K → K
  sinf : K → K
  pi : K

abbrev FilterType1D (K : Type) := List K

abbrev FilterType2D (K : Type) := List (List K)

section Defs

variable {K : Type} [LinearOrderedField K] [FloorRing K]

/-- Modelled from the spec: a default-constructed `Pixel` is `(0, 0, 0)`. -/
def Pixel.zero : Pixel K := ⟨0, 0, 0⟩

/-- Modelled from the spec: `Image(width, height)`, every pixel default-initialised to zero. -/
def Image.create (w h : Int) : Image K := ⟨w, h, fun _ _ => Pixel.zero⟩

/-- Modelled from the spec: `getColor(x, y)`. -/
def Image.getColor (img : Image K) (x y : Int) : Pixel K := img.pix x y

/-- Modelled from the spec: `setColor(x, y, p)`. -/
def Image.setColor (img : Image K) (x y : Int) (p : Pixel K) : Image K :=
  { img with pix := fun a b => if a = x ∧ b = y then p else img.pix a b }

/-- Modelled from the spec: `Mat2 * Vec2`. -/
def Mat2.mulVec (m : Mat2 K) (v : Vec2 K) : Vec2 K :=
  ⟨m.a * v.x + m.b * v.y, m.c * v.x + m.d * v.y⟩

def Mat2.det (m : Mat2 K) : K := m.a * m.d - m.b * m.c

/-- Modelled from the spec: `Mat2::inverse()`, the adjugate divided by the determinant. -/
def Mat2.inverse (m : Mat2 K) : Mat2 K :=
  ⟨m.d / m.det, -m.b / m.det, -m.c / m.det, m.a / m.det⟩

/-- The C++ conversion `int(x)` of a float: truncation toward zero. -/
def truncInt (x : K) : Int := if 0 ≤ x then ⌊x⌋ else ⌈x⌉

/-- The loop `for (int k = 0; k < n; ++k) s = body(k, s)`. -/
def forLoop {σ : Type} (n : Int) (body : Int → σ → σ) (s : σ) : σ :=
  (List.range n.toNat).foldl (fun (acc : σ) (k : Nat) => body (k : Int) acc) s

/-- The loop `for (int k = lo; k <= hi; ++k) s = body(k, s)`. -/
def forRange {σ : Type} (lo hi : Int) (body : Int → σ → σ) (s : σ) : σ :=
  (List.range (hi - lo + 1).toNat).foldl (fun (acc : σ) (k : Nat) => body (lo + (k : Int)) acc) s

/-- Channel selector, used to state properties "on every channel". -/
inductive Channel where
  | r
  | g
  | b
deriving DecidableEq

/-- The channel `c` of a pixel. -/
def Pixel.get (p : Pixel K) : Channel → K
  | Channel.r => p.r
  | Channel.g => p.g
  | Channel.b => p.b

/-! ## Bilinear sampler -/

def bilinearInterp (image : Image K) (x y : K) : Pixel K :=
  let x0 : Int := min (truncInt x) (image.width - 1)
  let y0 : Int := min (truncInt y) (image.height - 1)
  let x1 : Int := min (x0 + 1) (image.width - 1)
  let y1 : Int := min (y0 + 1) (image.height - 1)
  let c00 := image.getColor x0 y0
  let c01 := image.getColor x0 y1
  let c10 := image.getColor x1 y0
  let c11 := image.getColor x1 y1
  let biasX : K := x - (x0 : K)
  let biasY : K := y - (y0 : K)
  { r := (1 - biasY) * ((1 - biasX) * c00.r + biasX * c10.r)
          + biasY * ((1 - biasX) * c01.r + biasX * c11.r)
    g := (1 - biasY) * ((1 - biasX) * c00.g + biasX * c10.g)
          + biasY * ((1 - biasX) * c01.g + biasX * c11.g)
    b := (1 - biasY) * ((1 - biasX) * c00.b + biasX * c10.b)
          + biasY * ((1 - biasX) * c01.b + biasX * c11.b) }

/-! ## Convolution primitives -/

/-- The expression `(filter.size() - 1) / 2` converted to `int`.  For the empty
filter the unsigned subtraction wraps and the conversion to `int` gives `-1`,
which is also the value of the integer division used here. -/
def filterRadius (size : Nat) : Int := ((size : Int) - 1) / 2

/-- The element `filter[k]` for an `int` index `k`. -/
def FilterType1D.at (filter : FilterType1D K) (k : Int) : K := filter.getD k.toNat 0

/-- The element `filter[a][b]` for `int` indices `a`, `b`. -/
def FilterType2D.at (filter : FilterType2D K) (a b : Int) : K :=
  (filter.getD a.toNat []).getD b.toNat 0

/-- The statement `sum.r += val.r * weight; sum.g += ...; sum.b += ...`. -/
def Pixel.accum (sum val : Pixel K) (weight : K) : Pixel K :=
  ⟨sum.r + val.r * weight, sum.g + val.g * weight, sum.b + val.b * weight⟩

def convolvePixel2D (image : Image K) (filter : FilterType2D K) (x y : Int) : Pixel K :=
  let r : Int := filterRadius filter.length
  forRange (y - r) (y + r) (fun j sum =>
    forRange (x - r) (x + r) (fun i sum =>
      let weight := FilterType2D.at filter (i - x + r) (j - y + r)
      let clampI : Int := max 0 (min i (image.width - 1))
      let clampJ : Int := max 0 (min j (image.height - 1))
      let val := image.getColor clampI clampJ
      sum.accum val weight) sum) Pixel.zero

def convolveImage2D (image : Image K) (filter : FilterType2D K) : Image K :=
  let convolved : Image K := Image.create image.width image.height
  forLoop convolved.height (fun y convolved =>
    forLoop convolved.width (fun x convolved =>
      convolved.setColor x y (convolvePixel2D image filter x y)) convolved) convolved

def convolvePixel1D (image : Image K) (filter : FilterType1D K) (x y : Int) (vert : Bool) :
    Pixel K :=
  let r : Int := filterRadius filter.length
  let xy : Int × Int := if vert then (y, x) else (x, y)
  let x := xy.1
  let y := xy.2
  forRange (x - r) (x + r) (fun i sum =>
    let weight := FilterType1D.at filter (i - x + r)
    let val :=
      if vert then
        let clampI : Int := max 0 (min i (image.height - 1))
        image.getColor y clampI
      else
        let clampI : Int := max 0 (min i (image.width - 1))
        image.getColor clampI y
    sum.accum val weight) Pixel.zero

def convolveImageSeparable (image : Image K) (filter : FilterType1D K) : Image K :=
  let middle : Image K := Image.create image.width image.height
  let middle := forLoop middle.height (fun y middle =>
    forLoop middle.width (fun x middle =>
      middle.setColor x y (convolvePixel1D image filter x y false)) middle) middle
  let convolved : Image K := Image.create middle.width middle.height
  forLoop convolved.height (fun y convolved =>
    forLoop convolved.width (fun x convolved =>
      convolved.setColor x y (convolvePixel1D middle filter x y true)) convolved) convolved

/-- The intermediate image `middle` of `convolveImageSeparable` (lines 244-251). -/
def horizontalPass (image : Image K) (filter : FilterType1D K) : Image K :=
  let middle : Image K := Image.create image.width image.height
  forLoop middle.height (fun y middle =>
    forLoop middle.width (fun x middle =>
      middle.setColor x y (convolvePixel1D image filter x y false)) middle) middle

/-! ## Blur factories -/

def boxBlur (image : Image K) (radius : Int) : Image K :=
  let size : Int := 2 * radius + 1
  let weight : K := 1 / ((size * size : Int) : K)
  let boxFilter : FilterType2D K := List.replicate size.toNat (List.replicate size.toNat weight)
  convolveImage2D image boxFilter

def boxBlurSeparable (image : Image K) (radius : Int) : Image K :=
  let size : Int := 2 * radius + 1
  let weight : K := 1 / (size : K)
  let boxFilter : FilterType1D K := List.replicate size.toNat weight
  convolveImageSeparable image boxFilter

/-- The filter built by the nested loops of `gaussianBlur`: entry `[x][y]` is
`expf(-(x2*x2 + y2*y2) / s) / (M_PI * s)` with `x2 = x - radius`, `y2 = y - radius`. -/
def gaussianFilter2D (m : Libm K) (radius : Int) (stddev : K) : FilterType2D K :=
  let size : Int := 2 * radius + 1
  let s : K := 2 * stddev * stddev
  (List.range size.toNat).map (fun (x : Nat) =>
    (List.range size.toNat).map (fun (y : Nat) =>
      let x2 : K := (((x : Int) - radius : Int) : K)
      let y2 : K := (((y : Int) - radius : Int) : K)
      m.expf (-(x2 * x2 + y2 * y2) / s) / (m.pi * s)))

def gaussianBlur (m : Libm K) (image : Image K) (radius : Int) (stddev : K) : Image K :=
  convolveImage2D image (gaussianFilter2D m radius stddev)

/-- The filter built by the loop of `gaussianBlurSeparable`: entry `[x]` is
`expf(-(x2 * x2) / s) / sqrtf(M_PI * s)` with `x2 = x - radius`. -/
def gaussianFilter1D (m : Libm K) (radius : Int) (stddev : K) : FilterType1D K :=
  let size : Int := 2 * radius + 1
  let s : K := 2 * stddev * stddev
  (List.range size.toNat).map (fun (x : Nat) =>
    let x2 : K := (((x : Int) - radius : Int) : K)
    m.expf (-(x2 * x2) / s) / m.sqrtf (m.pi * s))

def gaussianBlurSeparable (m : Libm K) (image : Image K) (radius : Int) (stddev : K) : Image K :=
  convolveImageSeparable image (gaussianFilter1D m radius stddev)

/-! ## Affine resampler -/

/-- The C++ `std::max` of a four-element initializer list. -/
def max4 (p q r s : K) : K := max (max (max p q) r) s

/-- The C++ `std::min` of a four-element initializer list. -/
def min4 (p q r s : K) : K := min (min (min p q) r) s

/-- The values `transform` computes before its resampling loops. -/
structure TransformSetup (K : Type) where
  newMaxX : K
  newMinX : K
  newMaxY : K
  newMinY : K
  outW : Int
  outH : Int
  dx : K
  dy : K
  sizeRatio : K
  source : Image K
  transformInv : Mat2 K

/-- Lines 61-94 of `transform`: mapped corners, bounding box, output
dimensions, sampling steps, choice of the sampling source, inverse matrix. -/
def transformSetup (m : Libm K) (image : Image K) (transform : Mat2 K) : TransformSetup K :=
  let maxX : K := ((image.width - 1 : Int) : K)
  let maxY : K := ((image.height - 1 : Int) : K)
  let topLeft : Vec2 K := ⟨0, maxY⟩
  let topRight : Vec2 K := ⟨maxX, maxY⟩
  let botLeft : Vec2 K := ⟨0, 0⟩
  let botRight : Vec2 K := ⟨maxX, 0⟩
  let topLeft := transform.mulVec topLeft
  let topRight := transform.mulVec topRight
  let botLeft := transform.mulVec botLeft
  let botRight := transform.mulVec botRight
  let newMaxX := max4 topLeft.x topRight.x botLeft.x botRight.x
  let newMinX := min4 topLeft.x topRight.x botLeft.x botRight.x
  let newMaxY := max4 topLeft.y topRight.y botLeft.y botRight.y
  let newMinY := min4 topLeft.y topRight.y botLeft.y botRight.y
  let transformed : Image K :=
    Image.create (truncInt (newMaxX - newMinX + 1)) (truncInt (newMaxY - newMinY + 1))
  let dx : K := (newMaxX - newMinX) / (transformed.width : K)
  let dy : K := (newMaxY - newMinY) / (transformed.height : K)
  let sizeRatio : K := ((transformed.width * transformed.height : Int) : K)
    / ((image.width * image.height : Int) : K)
  let source : Image K :=
    if sizeRatio < 1 / 4 then gaussianBlurSeparable m image 9 3 else image
  { newMaxX := newMaxX, newMinX := newMinX, newMaxY := newMaxY, newMinY := newMinY,
    outW := transformed.width, outH := transformed.height, dx := dx, dy := dy,
    sizeRatio := sizeRatio, source := source, transformInv := transform.inverse }

/-- The sample position `transformInv * Vec2(newMinX + x * dx, newMinY + y * dy)`. -/
def TransformSetup.samplePos (s : TransformSetup K) (x y : Int) : Vec2 K :=
  s.transformInv.mulVec ⟨s.newMinX + (x : K) * s.dx, s.newMinY + (y : K) * s.dy⟩

/-- The acceptance test of lines 105-106 on a sample position. -/
def TransformSetup.accepts (s : TransformSetup K) (p : Vec2 K) : Prop :=
  -(1 / 2) ≤ p.x ∧ p.x ≤ (s.source.width : K) - 1 / 2 ∧
  -(1 / 2) ≤ p.y ∧ p.y ≤ (s.source.height : K) - 1 / 2

instance (s : TransformSetup K) (p : Vec2 K) : Decidable (s.accepts p) := by
  unfold TransformSetup.accepts
  infer_instance

/-- The colour computed on line 108 for an accepted sample position. -/
def TransformSetup.sample (s : TransformSetup K) (p : Vec2 K) : Pixel K :=
  bilinearInterp s.source (p.x + 1 / 2) (((s.source.height - 1 : Int) : K) - p.y + 1 / 2)

def transform (m : Libm K) (image : Image K) (transform : Mat2 K) : Image K :=
  let s := transformSetup m image transform
  let transformed : Image K := Image.create s.outW s.outH
  forLoop transformed.height (fun y transformed =>
    forLoop transformed.width (fun x transformed =>
      let samplePos := s.samplePos x y
      if s.accepts samplePos then
        let color := s.sample samplePos
        transformed.setColor x (transformed.height - y - 1) color
      else transformed) transformed) transformed

def rotate (m : Libm K) (image : Image K) (angleDeg : K) : Image K :=
  let angleRad : K := m.pi * angleDeg / 180
  let cosAngle := m.cosf angleRad
  let sinAngle := m.sinf angleRad
  let rotMat : Mat2 K := ⟨cosAngle, -sinAngle, sinAngle, cosAngle⟩
  transform m image rotMat

def scale (m : Libm K) (image : Image K) (scaleX scaleY : K) : Image K :=
  let scaleMat : Mat2 K := ⟨scaleX, 0, 0, scaleY⟩
  transform m image scaleMat

def skew (m : Libm K) (image : Image K) (skewX skewY : K) : Image K :=
  let skewMat : Mat2 K := ⟨1, skewX, skewY, 1⟩
  transform m image skewMat

/-! ## Definitions used to state the properties -/

/-- The outer product `F[a][b] = f[a] * f[b]` of a 1D filter with itself. -/
def outerProduct (f : FilterType1D K) : FilterType2D K :=
  f.map (fun wa => f.map (fun wb => wa * wb))

/-- The sum of all weights of a 2D filter. -/
def kernelSum {K : Type} [LinearOrderedField K] (filter : FilterType2D K) : K :=
  (filter.map List.sum).sum

/-! ## Concrete inputs -/

/-- A 3×2 image with pixel `(x, y) = (x, y, 1)`. -/
def rampImage : Image ℚ := ⟨3, 2, fun x y => ⟨(x : ℚ), (y : ℚ), 1⟩⟩

/-- The 2×2 image with every pixel `(1, 1, 1)`. -/
def onesImage : Image ℚ := ⟨2, 2, fun _ _ => ⟨1, 1, 1⟩⟩

/-- A 1×1 image with pixel `(2, 3, 5)`. -/
def singlePixelImage : Image ℚ := ⟨1, 1, fun _ _ => ⟨2, 3, 5⟩⟩

/-- A 1D filter of radius 1. -/
def binomialFilter : FilterType1D ℚ := [1, 2, 1]

/-- A 3×3 filter that is neither symmetric nor separable. -/
def countingFilter : FilterType2D ℚ := [[1, 2, 3], [4, 5, 6], [7, 8, 9]]

/-- The C math library in exact real arithmetic. -/
noncomputable def realLibm : Libm ℝ := ⟨Real.exp, Real.sqrt, Real.cos, Real.sin, Real.pi⟩

/-- The 3×2 ramp image over the reals. -/
noncomputable def realRampImage : Image ℝ := ⟨3, 2, fun x y => ⟨(x : ℝ), (y : ℝ), 1⟩⟩

/-- The 10×10 image with a single white pixel at `(5, 5)` in a zero field. -/
def dotImage : Image ℚ :=
  ⟨10, 10, fun x y => if x = 5 ∧ y = 5 then ⟨1, 1, 1⟩ else ⟨0, 0, 0⟩⟩

/-- The shear matrix of `skew(image, 2, 0)`. -/
noncomputable def shearMat : Mat2 ℝ := ⟨1, 2, 0, 1⟩

/-- An 8×8 image with pixel `(x, y) = (x/7, y/7, 0)`. -/
noncomputable def gradient8 : Image ℝ := ⟨8, 8, fun x y => ⟨(x : ℝ) / 7, (y : ℝ) / 7, 0⟩⟩

/-- The matrix of `scale(image, 1/4, 1/4)`. -/
noncomputable def quarterScaleMat : Mat2 ℝ := ⟨1 / 4, 0, 0, 1 / 4⟩

/-- The identity matrix. -/
def identityMat {K : Type} [LinearOrderedField K] : Mat2 K := ⟨1, 0, 0, 1⟩

/-- The 4×4 image with pixel `(x, y) = (x/3, y/3, 0)`. -/
noncomputable def gradient4 : Image ℝ := ⟨4, 4, fun x y => ⟨(x : ℝ) / 3, (y : ℝ) / 3, 0⟩⟩

/-! ## Read positions of the bilinear sampler -/

/-- The anchor column `x0` of `bilinearInterp` (line 32). -/
def bilinearX0 {K : Type} [LinearOrderedField K] [FloorRing K] (image : Image K) (x : K) : Int :=
  min (truncInt x) (image.width - 1)

/-- The anchor row `y0` of `bilinearInterp` (line 33). -/
def bilinearY0 {K : Type} [LinearOrderedField K] [FloorRing K] (image : Image K) (y : K) : Int :=
  min (truncInt y) (image.height - 1)

/-- The column `x1` of `bilinearInterp` (line 34). -/
def bilinearX1 {K : Type} [LinearOrderedField K] [FloorRing K] (image : Image K) (x : K) : Int :=
  min (bilinearX0 image x + 1) (image.width - 1)

/-- The row `y1` of `bilinearInterp` (line 35). -/
def bilinearY1 {K : Type} [LinearOrderedField K] [FloorRing K] (image : Image K) (y : K) : Int :=
  min (bilinearY0 image y + 1) (image.height - 1)

/-- The coordinates of the four `getColor` calls of `bilinearInterp` (lines 38-41),
in the order `c00`, `c01`, `c10`, `c11`. -/
def bilinearInterpReads {K : Type} [LinearOrderedField K] [FloorRing K] (image : Image K)
    (x y : K) : List (Int × Int) :=
  [(bilinearX0 image x, bilinearY0 image y), (bilinearX0 image x, bilinearY1 image y),
    (bilinearX1 image x, bilinearY0 image y), (bilinearX1 image x, bilinearY1 image y)]

/-- The 1×1 image with pixel `(2, 3, 5)` over the reals. -/
noncomputable def realSinglePixelImage : Image ℝ := ⟨1, 1, fun _ _ => ⟨2, 3, 5⟩⟩

/-- A 1×3 image (one column) with pixel `(0, y) = (0, y, 0)`. -/
noncomputable def columnImage : Image ℝ := ⟨1, 3, fun _ y => ⟨0, (y : ℝ), 0⟩⟩

/-! ## Read positions of the convolution primitives -/

/-- One tap of `convolvePixel2D`: the filter indices of `filter[fa][fb]` and the
coordinates of `image.getColor(ix, iy)`. -/
structure Tap2D where
  fa : Int
  fb : Int
  ix : Int
  iy : Int
deriving DecidableEq

/-- One tap of `convolvePixel1D`: the filter index of `filter[fi]` and the
coordinates of `image.getColor(ix, iy)`. -/
structure Tap1D where
  fi : Int
  ix : Int
  iy : Int
deriving DecidableEq

/-- The taps of `convolvePixel2D` (lines 165-178) in execution order: the same
loops, recording the indices of each filter read and image read. -/
def convolvePixel2DTaps {K : Type} [LinearOrderedField K] [FloorRing K] (image : Image K)
    (filter : FilterType2D K) (x y : Int) : List Tap2D :=
  let r : Int := filterRadius filter.length
  forRange (y - r) (y + r) (fun j taps =>
    forRange (x - r) (x + r) (fun i taps =>
      let clampI : Int := max 0 (min i (image.width - 1))
      let clampJ : Int := max 0 (min j (image.height - 1))
      taps ++ [⟨i - x + r, j - y + r, clampI, clampJ⟩]) taps) []

/-- The taps of `convolvePixel1D` (lines 211-233) in execution order: the same
loop, recording the index of each filter read and the coordinates of each image read. -/
def convolvePixel1DTaps {K : Type} [LinearOrderedField K] [FloorRing K] (image : Image K)
    (filter : FilterType1D K) (x y : Int) (vert : Bool) : List Tap1D :=
  let r : Int := filterRadius filter.length
  let xy : Int × Int := if vert then (y, x) else (x, y)
  let x := xy.1
  let y := xy.2
  forRange (x - r) (x + r) (fun i taps =>
    if vert then
      let clampI : Int := max 0 (min i (image.height - 1))
      taps ++ [⟨i - x + r, y, clampI⟩]
    else
      let clampI : Int := max 0 (min i (image.width - 1))
      taps ++ [⟨i - x + r, clampI, y⟩]) []

/-! ## Single-precision arithmetic for the output dimensions

The exact model above takes `int(newMaxX - newMinX + 1)` of the exact span.  The
program computes the span in `float`; the definitions below round every `float`
operation of lines 61-80 to IEEE 754 binary32 (round to nearest, ties to even),
for values below the overflow threshold. -/

/-- Rounding to the nearest integer, ties to the even integer. -/
def roundHalfEven (q : ℚ) : Int :=
  if q - (⌊q⌋ : ℚ) < 1 / 2 then ⌊q⌋
  else if 1 / 2 < q - (⌊q⌋ : ℚ) then ⌊q⌋ + 1
  else if ⌊q⌋ % 2 = 0 then ⌊q⌋ else ⌊q⌋ + 1

/-- The binary exponent of the `float` binade of `x`: `⌊log₂ |x|⌋`, and `-126`
in the subnormal range. -/
def f32Exponent (x : ℚ) : Int := max (Int.log 2 |x|) (-126)

/-- The spacing of `float` values in the binade of `x` (24-bit significand). -/
def f32Ulp (x : ℚ) : ℚ := (2 : ℚ) ^ (f32Exponent x - 23)

/-- The value a C++ `float` holds after an operation whose exact result is `x`. -/
def roundF32 (x : ℚ) : ℚ := (roundHalfEven (x / f32Ulp x) : ℚ) * f32Ulp x

/-- Modelled from the spec: `Mat2 * Vec2` in `float` arithmetic, each product
and each sum rounded. -/
def Mat2.mulVecF32 (m : Mat2 ℚ) (v : Vec2 ℚ) : Vec2 ℚ :=
  ⟨roundF32 (roundF32 (m.a * v.x) + roundF32 (m.b * v.y)),
    roundF32 (roundF32 (m.c * v.x) + roundF32 (m.d * v.y))⟩

/-- Lines 61-80 of `transform` in `float` arithmetic: the width and height passed
to the constructor of the output image. -/
def transformDimsF32 (image : Image ℚ) (transform : Mat2 ℚ) : Int × Int :=
  let maxX : ℚ := roundF32 ((image.width - 1 : Int) : ℚ)
  let maxY : ℚ := roundF32 ((image.height - 1 : Int) : ℚ)
  let topLeft : Vec2 ℚ := ⟨0, maxY⟩
  let topRight : Vec2 ℚ := ⟨maxX, maxY⟩
  let botLeft : Vec2 ℚ := ⟨0, 0⟩
  let botRight : Vec2 ℚ := ⟨maxX, 0⟩
  let topLeft := transform.mulVecF32 topLeft
  let topRight := transform.mulVecF32 topRight
  let botLeft := transform.mulVecF32 botLeft
  let botRight := transform.mulVecF32 botRight
  let newMaxX := max4 topLeft.x topRight.x botLeft.x botRight.x
  let newMinX := min4 topLeft.x topRight.x botLeft.x botRight.x
  let newMaxY := max4 topLeft.y topRight.y botLeft.y botRight.y
  let newMinY := min4 topLeft.y topRight.y botLeft.y botRight.y
  (truncInt (roundF32 (roundF32 (newMaxX - newMinX) + 1)),
    truncInt (roundF32 (roundF32 (newMaxY - newMinY) + 1)))

/-- The dimensions of `scale(image, scaleX, scaleY)` in `float` arithmetic. -/
def scaleDimsF32 (image : Image ℚ) (scaleX scaleY : ℚ) : Int × Int :=
  let scaleMat : Mat2 ℚ := ⟨scaleX, 0, 0, scaleY⟩
  transformDimsF32 image scaleMat

/-- An 11×1 image with pixel `(x, 0) = (x, 0, 0)`. -/
def stripImage : Image ℚ := ⟨11, 1, fun x _ => ⟨(x : ℚ), 0, 0⟩⟩

/-- The `float` literal `0.7f`. -/
def sevenTenthsF32 : ℚ := 11744051 / 16777216

end Defs

/-! # Verified properties -/

set_option linter.unusedSectionVars false
set_option linter.unusedVariables false

section Lemmas

variable {K : Type} [LinearOrderedField K] [FloorRing K]

theorem Pixel.ext_get {p q : Pixel K} (h : ∀ c, p.get c = q.get c) : p = q := by
  cases p; cases q
  have h1 := h Channel.r
  have h2 := h Channel.g
  have h3 := h Channel.b
  simp only [Pixel.get] at h1 h2 h3
  subst h1 h2 h3
  rfl

theorem Pixel.get_zero (c : Channel) : (Pixel.zero : Pixel K).get c = 0 := by
  cases c <;> rfl

theorem Pixel.get_accum (s v : Pixel K) (w : K) (c : Channel) :
    (s.accum v w).get c = s.get c + v.get c * w := by
  cases c <;> rfl

/-! ### Loops -/

theorem forLoop_invariant {σ : Type} (P : Nat → σ → Prop) (n : Int) (body : Int → σ → σ) (s : σ)
    (h0 : P 0 s) (hstep : ∀ (k : Nat) (t : σ), (k : Int) < n → P k t → P (k + 1) (body k t)) :
    P n.toNat (forLoop n body s) := by
  unfold forLoop
  have key : ∀ m : Nat, m ≤ n.toNat →
      P m ((List.range m).foldl (fun (acc : σ) (k : Nat) => body (k : Int) acc) s) := by
    intro m
    induction m with
    | zero => intro _; simpa using h0
    | succ m ih =>
      intro hm
      rw [List.range_succ, List.foldl_append]
      simp only [List.foldl_cons, List.foldl_nil]
      apply hstep
      · omega
      · exact ih (by omega)
  exact key _ le_rfl

theorem forRange_acc {σ : Type} (φ : σ → K) (lo hi : Int) (body : Int → σ → σ) (F : Int → K)
    (h : ∀ i s, φ (body i s) = φ s + F i) (s0 : σ) :
    φ (forRange lo hi body s0)
      = φ s0 + ∑ k in Finset.range (hi - lo + 1).toNat, F (lo + (k : Int)) := by
  unfold forRange
  generalize (hi - lo + 1).toNat = n
  induction n with
  | zero => simp
  | succ n ih =>
    rw [List.range_succ, List.foldl_append, Finset.sum_range_succ]
    simp only [List.foldl_cons, List.foldl_nil]
    rw [h, ih]
    ring

/-- Effect of one row of a pixel-writing loop nest: the inner loop over `x` in
`[0, w)` rewrites exactly the pixels `(x, b0)`. -/
theorem rowLoop_spec (W H w b0 : Int) (body : Int → Image K → Image K)
    (val : Int → Pixel K → Pixel K)
    (hdim : ∀ x img, img.width = W → img.height = H →
      (body x img).width = W ∧ (body x img).height = H)
    (hframe : ∀ x img a b, img.width = W → img.height = H → ¬(a = x ∧ b = b0) →
      (body x img).pix a b = img.pix a b)
    (hval : ∀ x img, img.width = W → img.height = H →
      (body x img).pix x b0 = val x (img.pix x b0))
    (img0 : Image K) (hW : img0.width = W) (hH : img0.height = H) :
    (forLoop w body img0).width = W ∧ (forLoop w body img0).height = H ∧
    ∀ a b, (forLoop w body img0).pix a b
      = if 0 ≤ a ∧ a < w ∧ b = b0 then val a (img0.pix a b0) else img0.pix a b := by
  have key := forLoop_invariant
    (fun (k : Nat) (t : Image K) => t.width = W ∧ t.height = H ∧
      ∀ a b, t.pix a b
        = if 0 ≤ a ∧ a < (k : Int) ∧ b = b0 then val a (img0.pix a b0) else img0.pix a b)
    w body img0 ?_ ?_
  · obtain ⟨h1, h2, h3⟩ := key
    refine ⟨h1, h2, fun a b => ?_⟩
    rw [h3]
    by_cases hw : 0 ≤ w
    · rw [Int.toNat_of_nonneg hw]
    · have : w.toNat = 0 := by omega
      rw [this]
      have h1 : ¬ (0 ≤ a ∧ a < ((0 : Nat) : Int) ∧ b = b0) := by omega
      have h2 : ¬ (0 ≤ a ∧ a < w ∧ b = b0) := by omega
      rw [if_neg h1, if_neg h2]
  · refine ⟨hW, hH, fun a b => ?_⟩
    have h1 : ¬ (0 ≤ a ∧ a < ((0 : Nat) : Int) ∧ b = b0) := by omega
    rw [if_neg h1]
  · rintro k t _ ⟨tW, tH, tpix⟩
    refine ⟨(hdim k t tW tH).1, (hdim k t tW tH).2, fun a b => ?_⟩
    by_cases hab : a = (k : Int) ∧ b = b0
    · obtain ⟨ha, hb⟩ := hab
      subst ha hb
      rw [hval _ t tW tH, tpix]
      have h1 : ¬ (0 ≤ (k : Int) ∧ (k : Int) < (k : Int) ∧ b = b) := by omega
      have h2 : (0 ≤ (k : Int) ∧ (k : Int) < ((k + 1 : Nat) : Int) ∧ b = b) := by omega
      rw [if_neg h1, if_pos h2]
    · rw [hframe _ t a b tW tH hab, tpix]
      by_cases hc : 0 ≤ a ∧ a < (k : Int) ∧ b = b0
      · have h2 : (0 ≤ a ∧ a < ((k + 1 : Nat) : Int) ∧ b = b0) := by omega
        rw [if_pos hc, if_pos h2]
      · have h2 : ¬ (0 ≤ a ∧ a < ((k + 1 : Nat) : Int) ∧ b = b0) := by omega
        rw [if_neg hc, if_neg h2]

/-- Effect of a pixel-writing loop nest (`for y in [0,h)`, `for x in [0,w)`,
the inner bound being read from the image under construction) whose body at
`(x, y)` touches only the pixel `(x, g y)`, for `g` injective on `[0, h)`:
that pixel ends up as `val x y` of its initial value. -/
theorem loopNest_spec (W H w h : Int) (g : Int → Int) (wfun : Image K → Int)
    (body : Int → Int → Image K → Image K) (val : Int → Int → Pixel K → Pixel K)
    (hwfun : ∀ img : Image K, img.width = W → img.height = H → wfun img = w)
    (hdim : ∀ x y img, img.width = W → img.height = H →
      (body x y img).width = W ∧ (body x y img).height = H)
    (hframe : ∀ x y img a b, img.width = W → img.height = H → ¬(a = x ∧ b = g y) →
      (body x y img).pix a b = img.pix a b)
    (hval : ∀ x y img, img.width = W → img.height = H →
      (body x y img).pix x (g y) = val x y (img.pix x (g y)))
    (hinj : ∀ y y2, 0 ≤ y → y < h → 0 ≤ y2 → y2 < h → g y = g y2 → y = y2)
    (img0 : Image K) (hW : img0.width = W) (hH : img0.height = H) :
    (forLoop h (fun y img => forLoop (wfun img) (fun x img => body x y img) img) img0).width = W ∧
    (forLoop h (fun y img => forLoop (wfun img) (fun x img => body x y img) img) img0).height = H ∧
    ∀ x y, 0 ≤ x → x < w → 0 ≤ y → y < h →
      (forLoop h (fun y img => forLoop (wfun img) (fun x img => body x y img) img) img0).pix
          x (g y)
        = val x y (img0.pix x (g y)) := by
  have key := forLoop_invariant
    (fun (k : Nat) (t : Image K) => t.width = W ∧ t.height = H ∧
      (∀ a b, (∀ y, 0 ≤ y → y < (k : Int) → b ≠ g y) → t.pix a b = img0.pix a b) ∧
      (∀ x y, 0 ≤ x → x < w → 0 ≤ y → y < (k : Int) →
        t.pix x (g y) = val x y (img0.pix x (g y))))
    h (fun y img => forLoop (wfun img) (fun x img => body x y img) img) img0 ?_ ?_
  · obtain ⟨h1, h2, _, h4⟩ := key
    refine ⟨h1, h2, fun x y hx0 hxw hy0 hyh => ?_⟩
    apply h4 x y hx0 hxw hy0
    omega
  · refine ⟨hW, hH, fun _ _ _ => rfl, fun x y _ _ hy0 hyk => ?_⟩
    omega
  · rintro k t hk ⟨tW, tH, tframe, tpix⟩
    obtain ⟨rW, rH, rpix⟩ := rowLoop_spec W H w (g k) (fun x img => body x k img) (val · k)
      (fun x img => hdim x k img) (fun x img => hframe x k img) (fun x img => hval x k img)
      t tW tH
    dsimp only
    rw [hwfun t tW tH]
    refine ⟨rW, rH, fun a b hb => ?_, fun x y hx0 hxw hy0 hyk => ?_⟩
    · rw [rpix]
      have hne : b ≠ g k := hb k (by omega) (by omega)
      have h1 : ¬ (0 ≤ a ∧ a < w ∧ b = g k) := fun hc => hne hc.2.2
      rw [if_neg h1]
      exact tframe a b (fun y hy0 hyk => hb y hy0 (by omega))
    · rw [rpix]
      by_cases hyk2 : y = (k : Int)
      · subst hyk2
        rw [if_pos ⟨hx0, hxw, rfl⟩]
        rw [tframe x (g k)]
        intro y hy0 hyk3 heq
        have := hinj (k : Int) y (by omega) hk hy0 (by omega) heq
        omega
      · have hne : g y ≠ g k := by
          intro heq
          have := hinj y k hy0 (by omega) (by omega) hk heq
          exact hyk2 this
        have h1 : ¬ (0 ≤ x ∧ x < w ∧ g y = g k) := fun hc => hne hc.2.2
        rw [if_neg h1]
        exact tpix x y hx0 hxw hy0 (by omega)

/-- The loop nest `img.setColor x y (f x y)` over `[0,w) × [0,h)` started from
the zero image of that size yields `f` at every in-range pixel. -/
theorem fillLoop_spec (w h : Int) (f : Int → Int → Pixel K) :
    (forLoop h (fun y img => forLoop img.width (fun x img => Image.setColor img x y (f x y)) img)
        (Image.create w h : Image K)).width = w ∧
    (forLoop h (fun y img => forLoop img.width (fun x img => Image.setColor img x y (f x y)) img)
        (Image.create w h : Image K)).height = h ∧
    ∀ x y, 0 ≤ x → x < w → 0 ≤ y → y < h →
      (forLoop h (fun y img => forLoop img.width (fun x img => Image.setColor img x y (f x y)) img)
        (Image.create w h : Image K)).getColor x y = f x y := by
  have key := loopNest_spec w h w h (fun y => y) (fun img : Image K => img.width)
    (fun x y (img : Image K) => Image.setColor img x y (f x y)) (fun x y _ => f x y)
    (fun img hw _ => hw)
    (fun x y img hw hh => ⟨hw, hh⟩)
    (fun x y img a b _ _ hab => by simp only [Image.setColor]; rw [if_neg hab])
    (fun x y img _ _ => by simp [Image.setColor])
    (fun y y2 _ _ _ _ heq => heq)
    (Image.create w h) rfl rfl
  exact key

theorem convolveImage2D_width (image : Image K) (filter : FilterType2D K) :
    (convolveImage2D image filter).width = image.width :=
  (fillLoop_spec image.width image.height (convolvePixel2D image filter)).1

theorem convolveImage2D_height (image : Image K) (filter : FilterType2D K) :
    (convolveImage2D image filter).height = image.height :=
  (fillLoop_spec image.width image.height (convolvePixel2D image filter)).2.1

theorem convolveImage2D_getColor (image : Image K) (filter : FilterType2D K) (x y : Int)
    (hx0 : 0 ≤ x) (hxw : x < image.width) (hy0 : 0 ≤ y) (hyh : y < image.height) :
    (convolveImage2D image filter).getColor x y = convolvePixel2D image filter x y :=
  (fillLoop_spec image.width image.height (convolvePixel2D image filter)).2.2 x y hx0 hxw hy0 hyh

theorem horizontalPass_width (image : Image K) (filter : FilterType1D K) :
    (horizontalPass image filter).width = image.width :=
  (fillLoop_spec image.width image.height (fun x y => convolvePixel1D image filter x y false)).1

theorem horizontalPass_height (image : Image K) (filter : FilterType1D K) :
    (horizontalPass image filter).height = image.height :=
  (fillLoop_spec image.width image.height (fun x y => convolvePixel1D image filter x y false)).2.1

theorem horizontalPass_getColor (image : Image K) (filter : FilterType1D K) (x y : Int)
    (hx0 : 0 ≤ x) (hxw : x < image.width) (hy0 : 0 ≤ y) (hyh : y < image.height) :
    (horizontalPass image filter).getColor x y = convolvePixel1D image filter x y false :=
  (fillLoop_spec image.width image.height
    (fun x y => convolvePixel1D image filter x y false)).2.2 x y hx0 hxw hy0 hyh

theorem convolveImageSeparable_eq (image : Image K) (filter : FilterType1D K) :
    convolveImageSeparable image filter
      = forLoop (horizontalPass image filter).height (fun y convolved =>
          forLoop convolved.width (fun x convolved =>
            convolved.setColor x y
              (convolvePixel1D (horizontalPass image filter) filter x y true)) convolved)
          (Image.create (horizontalPass image filter).width (horizontalPass image filter).height) :=
  rfl

theorem convolveImageSeparable_width (image : Image K) (filter : FilterType1D K) :
    (convolveImageSeparable image filter).width = image.width := by
  rw [convolveImageSeparable_eq]
  exact (fillLoop_spec _ _ _).1.trans (horizontalPass_width image filter)

theorem convolveImageSeparable_height (image : Image K) (filter : FilterType1D K) :
    (convolveImageSeparable image filter).height = image.height := by
  rw [convolveImageSeparable_eq]
  exact (fillLoop_spec _ _ _).2.1.trans (horizontalPass_height image filter)

theorem convolveImageSeparable_getColor (image : Image K) (filter : FilterType1D K) (x y : Int)
    (hx0 : 0 ≤ x) (hxw : x < image.width) (hy0 : 0 ≤ y) (hyh : y < image.height) :
    (convolveImageSeparable image filter).getColor x y
      = convolvePixel1D (horizontalPass image filter) filter x y true := by
  rw [convolveImageSeparable_eq]
  refine (fillLoop_spec _ _ _).2.2 x y hx0 ?_ hy0 ?_
  · rw [horizontalPass_width]; exact hxw
  · rw [horizontalPass_height]; exact hyh

/-! ### Convolution taps as sums -/

theorem filterRadius_odd (r : Nat) : filterRadius (2 * r + 1) = (r : Int) := by
  unfold filterRadius
  push_cast
  omega

theorem convolvePixel2D_get (image : Image K) (filter : FilterType2D K) (r : Nat)
    (hlen : filter.length = 2 * r + 1) (x y : Int) (c : Channel) :
    (convolvePixel2D image filter x y).get c
      = ∑ b in Finset.range (2 * r + 1), ∑ a in Finset.range (2 * r + 1),
          (image.getColor (max 0 (min (x - r + a) (image.width - 1)))
            (max 0 (min (y - r + b) (image.height - 1)))).get c
          * FilterType2D.at filter a b := by
  unfold convolvePixel2D
  rw [hlen, filterRadius_odd]
  simp only []
  rw [forRange_acc (fun p : Pixel K => p.get c) _ _ _
    (fun j => ∑ a in Finset.range (2 * r + 1),
      (image.getColor (max 0 (min (x - r + a) (image.width - 1)))
        (max 0 (min j (image.height - 1)))).get c
      * FilterType2D.at filter a (j - y + r))]
  · rw [Pixel.get_zero, zero_add]
    have hn : (y + (r : Int) - (y - r) + 1).toNat = 2 * r + 1 := by omega
    rw [hn]
    refine Finset.sum_congr rfl (fun b _ => Finset.sum_congr rfl (fun a _ => ?_))
    have : y - (r : Int) + b - y + r = b := by ring
    rw [this]
  · intro j s
    rw [forRange_acc (fun p : Pixel K => p.get c) _ _ _
      (fun i => (image.getColor (max 0 (min i (image.width - 1)))
          (max 0 (min j (image.height - 1)))).get c
        * FilterType2D.at filter (i - x + r) (j - y + r))]
    · have hn : (x + (r : Int) - (x - r) + 1).toNat = 2 * r + 1 := by omega
      rw [hn]
      congr 1
      refine Finset.sum_congr rfl (fun a _ => ?_)
      have : x - (r : Int) + a - x + r = a := by ring
      rw [this]
    · intro i s
      exact Pixel.get_accum _ _ _ _

theorem convolvePixel1D_horizontal_get (image : Image K) (filter : FilterType1D K) (r : Nat)
    (hlen : filter.length = 2 * r + 1) (x y : Int) (c : Channel) :
    (convolvePixel1D image filter x y false).get c
      = ∑ a in Finset.range (2 * r + 1),
          (image.getColor (max 0 (min (x - r + a) (image.width - 1))) y).get c
          * FilterType1D.at filter a := by
  unfold convolvePixel1D
  rw [hlen, filterRadius_odd]
  simp only [Bool.false_eq_true, if_false]
  rw [forRange_acc (fun p : Pixel K => p.get c) _ _ _
    (fun i => (image.getColor (max 0 (min i (image.width - 1))) y).get c
        * FilterType1D.at filter (i - x + r))]
  · rw [Pixel.get_zero, zero_add]
    have hn : (x + (r : Int) - (x - r) + 1).toNat = 2 * r + 1 := by omega
    rw [hn]
    refine Finset.sum_congr rfl (fun a _ => ?_)
    have : x - (r : Int) + a - x + r = a := by ring
    rw [this]
  · intro i s
    exact Pixel.get_accum _ _ _ _

theorem convolvePixel1D_vertical_get (image : Image K) (filter : FilterType1D K) (r : Nat)
    (hlen : filter.length = 2 * r + 1) (x y : Int) (c : Channel) :
    (convolvePixel1D image filter x y true).get c
      = ∑ b in Finset.range (2 * r + 1),
          (image.getColor x (max 0 (min (y - r + b) (image.height - 1)))).get c
          * FilterType1D.at filter b := by
  unfold convolvePixel1D
  rw [hlen, filterRadius_odd]
  simp only [if_true]
  rw [forRange_acc (fun p : Pixel K => p.get c) _ _ _
    (fun i => (image.getColor x (max 0 (min i (image.height - 1)))).get c
        * FilterType1D.at filter (i - y + r))]
  · rw [Pixel.get_zero, zero_add]
    have hn : (y + (r : Int) - (y - r) + 1).toNat = 2 * r + 1 := by omega
    rw [hn]
    refine Finset.sum_congr rfl (fun a _ => ?_)
    have : y - (r : Int) + a - y + r = a := by ring
    rw [this]
  · intro i s
    exact Pixel.get_accum _ _ _ _

/-! ### The resampling loops of `transform` -/

theorem transform_spec (m : Libm K) (image : Image K) (t : Mat2 K) :
    (transform m image t).width = (transformSetup m image t).outW ∧
    (transform m image t).height = (transformSetup m image t).outH ∧
    ∀ x y, 0 ≤ x → x < (transformSetup m image t).outW →
      0 ≤ y → y < (transformSetup m image t).outH →
      (transform m image t).getColor x ((transformSetup m image t).outH - y - 1)
        = if (transformSetup m image t).accepts ((transformSetup m image t).samplePos x y)
          then (transformSetup m image t).sample ((transformSetup m image t).samplePos x y)
          else Pixel.zero := by
  have key := loopNest_spec (transformSetup m image t).outW (transformSetup m image t).outH
    (transformSetup m image t).outW (transformSetup m image t).outH
    (fun y => (transformSetup m image t).outH - y - 1) (fun img : Image K => img.width)
    (fun x y (img : Image K) =>
      if (transformSetup m image t).accepts ((transformSetup m image t).samplePos x y) then
        img.setColor x (img.height - y - 1)
          ((transformSetup m image t).sample ((transformSetup m image t).samplePos x y))
      else img)
    (fun x y old =>
      if (transformSetup m image t).accepts ((transformSetup m image t).samplePos x y) then
        (transformSetup m image t).sample ((transformSetup m image t).samplePos x y)
      else old)
    (fun img hw _ => hw)
    (fun x y img hw hh => by dsimp only; split_ifs <;> exact ⟨hw, hh⟩)
    (fun x y img a b _ hh hab => by
      dsimp only at hab ⊢
      split_ifs
      · simp only [Image.setColor]
        rw [hh, if_neg hab]
      · rfl)
    (fun x y img _ hh => by
      dsimp only
      split_ifs
      · simp [Image.setColor, hh]
      · rfl)
    (fun y y2 _ _ _ _ heq => by dsimp only at heq; omega)
    (Image.create (transformSetup m image t).outW (transformSetup m image t).outH) rfl rfl
  exact key

theorem transform_width (m : Libm K) (image : Image K) (t : Mat2 K) :
    (transform m image t).width = (transformSetup m image t).outW :=
  (transform_spec m image t).1

theorem transform_height (m : Libm K) (image : Image K) (t : Mat2 K) :
    (transform m image t).height = (transformSetup m image t).outH :=
  (transform_spec m image t).2.1

theorem gaussianBlurSeparable_width (m : Libm K) (image : Image K) (radius : Int) (stddev : K) :
    (gaussianBlurSeparable m image radius stddev).width = image.width :=
  convolveImageSeparable_width _ _

theorem gaussianBlurSeparable_height (m : Libm K) (image : Image K) (radius : Int) (stddev : K) :
    (gaussianBlurSeparable m image radius stddev).height = image.height :=
  convolveImageSeparable_height _ _

theorem transformSetup_source (m : Libm K) (image : Image K) (t : Mat2 K) :
    (transformSetup m image t).source
      = if (transformSetup m image t).sizeRatio < 1 / 4
        then gaussianBlurSeparable m image 9 3 else image := rfl

theorem transformSetup_sizeRatio (m : Libm K) (image : Image K) (t : Mat2 K) :
    (transformSetup m image t).sizeRatio
      = (((transformSetup m image t).outW * (transformSetup m image t).outH : Int) : K)
        / ((image.width * image.height : Int) : K) := rfl

theorem transformSetup_source_width (m : Libm K) (image : Image K) (t : Mat2 K) :
    (transformSetup m image t).source.width = image.width := by
  rw [transformSetup_source]
  split_ifs
  · exact gaussianBlurSeparable_width _ _ _ _
  · rfl

theorem transformSetup_source_height (m : Libm K) (image : Image K) (t : Mat2 K) :
    (transformSetup m image t).source.height = image.height := by
  rw [transformSetup_source]
  split_ifs
  · exact gaussianBlurSeparable_height _ _ _ _
  · rfl

/-! ### Separable convolution against the outer-product filter -/

theorem outerProduct_length (f : FilterType1D K) : (outerProduct f).length = f.length := by
  simp [outerProduct]

theorem outerProduct_at (f : FilterType1D K) (a b : Nat) :
    FilterType2D.at (outerProduct f) (a : Int) (b : Int)
      = FilterType1D.at f (a : Int) * FilterType1D.at f (b : Int) := by
  simp only [FilterType2D.at, FilterType1D.at, outerProduct, Int.toNat_ofNat,
    List.getD_eq_getElem?_getD, List.getElem?_map]
  cases ha : f[a]? <;> cases hb : f[b]? <;> simp [hb]

theorem clamp_range (i n : Int) (hn : 1 ≤ n) :
    0 ≤ max 0 (min i (n - 1)) ∧ max 0 (min i (n - 1)) < n := by
  omega

/-- Channel-wise value of the two-pass convolution: the double sum of the
clamped taps weighted by `f[a] * f[b]`. -/
theorem convolveImageSeparable_get (image : Image K) (f : FilterType1D K) (r : Nat)
    (hw : 1 ≤ image.width) (hh : 1 ≤ image.height) (hlen : f.length = 2 * r + 1)
    (x y : Int) (hx0 : 0 ≤ x) (hxw : x < image.width) (hy0 : 0 ≤ y) (hyh : y < image.height)
    (c : Channel) :
    ((convolveImageSeparable image f).getColor x y).get c
      = ∑ b in Finset.range (2 * r + 1), ∑ a in Finset.range (2 * r + 1),
          (image.getColor (max 0 (min (x - r + a) (image.width - 1)))
            (max 0 (min (y - r + b) (image.height - 1)))).get c
          * (FilterType1D.at f a * FilterType1D.at f b) := by
  rw [convolveImageSeparable_getColor image f x y hx0 hxw hy0 hyh,
    convolvePixel1D_vertical_get _ f r hlen, horizontalPass_height]
  refine Finset.sum_congr rfl (fun b _ => ?_)
  obtain ⟨h1, h2⟩ := clamp_range (y - r + b) image.height hh
  rw [horizontalPass_getColor image f x _ hx0 hxw h1 h2,
    convolvePixel1D_horizontal_get image f r hlen, Finset.sum_mul]
  refine Finset.sum_congr rfl (fun a _ => ?_)
  ring

theorem separable_eq_outer (image : Image K) (f : FilterType1D K) (r : Nat)
    (hw : 1 ≤ image.width) (hh : 1 ≤ image.height) (hlen : f.length = 2 * r + 1)
    (x y : Int) (hx0 : 0 ≤ x) (hxw : x < image.width) (hy0 : 0 ≤ y) (hyh : y < image.height) :
    (convolveImageSeparable image f).getColor x y
      = (convolveImage2D image (outerProduct f)).getColor x y := by
  apply Pixel.ext_get
  intro c
  rw [convolveImageSeparable_get image f r hw hh hlen x y hx0 hxw hy0 hyh,
    convolveImage2D_getColor image _ x y hx0 hxw hy0 hyh,
    convolvePixel2D_get image _ r ((outerProduct_length f).trans hlen)]
  refine Finset.sum_congr rfl (fun b _ => Finset.sum_congr rfl (fun a _ => ?_))
  rw [outerProduct_at]

/-! ### Box filters -/

theorem outerProduct_replicate (n : Nat) (w : K) :
    outerProduct (List.replicate n w) = List.replicate n (List.replicate n (w * w)) := by
  simp [outerProduct, List.map_replicate]

theorem boxBlur_eq_outer (image : Image K) (radius : Int) :
    boxBlur image radius
      = convolveImage2D image
          (outerProduct (List.replicate (2 * radius + 1).toNat (1 / ((2 * radius + 1 : Int) : K)))) := by
  unfold boxBlur
  rw [outerProduct_replicate]
  simp only [Int.cast_mul, one_div, mul_inv]

theorem boxFilter1D_length (r : Nat) (w : K) :
    (List.replicate (2 * (r : Int) + 1).toNat w).length = 2 * r + 1 := by
  rw [List.length_replicate]
  omega

theorem boxFilter1D_at (r : Nat) (w : K) (a : Nat) (ha : a < 2 * r + 1) :
    FilterType1D.at (List.replicate (2 * (r : Int) + 1).toNat w) (a : Int) = w := by
  have hn : (2 * (r : Int) + 1).toNat = 2 * r + 1 := by omega
  simp [FilterType1D.at, hn, List.getElem?_replicate, ha]

theorem boxWeight_sum (r : Nat) (v : K) :
    ∑ b in Finset.range (2 * r + 1), ∑ a in Finset.range (2 * r + 1),
        v * (1 / ((2 * (r : Int) + 1 : Int) : K) * (1 / ((2 * (r : Int) + 1 : Int) : K))) = v := by
  rw [Finset.sum_const, Finset.sum_const, Finset.card_range]
  simp only [nsmul_eq_mul]
  have h : ((2 * (r : Int) + 1 : Int) : K) = ((2 * r + 1 : Nat) : K) := by push_cast; ring
  rw [h]
  have hne : ((2 * r + 1 : Nat) : K) ≠ 0 := by
    exact_mod_cast Nat.succ_ne_zero (2 * r)
  field_simp
  ring

/-- Box blur of an image that is constant on its pixel range, through the
two-pass path. -/
theorem boxBlurSeparable_const (image : Image K) (r : Nat) (p : Pixel K)
    (hw : 1 ≤ image.width) (hh : 1 ≤ image.height)
    (hconst : ∀ a b, 0 ≤ a → a < image.width → 0 ≤ b → b < image.height →
      image.getColor a b = p)
    (x y : Int) (hx0 : 0 ≤ x) (hxw : x < image.width) (hy0 : 0 ≤ y) (hyh : y < image.height) :
    (boxBlurSeparable image (r : Int)).getColor x y = p := by
  apply Pixel.ext_get
  intro c
  unfold boxBlurSeparable
  simp only []
  rw [convolveImageSeparable_get image _ r hw hh (boxFilter1D_length r _) x y hx0 hxw hy0 hyh]
  rw [← boxWeight_sum r (p.get c)]
  refine Finset.sum_congr rfl (fun b hb => Finset.sum_congr rfl (fun a ha => ?_))
  obtain ⟨h1, h2⟩ := clamp_range (x - r + a) image.width hw
  obtain ⟨h3, h4⟩ := clamp_range (y - r + b) image.height hh
  rw [hconst _ _ h1 h2 h3 h4, boxFilter1D_at r _ a (Finset.mem_range.mp ha),
    boxFilter1D_at r _ b (Finset.mem_range.mp hb)]

theorem boxBlur_getColor_eq (image : Image K) (r : Nat)
    (hw : 1 ≤ image.width) (hh : 1 ≤ image.height)
    (x y : Int) (hx0 : 0 ≤ x) (hxw : x < image.width) (hy0 : 0 ≤ y) (hyh : y < image.height) :
    (boxBlur image (r : Int)).getColor x y = (boxBlurSeparable image (r : Int)).getColor x y := by
  rw [boxBlur_eq_outer]
  exact (separable_eq_outer image _ r hw hh (boxFilter1D_length r _) x y hx0 hxw hy0 hyh).symm

theorem boxBlur_width (image : Image K) (radius : Int) :
    (boxBlur image radius).width = image.width := convolveImage2D_width _ _

theorem boxBlur_height (image : Image K) (radius : Int) :
    (boxBlur image radius).height = image.height := convolveImage2D_height _ _

theorem boxBlurSeparable_width (image : Image K) (radius : Int) :
    (boxBlurSeparable image radius).width = image.width := convolveImageSeparable_width _ _

theorem boxBlurSeparable_height (image : Image K) (radius : Int) :
    (boxBlurSeparable image radius).height = image.height := convolveImageSeparable_height _ _

/-! ### Sums of filter weights -/

theorem sum_range_getD (l : List K) : ∑ k in Finset.range l.length, l.getD k 0 = l.sum := by
  induction l with
  | nil => simp
  | cons a l ih =>
    rw [List.length_cons, Finset.sum_range_succ', List.sum_cons]
    simp only [List.getD_cons_succ, List.getD_cons_zero]
    rw [ih, add_comm]

theorem sum_at_eq_kernelSum (filter : FilterType2D K) (r : Nat)
    (hlen : filter.length = 2 * r + 1) (hsq : ∀ row ∈ filter, row.length = 2 * r + 1) :
    ∑ a in Finset.range (2 * r + 1), ∑ b in Finset.range (2 * r + 1),
        FilterType2D.at filter (a : Int) (b : Int) = kernelSum filter := by
  unfold kernelSum
  rw [← sum_range_getD, List.length_map, hlen]
  refine Finset.sum_congr rfl (fun a ha => ?_)
  have ha2 : a < filter.length := by rw [hlen]; exact Finset.mem_range.mp ha
  have hrow : (filter.getD a []).length = 2 * r + 1 := by
    rw [List.getD_eq_getElem _ _ ha2]
    exact hsq _ (List.getElem_mem _)
  have h0 : (0 : K) = List.sum ([] : List K) := rfl
  rw [h0, List.getD_map, ← sum_range_getD, hrow]
  simp [FilterType2D.at]

/-! ### Gaussian filters -/

theorem gaussianFilter1D_length (m : Libm K) (r : Nat) (stddev : K) :
    (gaussianFilter1D m (r : Int) stddev).length = 2 * r + 1 := by
  simp only [gaussianFilter1D, List.length_map, List.length_range]
  omega

theorem gaussianFilter1D_at (m : Libm K) (radius : Int) (stddev : K) (i : Nat)
    (hi : (i : Int) < 2 * radius + 1) :
    FilterType1D.at (gaussianFilter1D m radius stddev) (i : Int)
      = m.expf (-((((i : Int) - radius : Int) : K) * (((i : Int) - radius : Int) : K))
          / (2 * stddev * stddev)) / m.sqrtf (m.pi * (2 * stddev * stddev)) := by
  have hi2 : i < (2 * radius + 1).toNat := by omega
  simp [FilterType1D.at, gaussianFilter1D, List.getElem?_range, hi2]

theorem gaussianFilter2D_at (m : Libm K) (radius : Int) (stddev : K) (i j : Nat)
    (hi : (i : Int) < 2 * radius + 1) (hj : (j : Int) < 2 * radius + 1) :
    FilterType2D.at (gaussianFilter2D m radius stddev) (i : Int) (j : Int)
      = m.expf (-((((i : Int) - radius : Int) : K) * (((i : Int) - radius : Int) : K)
            + (((j : Int) - radius : Int) : K) * (((j : Int) - radius : Int) : K))
          / (2 * stddev * stddev)) / (m.pi * (2 * stddev * stddev)) := by
  have hi2 : i < (2 * radius + 1).toNat := by omega
  have hj2 : j < (2 * radius + 1).toNat := by omega
  simp [FilterType2D.at, gaussianFilter2D, List.getElem?_range, hi2, hj2]

theorem real_gaussian_product (s a b : ℝ) (hs : 0 ≤ s) :
    Real.exp (-(a * a + b * b) / s) / (Real.pi * s)
      = Real.exp (-(a * a) / s) / Real.sqrt (Real.pi * s)
        * (Real.exp (-(b * b) / s) / Real.sqrt (Real.pi * s)) := by
  have hps : 0 ≤ Real.pi * s := mul_nonneg Real.pi_pos.le hs
  have e1 : -(a * a + b * b) / s = -(a * a) / s + -(b * b) / s := by ring
  rw [e1, Real.exp_add, div_mul_div_comm, Real.mul_self_sqrt hps]

theorem gaussianFilter2D_real_eq_outer (radius : Int) (stddev : ℝ) :
    gaussianFilter2D realLibm radius stddev
      = outerProduct (gaussianFilter1D realLibm radius stddev) := by
  have hs : (0 : ℝ) ≤ 2 * stddev * stddev := by nlinarith [mul_self_nonneg stddev]
  simp only [gaussianFilter2D, gaussianFilter1D, outerProduct, List.map_map, realLibm]
  refine List.map_congr_left (fun a _ => List.map_congr_left (fun b _ => ?_))
  simp only [Function.comp]
  exact real_gaussian_product _ _ _ hs

/-! ### The setup of `transform` -/

theorem truncInt_of_nonneg (t : K) (ht : 0 ≤ t) : truncInt t = ⌊t⌋ := by
  unfold truncInt
  rw [if_pos ht]

theorem truncInt_add_one (t : K) (ht : 0 ≤ t) : truncInt (t + 1) = ⌊t⌋ + 1 := by
  rw [truncInt_of_nonneg _ (by linarith), Int.floor_add_one]

theorem min4_le_max4 (p q r s : K) : min4 p q r s ≤ max4 p q r s := by
  unfold min4 max4
  exact le_trans (min_le_left _ _) (le_trans (min_le_left _ _)
    (le_trans (min_le_left _ _) (le_trans (le_max_left _ _)
      (le_trans (le_max_left _ _) (le_max_left _ _)))))

theorem transformSetup_outW (m : Libm K) (image : Image K) (t : Mat2 K) :
    (transformSetup m image t).outW
      = truncInt ((transformSetup m image t).newMaxX - (transformSetup m image t).newMinX + 1) :=
  rfl

theorem transformSetup_outH (m : Libm K) (image : Image K) (t : Mat2 K) :
    (transformSetup m image t).outH
      = truncInt ((transformSetup m image t).newMaxY - (transformSetup m image t).newMinY + 1) :=
  rfl

theorem transformSetup_dx (m : Libm K) (image : Image K) (t : Mat2 K) :
    (transformSetup m image t).dx
      = ((transformSetup m image t).newMaxX - (transformSetup m image t).newMinX)
        / ((transformSetup m image t).outW : K) := rfl

theorem transformSetup_dy (m : Libm K) (image : Image K) (t : Mat2 K) :
    (transformSetup m image t).dy
      = ((transformSetup m image t).newMaxY - (transformSetup m image t).newMinY)
        / ((transformSetup m image t).outH : K) := rfl

theorem transformSetup_transformInv (m : Libm K) (image : Image K) (t : Mat2 K) :
    (transformSetup m image t).transformInv = t.inverse := rfl

theorem transformSetup_spanX_nonneg (m : Libm K) (image : Image K) (t : Mat2 K) :
    0 ≤ (transformSetup m image t).newMaxX - (transformSetup m image t).newMinX :=
  sub_nonneg.mpr (min4_le_max4 _ _ _ _)

theorem transformSetup_spanY_nonneg (m : Libm K) (image : Image K) (t : Mat2 K) :
    0 ≤ (transformSetup m image t).newMaxY - (transformSetup m image t).newMinY :=
  sub_nonneg.mpr (min4_le_max4 _ _ _ _)

theorem transformSetup_outW_eq (m : Libm K) (image : Image K) (t : Mat2 K) :
    (transformSetup m image t).outW
      = ⌊(transformSetup m image t).newMaxX - (transformSetup m image t).newMinX⌋ + 1 := by
  rw [transformSetup_outW, truncInt_add_one _ (transformSetup_spanX_nonneg m image t)]

theorem transformSetup_outH_eq (m : Libm K) (image : Image K) (t : Mat2 K) :
    (transformSetup m image t).outH
      = ⌊(transformSetup m image t).newMaxY - (transformSetup m image t).newMinY⌋ + 1 := by
  rw [transformSetup_outH, truncInt_add_one _ (transformSetup_spanY_nonneg m image t)]

theorem transformSetup_outW_pos (m : Libm K) (image : Image K) (t : Mat2 K) :
    1 ≤ (transformSetup m image t).outW := by
  rw [transformSetup_outW_eq]
  have := Int.floor_nonneg.mpr (transformSetup_spanX_nonneg m image t)
  omega

theorem transformSetup_outH_pos (m : Libm K) (image : Image K) (t : Mat2 K) :
    1 ≤ (transformSetup m image t).outH := by
  rw [transformSetup_outH_eq]
  have := Int.floor_nonneg.mpr (transformSetup_spanY_nonneg m image t)
  omega

/-! ### The setup of `transform` for a diagonal matrix with positive entries -/

theorem max4_diag (v : K) (hv : 0 ≤ v) : max4 0 v 0 v = v := by
  simp [max4, hv]

theorem min4_diag (v : K) (hv : 0 ≤ v) : min4 0 v 0 v = 0 := by
  simp [min4, hv]

theorem max4_diag2 (v : K) (hv : 0 ≤ v) : max4 v v 0 0 = v := by
  simp [max4, hv]

theorem min4_diag2 (v : K) (hv : 0 ≤ v) : min4 v v 0 0 = 0 := by
  simp [min4, hv]

theorem scaleSetup_newMaxX (m : Libm K) (image : Image K) (sx sy : K)
    (hw : 1 ≤ image.width) (hsx : 0 < sx) :
    (transformSetup m image ⟨sx, 0, 0, sy⟩).newMaxX = sx * ((image.width - 1 : Int) : K) := by
  have hX : (0 : K) ≤ ((image.width - 1 : Int) : K) := by exact_mod_cast (by omega : 0 ≤ image.width - 1)
  simp only [transformSetup, Mat2.mulVec, mul_zero, zero_mul, add_zero, zero_add]
  exact max4_diag _ (mul_nonneg hsx.le hX)

theorem scaleSetup_newMinX (m : Libm K) (image : Image K) (sx sy : K)
    (hw : 1 ≤ image.width) (hsx : 0 < sx) :
    (transformSetup m image ⟨sx, 0, 0, sy⟩).newMinX = 0 := by
  have hX : (0 : K) ≤ ((image.width - 1 : Int) : K) := by exact_mod_cast (by omega : 0 ≤ image.width - 1)
  simp only [transformSetup, Mat2.mulVec, mul_zero, zero_mul, add_zero, zero_add]
  exact min4_diag _ (mul_nonneg hsx.le hX)

theorem scaleSetup_newMaxY (m : Libm K) (image : Image K) (sx sy : K)
    (hh : 1 ≤ image.height) (hsy : 0 < sy) :
    (transformSetup m image ⟨sx, 0, 0, sy⟩).newMaxY = sy * ((image.height - 1 : Int) : K) := by
  have hY : (0 : K) ≤ ((image.height - 1 : Int) : K) := by exact_mod_cast (by omega : 0 ≤ image.height - 1)
  simp only [transformSetup, Mat2.mulVec, mul_zero, zero_mul, add_zero, zero_add]
  exact max4_diag2 _ (mul_nonneg hsy.le hY)

theorem scaleSetup_newMinY (m : Libm K) (image : Image K) (sx sy : K)
    (hh : 1 ≤ image.height) (hsy : 0 < sy) :
    (transformSetup m image ⟨sx, 0, 0, sy⟩).newMinY = 0 := by
  have hY : (0 : K) ≤ ((image.height - 1 : Int) : K) := by exact_mod_cast (by omega : 0 ≤ image.height - 1)
  simp only [transformSetup, Mat2.mulVec, mul_zero, zero_mul, add_zero, zero_add]
  exact min4_diag2 _ (mul_nonneg hsy.le hY)

theorem scaleSetup_outW (m : Libm K) (image : Image K) (sx sy : K)
    (hw : 1 ≤ image.width) (hsx : 0 < sx) :
    (transformSetup m image ⟨sx, 0, 0, sy⟩).outW = ⌊sx * ((image.width - 1 : Int) : K)⌋ + 1 := by
  rw [transformSetup_outW_eq, scaleSetup_newMaxX m image sx sy hw hsx,
    scaleSetup_newMinX m image sx sy hw hsx, sub_zero]

theorem scaleSetup_outH (m : Libm K) (image : Image K) (sx sy : K)
    (hh : 1 ≤ image.height) (hsy : 0 < sy) :
    (transformSetup m image ⟨sx, 0, 0, sy⟩).outH = ⌊sy * ((image.height - 1 : Int) : K)⌋ + 1 := by
  rw [transformSetup_outH_eq, scaleSetup_newMaxY m image sx sy hh hsy,
    scaleSetup_newMinY m image sx sy hh hsy, sub_zero]

/-! ### Pixels written by `transform` -/

theorem transformSetup_accepts_iff (m : Libm K) (image : Image K) (t : Mat2 K) (p : Vec2 K) :
    (transformSetup m image t).accepts p ↔
      (-(1 / 2) ≤ p.x ∧ p.x ≤ (image.width : K) - 1 / 2 ∧
        -(1 / 2) ≤ p.y ∧ p.y ≤ (image.height : K) - 1 / 2) := by
  unfold TransformSetup.accepts
  rw [transformSetup_source_width, transformSetup_source_height]

theorem transform_getColor (m : Libm K) (image : Image K) (t : Mat2 K) (x y : Int)
    (hx0 : 0 ≤ x) (hxw : x < (transform m image t).width)
    (hy0 : 0 ≤ y) (hyh : y < (transform m image t).height) :
    (transform m image t).getColor x ((transform m image t).height - 1 - y)
      = if (-(1 / 2) ≤ ((transformSetup m image t).samplePos x y).x ∧
            ((transformSetup m image t).samplePos x y).x ≤ (image.width : K) - 1 / 2 ∧
            -(1 / 2) ≤ ((transformSetup m image t).samplePos x y).y ∧
            ((transformSetup m image t).samplePos x y).y ≤ (image.height : K) - 1 / 2)
        then bilinearInterp (transformSetup m image t).source
          (((transformSetup m image t).samplePos x y).x + 1 / 2)
          (((image.height - 1 : Int) : K) - ((transformSetup m image t).samplePos x y).y + 1 / 2)
        else Pixel.zero := by
  rw [transform_width] at hxw
  rw [transform_height] at hyh ⊢
  have e : (transformSetup m image t).outH - 1 - y = (transformSetup m image t).outH - y - 1 := by
    ring
  rw [e, (transform_spec m image t).2.2 x y hx0 hxw hy0 hyh]
  by_cases hacc : (transformSetup m image t).accepts ((transformSetup m image t).samplePos x y)
  · rw [if_pos hacc, if_pos ((transformSetup_accepts_iff m image t _).mp hacc)]
    unfold TransformSetup.sample
    rw [transformSetup_source_height]
  · rw [if_neg hacc, if_neg (fun h => hacc ((transformSetup_accepts_iff m image t _).mpr h))]

theorem transformSetup_source_of_lt (m : Libm K) (image : Image K) (t : Mat2 K)
    (h : (((transform m image t).width * (transform m image t).height : Int) : K)
      / ((image.width * image.height : Int) : K) < 1 / 4) :
    (transformSetup m image t).source = gaussianBlurSeparable m image 9 3 := by
  rw [transform_width, transform_height, ← transformSetup_sizeRatio] at h
  rw [transformSetup_source, if_pos h]

theorem transformSetup_source_of_ge (m : Libm K) (image : Image K) (t : Mat2 K)
    (h : 1 / 4 ≤ (((transform m image t).width * (transform m image t).height : Int) : K)
      / ((image.width * image.height : Int) : K)) :
    (transformSetup m image t).source = image := by
  rw [transform_width, transform_height, ← transformSetup_sizeRatio] at h
  rw [transformSetup_source, if_neg (not_lt.mpr h)]

theorem transform_width_pos (m : Libm K) (image : Image K) (t : Mat2 K) :
    1 ≤ (transform m image t).width := by
  rw [transform_width]
  exact transformSetup_outW_pos m image t

theorem transform_height_pos (m : Libm K) (image : Image K) (t : Mat2 K) :
    1 ≤ (transform m image t).height := by
  rw [transform_height]
  exact transformSetup_outH_pos m image t

/-! ### The shear `skew(image, 2, 0)` of the 3×2 ramp image -/

theorem shear_newMaxX : (transformSetup realLibm realRampImage shearMat).newMaxX = 4 := by
  norm_num [transformSetup, Mat2.mulVec, max4, realRampImage, shearMat]

theorem shear_newMinX : (transformSetup realLibm realRampImage shearMat).newMinX = 0 := by
  norm_num [transformSetup, Mat2.mulVec, min4, realRampImage, shearMat]

theorem shear_newMaxY : (transformSetup realLibm realRampImage shearMat).newMaxY = 1 := by
  norm_num [transformSetup, Mat2.mulVec, max4, realRampImage, shearMat]

theorem shear_newMinY : (transformSetup realLibm realRampImage shearMat).newMinY = 0 := by
  norm_num [transformSetup, Mat2.mulVec, min4, realRampImage, shearMat]

theorem shear_width : (transform realLibm realRampImage shearMat).width = 5 := by
  rw [transform_width, transformSetup_outW_eq, shear_newMaxX, shear_newMinX]
  have : (4 : ℝ) - 0 = ((4 : Nat) : ℝ) := by norm_num
  rw [this, Int.floor_natCast]
  rfl

theorem shear_height : (transform realLibm realRampImage shearMat).height = 2 := by
  rw [transform_height, transformSetup_outH_eq, shear_newMaxY, shear_newMinY]
  have : (1 : ℝ) - 0 = ((1 : Nat) : ℝ) := by norm_num
  rw [this, Int.floor_natCast]
  rfl

theorem shear_inverse : shearMat.inverse = ⟨1, -2, 0, 1⟩ := by
  norm_num [Mat2.inverse, Mat2.det, shearMat]

theorem shear_samplePos (x y : Int) :
    (transformSetup realLibm realRampImage shearMat).samplePos x y
      = ⟨(x : ℝ) * (4 / 5) - 2 * ((y : ℝ) * (1 / 2)), (y : ℝ) * (1 / 2)⟩ := by
  have hW : (((transformSetup realLibm realRampImage shearMat).outW : Int) : ℝ) = 5 := by
    rw [← transform_width, shear_width]; norm_num
  have hH : (((transformSetup realLibm realRampImage shearMat).outH : Int) : ℝ) = 2 := by
    rw [← transform_height, shear_height]; norm_num
  unfold TransformSetup.samplePos
  rw [transformSetup_transformInv, shear_inverse, transformSetup_dx, transformSetup_dy,
    shear_newMaxX, shear_newMinX, shear_newMaxY, shear_newMinY, hW, hH]
  simp only [Mat2.mulVec]
  congr 1 <;> ring

/-! ### The downscale `scale(image, 1/4, 1/4)` of the 8×8 gradient image -/

theorem quarter_floor : ⌊(1 / 4 : ℝ) * (((8 : Int) - 1 : Int) : ℝ)⌋ + 1 = 2 := by
  have : ⌊(1 / 4 : ℝ) * (((8 : Int) - 1 : Int) : ℝ)⌋ = 1 := by
    rw [Int.floor_eq_iff]
    norm_num
  rw [this]
  rfl

theorem quarter_width : (transform realLibm gradient8 quarterScaleMat).width = 2 := by
  rw [transform_width]
  exact (scaleSetup_outW realLibm gradient8 (1 / 4) (1 / 4) (by decide) (by norm_num)).trans
    quarter_floor

theorem quarter_height : (transform realLibm gradient8 quarterScaleMat).height = 2 := by
  rw [transform_height]
  exact (scaleSetup_outH realLibm gradient8 (1 / 4) (1 / 4) (by decide) (by norm_num)).trans
    quarter_floor

theorem quarter_samplePos :
    (transformSetup realLibm gradient8 quarterScaleMat).samplePos 0 0 = ⟨0, 0⟩ := by
  unfold TransformSetup.samplePos
  have h1 : (transformSetup realLibm gradient8 quarterScaleMat).newMinX = 0 :=
    scaleSetup_newMinX realLibm gradient8 (1 / 4) (1 / 4) (by decide) (by norm_num)
  have h2 : (transformSetup realLibm gradient8 quarterScaleMat).newMinY = 0 :=
    scaleSetup_newMinY realLibm gradient8 (1 / 4) (1 / 4) (by decide) (by norm_num)
  rw [h1, h2]
  simp [Mat2.mulVec]

theorem quarter_ratio :
    (((transform realLibm gradient8 quarterScaleMat).width
        * (transform realLibm gradient8 quarterScaleMat).height : Int) : ℝ)
      / ((gradient8.width * gradient8.height : Int) : ℝ) < 1 / 4 := by
  rw [quarter_width, quarter_height]
  norm_num [gradient8]

/-! ### The identity transform -/

theorem identity_width (m : Libm K) (image : Image K) (hw : 1 ≤ image.width) :
    (transform m image identityMat).width = image.width := by
  rw [transform_width]
  unfold identityMat
  rw [scaleSetup_outW m image 1 1 hw one_pos, one_mul, Int.floor_intCast]
  ring

theorem identity_height (m : Libm K) (image : Image K) (hh : 1 ≤ image.height) :
    (transform m image identityMat).height = image.height := by
  rw [transform_height]
  unfold identityMat
  rw [scaleSetup_outH m image 1 1 hh one_pos, one_mul, Int.floor_intCast]
  ring

theorem identity_samplePos (m : Libm K) (image : Image K) (x y : Int)
    (hw : 1 ≤ image.width) (hh : 1 ≤ image.height) :
    (transformSetup m image identityMat).samplePos x y
      = ⟨(x : K) * (((image.width - 1 : Int) : K) / (image.width : K)),
          (y : K) * (((image.height - 1 : Int) : K) / (image.height : K))⟩ := by
  have hW : (transformSetup m image identityMat).outW = image.width := by
    rw [← transform_width]; exact identity_width m image hw
  have hH : (transformSetup m image identityMat).outH = image.height := by
    rw [← transform_height]; exact identity_height m image hh
  unfold TransformSetup.samplePos
  rw [transformSetup_transformInv, transformSetup_dx, transformSetup_dy, hW, hH]
  unfold identityMat
  rw [scaleSetup_newMaxX m image 1 1 hw one_pos, scaleSetup_newMinX m image 1 1 hw one_pos,
    scaleSetup_newMaxY m image 1 1 hh one_pos, scaleSetup_newMinY m image 1 1 hh one_pos]
  simp [Mat2.mulVec, Mat2.inverse, Mat2.det]

theorem identity_ratio (m : Libm K) (image : Image K)
    (hw : 1 ≤ image.width) (hh : 1 ≤ image.height) :
    1 / 4 ≤ (((transform m image identityMat).width
        * (transform m image identityMat).height : Int) : K)
      / ((image.width * image.height : Int) : K) := by
  rw [identity_width m image hw, identity_height m image hh]
  have hpos : (0 : K) < ((image.width * image.height : Int) : K) := by
    exact_mod_cast Int.mul_pos (by omega) (by omega)
  rw [div_self hpos.ne']
  norm_num

theorem unit_step_bounds (x w : Int) (hx0 : 0 ≤ x) (hxw : x < w) :
    (0 : K) ≤ (x : K) * (((w - 1 : Int) : K) / (w : K)) ∧
    (x : K) * (((w - 1 : Int) : K) / (w : K)) ≤ (w : K) - 1 := by
  have hw : (0 : K) < (w : K) := by exact_mod_cast (by omega : 0 < w)
  have hw1 : (0 : K) ≤ ((w - 1 : Int) : K) := by exact_mod_cast (by omega : 0 ≤ w - 1)
  have hx : (0 : K) ≤ (x : K) := by exact_mod_cast hx0
  have hxw2 : (x : K) ≤ (w : K) := by exact_mod_cast hxw.le
  refine ⟨mul_nonneg hx (div_nonneg hw1 hw.le), ?_⟩
  have e : (x : K) * (((w - 1 : Int) : K) / (w : K)) = ((x : K) / (w : K)) * ((w - 1 : Int) : K) := by
    field_simp
  rw [e]
  have hle : (x : K) / (w : K) ≤ 1 := (div_le_one hw).mpr hxw2
  calc (x : K) / (w : K) * ((w - 1 : Int) : K) ≤ 1 * ((w - 1 : Int) : K) :=
        mul_le_mul_of_nonneg_right hle hw1
    _ = (w : K) - 1 := by push_cast; ring

/-- The identity transform resamples the image at the positions
`(x·(W-1)/W + 1/2, (H-1) - y·(H-1)/H + 1/2)`. -/
theorem transform_identity_getColor (m : Libm K) (image : Image K) (x y : Int)
    (hw : 1 ≤ image.width) (hh : 1 ≤ image.height)
    (hx0 : 0 ≤ x) (hxw : x < image.width) (hy0 : 0 ≤ y) (hyh : y < image.height) :
    (transform m image identityMat).getColor x (image.height - 1 - y)
      = bilinearInterp image
          ((x : K) * (((image.width - 1 : Int) : K) / (image.width : K)) + 1 / 2)
          (((image.height - 1 : Int) : K)
            - (y : K) * (((image.height - 1 : Int) : K) / (image.height : K)) + 1 / 2) := by
  have hxw2 : x < (transform m image identityMat).width := by rw [identity_width m image hw]; exact hxw
  have hyh2 : y < (transform m image identityMat).height := by
    rw [identity_height m image hh]; exact hyh
  have key := transform_getColor m image identityMat x y hx0 hxw2 hy0 hyh2
  rw [identity_height m image hh, identity_samplePos m image x y hw hh,
    transformSetup_source_of_ge m image identityMat (identity_ratio m image hw hh)] at key
  rw [key, if_pos]
  obtain ⟨a1, a2⟩ := unit_step_bounds (K := K) x image.width hx0 hxw
  obtain ⟨b1, b2⟩ := unit_step_bounds (K := K) y image.height hy0 hyh
  dsimp only
  refine ⟨?_, ?_, ?_, ?_⟩ <;> linarith

/-! ### Bilinear samples -/

theorem truncInt_nonneg (t : K) (ht : 0 ≤ t) : 0 ≤ truncInt t := by
  rw [truncInt_of_nonneg t ht]
  exact Int.floor_nonneg.mpr ht

/-- Sampling an image that is constant on its pixel range, at non-negative
coordinates, returns the constant. -/
theorem bilinearInterp_const (image : Image K) (p : Pixel K) (sx sy : K)
    (hw : 1 ≤ image.width) (hh : 1 ≤ image.height)
    (hconst : ∀ a b, 0 ≤ a → a < image.width → 0 ≤ b → b < image.height →
      image.getColor a b = p)
    (hsx : 0 ≤ sx) (hsy : 0 ≤ sy) :
    bilinearInterp image sx sy = p := by
  have hx := truncInt_nonneg sx hsx
  have hy := truncInt_nonneg sy hsy
  unfold bilinearInterp
  simp only []
  rw [hconst _ _ (by omega) (by omega) (by omega) (by omega),
    hconst _ _ (by omega) (by omega) (by omega) (by omega),
    hconst _ _ (by omega) (by omega) (by omega) (by omega),
    hconst _ _ (by omega) (by omega) (by omega) (by omega)]
  cases p with
  | mk r g b =>
    simp only [Pixel.mk.injEq]
    refine ⟨?_, ?_, ?_⟩ <;> ring

theorem truncInt_half : truncInt (1 / 2 : ℝ) = 0 := by
  rw [truncInt_of_nonneg _ (by norm_num), Int.floor_eq_iff]
  norm_num

theorem truncInt_five_quarters : truncInt (5 / 4 : ℝ) = 1 := by
  rw [truncInt_of_nonneg _ (by norm_num), Int.floor_eq_iff]
  norm_num

theorem gradient4_identity_pixel :
    (transform realLibm gradient4 identityMat).getColor 0 0 = ⟨1 / 6, 5 / 12, 0⟩ := by
  have key := transform_identity_getColor realLibm gradient4 0 3 (by decide) (by decide)
    (by decide) (by decide) (by decide) (by decide)
  have e0 : gradient4.height - 1 - 3 = 0 := by decide
  have e1 : ((0 : Int) : ℝ) * (((gradient4.width - 1 : Int) : ℝ) / (gradient4.width : ℝ)) + 1 / 2
      = 1 / 2 := by norm_num
  have e2 : ((gradient4.height - 1 : Int) : ℝ)
      - ((3 : Int) : ℝ) * (((gradient4.height - 1 : Int) : ℝ) / (gradient4.height : ℝ)) + 1 / 2
      = 5 / 4 := by norm_num [gradient4]
  rw [e0, e1, e2] at key
  rw [key]
  unfold bilinearInterp
  rw [truncInt_half, truncInt_five_quarters]
  norm_num [gradient4, Image.getColor]

/-! ### The bilinear sampler, channel by channel -/

theorem bilinearInterp_get (image : Image K) (x y : K) (c : Channel) :
    (bilinearInterp image x y).get c
      = (1 - (y - (bilinearY0 image y : K)))
          * ((1 - (x - (bilinearX0 image x : K)))
              * (image.getColor (bilinearX0 image x) (bilinearY0 image y)).get c
            + (x - (bilinearX0 image x : K))
              * (image.getColor (bilinearX1 image x) (bilinearY0 image y)).get c)
        + (y - (bilinearY0 image y : K))
          * ((1 - (x - (bilinearX0 image x : K)))
              * (image.getColor (bilinearX0 image x) (bilinearY1 image y)).get c
            + (x - (bilinearX0 image x : K))
              * (image.getColor (bilinearX1 image x) (bilinearY1 image y)).get c) := by
  cases c <;> rfl

theorem truncInt_intCast (i : Int) (hi : 0 ≤ i) : truncInt ((i : Int) : K) = i := by
  rw [truncInt_of_nonneg _ (by exact_mod_cast hi), Int.floor_intCast]

theorem bilinearX0_of_ge (image : Image K) (x : K) (hw : 1 ≤ image.width)
    (hx : ((image.width - 1 : Int) : K) ≤ x) : bilinearX0 image x = image.width - 1 := by
  have h0 : (0 : K) ≤ ((image.width - 1 : Int) : K) := by exact_mod_cast (by omega : 0 ≤ image.width - 1)
  unfold bilinearX0
  rw [truncInt_of_nonneg x (h0.trans hx)]
  exact min_eq_right (Int.le_floor.mpr hx)

theorem bilinearY0_of_ge (image : Image K) (y : K) (hh : 1 ≤ image.height)
    (hy : ((image.height - 1 : Int) : K) ≤ y) : bilinearY0 image y = image.height - 1 := by
  have h0 : (0 : K) ≤ ((image.height - 1 : Int) : K) := by exact_mod_cast (by omega : 0 ≤ image.height - 1)
  unfold bilinearY0
  rw [truncInt_of_nonneg y (h0.trans hy)]
  exact min_eq_right (Int.le_floor.mpr hy)

theorem bilinearX0_of_lt (image : Image K) (x : K) (hx0 : 0 ≤ x) (hxw : x < (image.width : K)) :
    bilinearX0 image x = ⌊x⌋ := by
  unfold bilinearX0
  rw [truncInt_of_nonneg x hx0]
  have : ⌊x⌋ < image.width := Int.floor_lt.mpr hxw
  exact min_eq_left (by omega)

theorem bilinearY0_of_lt (image : Image K) (y : K) (hy0 : 0 ≤ y) (hyh : y < (image.height : K)) :
    bilinearY0 image y = ⌊y⌋ := by
  unfold bilinearY0
  rw [truncInt_of_nonneg y hy0]
  have : ⌊y⌋ < image.height := Int.floor_lt.mpr hyh
  exact min_eq_left (by omega)

/-- Past the last column the sample does not depend on `x`. -/
theorem bilinearInterp_clamp_x (image : Image K) (x y : K) (hw : 1 ≤ image.width)
    (hx : 0 ≤ x) :
    bilinearInterp image x y = bilinearInterp image (min x ((image.width - 1 : Int) : K)) y := by
  by_cases hle : x ≤ ((image.width - 1 : Int) : K)
  · rw [min_eq_left hle]
  · have hge : ((image.width - 1 : Int) : K) ≤ x := (not_le.mp hle).le
    rw [min_eq_right hge]
    apply Pixel.ext_get
    intro c
    have e1 : bilinearX1 image x = image.width - 1 := by
      unfold bilinearX1
      rw [bilinearX0_of_ge image x hw hge]
      exact min_eq_right (by omega)
    have e2 : bilinearX1 image ((image.width - 1 : Int) : K) = image.width - 1 := by
      unfold bilinearX1
      rw [bilinearX0_of_ge image _ hw le_rfl]
      exact min_eq_right (by omega)
    rw [bilinearInterp_get, bilinearInterp_get, e1, e2, bilinearX0_of_ge image x hw hge,
      bilinearX0_of_ge image _ hw le_rfl]
    ring

/-- Past the last row the sample does not depend on `y`. -/
theorem bilinearInterp_clamp_y (image : Image K) (x y : K) (hh : 1 ≤ image.height)
    (hy : 0 ≤ y) :
    bilinearInterp image x y = bilinearInterp image x (min y ((image.height - 1 : Int) : K)) := by
  by_cases hle : y ≤ ((image.height - 1 : Int) : K)
  · rw [min_eq_left hle]
  · have hge : ((image.height - 1 : Int) : K) ≤ y := (not_le.mp hle).le
    rw [min_eq_right hge]
    apply Pixel.ext_get
    intro c
    have e1 : bilinearY1 image y = image.height - 1 := by
      unfold bilinearY1
      rw [bilinearY0_of_ge image y hh hge]
      exact min_eq_right (by omega)
    have e2 : bilinearY1 image ((image.height - 1 : Int) : K) = image.height - 1 := by
      unfold bilinearY1
      rw [bilinearY0_of_ge image _ hh le_rfl]
      exact min_eq_right (by omega)
    rw [bilinearInterp_get, bilinearInterp_get, e1, e2, bilinearY0_of_ge image y hh hge,
      bilinearY0_of_ge image _ hh le_rfl]
    ring

/-- At integer coordinates inside the image the sample is the pixel itself. -/
theorem bilinearInterp_intCast (image : Image K) (i j : Int)
    (hi0 : 0 ≤ i) (hiw : i < image.width) (hj0 : 0 ≤ j) (hjh : j < image.height) :
    bilinearInterp image (i : K) (j : K) = image.getColor i j := by
  apply Pixel.ext_get
  intro c
  have ex : bilinearX0 image (i : K) = i := by
    unfold bilinearX0
    rw [truncInt_intCast i hi0]
    exact min_eq_left (by omega)
  have ey : bilinearY0 image (j : K) = j := by
    unfold bilinearY0
    rw [truncInt_intCast j hj0]
    exact min_eq_left (by omega)
  rw [bilinearInterp_get, ex, ey]
  ring

/-! ### Convexity of the bilinear sample -/

theorem min4_le (p q r s : K) :
    min4 p q r s ≤ p ∧ min4 p q r s ≤ q ∧ min4 p q r s ≤ r ∧ min4 p q r s ≤ s := by
  unfold min4
  refine ⟨?_, ?_, ?_, ?_⟩
  · exact (min_le_left _ _).trans ((min_le_left _ _).trans (min_le_left _ _))
  · exact (min_le_left _ _).trans ((min_le_left _ _).trans (min_le_right _ _))
  · exact (min_le_left _ _).trans (min_le_right _ _)
  · exact min_le_right _ _

theorem le_max4 (p q r s : K) :
    p ≤ max4 p q r s ∧ q ≤ max4 p q r s ∧ r ≤ max4 p q r s ∧ s ≤ max4 p q r s := by
  unfold max4
  refine ⟨?_, ?_, ?_, ?_⟩
  · exact (le_max_left _ _).trans ((le_max_left _ _).trans (le_max_left _ _))
  · exact (le_max_right _ _).trans ((le_max_left _ _).trans (le_max_left _ _))
  · exact (le_max_right _ _).trans (le_max_left _ _)
  · exact le_max_right _ _

theorem bilinear_lower (lo bx bY a b c d : K) (hbx0 : 0 ≤ bx) (hbx1 : bx ≤ 1)
    (hby0 : 0 ≤ bY) (hby1 : bY ≤ 1) (ha : lo ≤ a) (hb : lo ≤ b) (hc : lo ≤ c) (hd : lo ≤ d) :
    lo ≤ (1 - bY) * ((1 - bx) * a + bx * b) + bY * ((1 - bx) * c + bx * d) := by
  have h1 : 0 ≤ (1 - bY) * ((1 - bx) * (a - lo) + bx * (b - lo)) :=
    mul_nonneg (by linarith) (add_nonneg (mul_nonneg (by linarith) (by linarith))
      (mul_nonneg hbx0 (by linarith)))
  have h2 : 0 ≤ bY * ((1 - bx) * (c - lo) + bx * (d - lo)) :=
    mul_nonneg hby0 (add_nonneg (mul_nonneg (by linarith) (by linarith))
      (mul_nonneg hbx0 (by linarith)))
  nlinarith [h1, h2]

theorem bilinear_upper (hi bx bY a b c d : K) (hbx0 : 0 ≤ bx) (hbx1 : bx ≤ 1)
    (hby0 : 0 ≤ bY) (hby1 : bY ≤ 1) (ha : a ≤ hi) (hb : b ≤ hi) (hc : c ≤ hi) (hd : d ≤ hi) :
    (1 - bY) * ((1 - bx) * a + bx * b) + bY * ((1 - bx) * c + bx * d) ≤ hi := by
  have h1 : 0 ≤ (1 - bY) * ((1 - bx) * (hi - a) + bx * (hi - b)) :=
    mul_nonneg (by linarith) (add_nonneg (mul_nonneg (by linarith) (by linarith))
      (mul_nonneg hbx0 (by linarith)))
  have h2 : 0 ≤ bY * ((1 - bx) * (hi - c) + bx * (hi - d)) :=
    mul_nonneg hby0 (add_nonneg (mul_nonneg (by linarith) (by linarith))
      (mul_nonneg hbx0 (by linarith)))
  nlinarith [h1, h2]

/-! ### Radius 0 and single-pixel images through the two-pass path -/

theorem clamp_of_mem (i n : Int) (h0 : 0 ≤ i) (hn : i < n) : max 0 (min i (n - 1)) = i := by
  omega

theorem boxBlurSeparable_zero_getColor (image : Image K)
    (hw : 1 ≤ image.width) (hh : 1 ≤ image.height)
    (x y : Int) (hx0 : 0 ≤ x) (hxw : x < image.width) (hy0 : 0 ≤ y) (hyh : y < image.height) :
    (boxBlurSeparable image 0).getColor x y = image.getColor x y := by
  apply Pixel.ext_get
  intro c
  have key := convolveImageSeparable_get image
    (List.replicate (2 * ((0 : Nat) : Int) + 1).toNat (1 / ((2 * ((0 : Nat) : Int) + 1 : Int) : K)))
    0 hw hh (boxFilter1D_length 0 _) x y hx0 hxw hy0 hyh c
  have e : (boxBlurSeparable image 0).getColor x y
      = (convolveImageSeparable image
          (List.replicate (2 * ((0 : Nat) : Int) + 1).toNat
            (1 / ((2 * ((0 : Nat) : Int) + 1 : Int) : K)))).getColor x y := rfl
  rw [e, key]
  simp only [mul_zero, zero_add, Finset.sum_range_one, Nat.cast_zero, sub_zero, add_zero]
  rw [clamp_of_mem x _ hx0 hxw, clamp_of_mem y _ hy0 hyh]
  simp [FilterType1D.at]

theorem boxBlur_zero_getColor (image : Image K)
    (hw : 1 ≤ image.width) (hh : 1 ≤ image.height)
    (x y : Int) (hx0 : 0 ≤ x) (hxw : x < image.width) (hy0 : 0 ≤ y) (hyh : y < image.height) :
    (boxBlur image 0).getColor x y = image.getColor x y :=
  (boxBlur_getColor_eq image 0 hw hh x y hx0 hxw hy0 hyh).trans
    (boxBlurSeparable_zero_getColor image hw hh x y hx0 hxw hy0 hyh)

theorem sum_range_at (f : FilterType1D K) (r : Nat) (hlen : f.length = 2 * r + 1) :
    ∑ a in Finset.range (2 * r + 1), FilterType1D.at f (a : Int) = f.sum := by
  rw [← hlen, ← sum_range_getD]
  refine Finset.sum_congr rfl (fun a _ => ?_)
  simp [FilterType1D.at]

/-- On a 1×1 image the two passes each multiply by the sum of the filter. -/
theorem convolveImageSeparable_single_get (image : Image K) (f : FilterType1D K) (r : Nat)
    (hw : image.width = 1) (hh : image.height = 1) (hlen : f.length = 2 * r + 1) (c : Channel) :
    ((convolveImageSeparable image f).getColor 0 0).get c
      = (image.getColor 0 0).get c * (f.sum * f.sum) := by
  rw [convolveImageSeparable_get image f r (by omega) (by omega) hlen 0 0 le_rfl (by omega)
    le_rfl (by omega) c]
  have e : ∀ a b : Nat,
      (image.getColor (max 0 (min (0 - (r : Int) + a) (image.width - 1)))
          (max 0 (min (0 - (r : Int) + b) (image.height - 1)))).get c
        * (FilterType1D.at f (a : Int) * FilterType1D.at f (b : Int))
      = (image.getColor 0 0).get c * FilterType1D.at f (a : Int) * FilterType1D.at f (b : Int) := by
    intro a b
    have e1 : max 0 (min (0 - (r : Int) + a) (image.width - 1)) = 0 := by omega
    have e2 : max 0 (min (0 - (r : Int) + b) (image.height - 1)) = 0 := by omega
    rw [e1, e2]
    ring
  simp only [e]
  simp only [← Finset.mul_sum, ← Finset.sum_mul]
  rw [sum_range_at f r hlen]
  ring

/-! ### The setup of `transform` on a 1×1 image -/

theorem singleSetup_bounds (m : Libm K) (image : Image K) (t : Mat2 K)
    (hw : image.width = 1) (hh : image.height = 1) :
    (transformSetup m image t).newMaxX = 0 ∧ (transformSetup m image t).newMinX = 0 ∧
    (transformSetup m image t).newMaxY = 0 ∧ (transformSetup m image t).newMinY = 0 := by
  simp [transformSetup, Mat2.mulVec, max4, min4, hw, hh]

theorem truncInt_one : truncInt (1 : K) = 1 := by
  rw [truncInt_of_nonneg _ zero_le_one, Int.floor_one]

theorem singleSetup_outW (m : Libm K) (image : Image K) (t : Mat2 K)
    (hw : image.width = 1) (hh : image.height = 1) : (transformSetup m image t).outW = 1 := by
  obtain ⟨h1, h2, _, _⟩ := singleSetup_bounds m image t hw hh
  rw [transformSetup_outW, h1, h2, sub_zero, zero_add, truncInt_one]

theorem singleSetup_outH (m : Libm K) (image : Image K) (t : Mat2 K)
    (hw : image.width = 1) (hh : image.height = 1) : (transformSetup m image t).outH = 1 := by
  obtain ⟨_, _, h3, h4⟩ := singleSetup_bounds m image t hw hh
  rw [transformSetup_outH, h3, h4, sub_zero, zero_add, truncInt_one]

theorem singleSetup_samplePos (m : Libm K) (image : Image K) (t : Mat2 K)
    (hw : image.width = 1) (hh : image.height = 1) :
    (transformSetup m image t).samplePos 0 0 = ⟨0, 0⟩ := by
  obtain ⟨_, h2, _, h4⟩ := singleSetup_bounds m image t hw hh
  unfold TransformSetup.samplePos
  rw [h2, h4]
  simp [Mat2.mulVec]

theorem singleSetup_ratio (m : Libm K) (image : Image K) (t : Mat2 K)
    (hw : image.width = 1) (hh : image.height = 1) :
    1 / 4 ≤ (((transform m image t).width * (transform m image t).height : Int) : K)
      / ((image.width * image.height : Int) : K) := by
  rw [transform_width, transform_height, singleSetup_outW m image t hw hh,
    singleSetup_outH m image t hw hh, hw, hh]
  norm_num

theorem single_getColor (m : Libm K) (image : Image K) (t : Mat2 K)
    (hw : image.width = 1) (hh : image.height = 1) :
    (transform m image t).getColor 0 0 = image.getColor 0 0 := by
  have hW : (transform m image t).width = 1 :=
    (transform_width m image t).trans (singleSetup_outW m image t hw hh)
  have hH : (transform m image t).height = 1 :=
    (transform_height m image t).trans (singleSetup_outH m image t hw hh)
  have key := transform_getColor m image t 0 0 le_rfl (by omega) le_rfl (by omega)
  rw [hH, singleSetup_samplePos m image t hw hh,
    transformSetup_source_of_ge m image t (singleSetup_ratio m image t hw hh)] at key
  have e : (1 : Int) - 1 - 0 = 0 := rfl
  rw [e] at key
  rw [key, if_pos (by rw [hw, hh]; norm_num)]
  apply bilinearInterp_const image _ _ _ (by omega) (by omega)
  · intro a b ha0 haw hb0 hbh
    have ea : a = 0 := by omega
    have eb : b = 0 := by omega
    rw [ea, eb]
  · norm_num
  · rw [hh]; norm_num

/-! ### Scaling by at least one half -/

theorem le_two_floor_add_one (n : Int) (t : K) (ht : ((n - 1 : Int) : K) / 2 ≤ t) :
    n ≤ 2 * (⌊t⌋ + 1) := by
  have h1 : t < ((⌊t⌋ + 1 : Int) : K) := by
    push_cast
    exact Int.lt_floor_add_one t
  have h2 : ((n - 1 : Int) : K) < ((2 * (⌊t⌋ + 1) : Int) : K) := by
    have : ((n - 1 : Int) : K) / 2 < ((⌊t⌋ + 1 : Int) : K) := lt_of_le_of_lt ht h1
    have h3 : ((2 * (⌊t⌋ + 1) : Int) : K) = 2 * ((⌊t⌋ + 1 : Int) : K) := by push_cast; ring
    rw [h3]
    linarith
  have h4 : n - 1 < 2 * (⌊t⌋ + 1) := by exact_mod_cast h2
  omega

theorem half_scale_le (n : Int) (s : K) (hn : 1 ≤ n) (hs : 1 / 2 ≤ s) :
    ((n - 1 : Int) : K) / 2 ≤ s * ((n - 1 : Int) : K) := by
  have h0 : (0 : K) ≤ ((n - 1 : Int) : K) := by exact_mod_cast (by omega : 0 ≤ n - 1)
  have := mul_le_mul_of_nonneg_right hs h0
  linarith

theorem scaleSetup_area (m : Libm K) (image : Image K) (sx sy : K)
    (hw : 1 ≤ image.width) (hh : 1 ≤ image.height) (hsx : 1 / 2 ≤ sx) (hsy : 1 / 2 ≤ sy) :
    image.width * image.height
      ≤ 4 * ((transformSetup m image ⟨sx, 0, 0, sy⟩).outW
          * (transformSetup m image ⟨sx, 0, 0, sy⟩).outH) := by
  have hsx0 : 0 < sx := lt_of_lt_of_le (by norm_num) hsx
  have hsy0 : 0 < sy := lt_of_lt_of_le (by norm_num) hsy
  rw [scaleSetup_outW m image sx sy hw hsx0, scaleSetup_outH m image sx sy hh hsy0]
  have h1 := le_two_floor_add_one image.width _ (half_scale_le image.width sx hw hsx)
  have h2 := le_two_floor_add_one image.height _ (half_scale_le image.height sy hh hsy)
  nlinarith [h1, h2]

theorem scaleSetup_ratio (m : Libm K) (image : Image K) (sx sy : K)
    (hw : 1 ≤ image.width) (hh : 1 ≤ image.height) (hsx : 1 / 2 ≤ sx) (hsy : 1 / 2 ≤ sy) :
    1 / 4 ≤ (((transform m image ⟨sx, 0, 0, sy⟩).width
        * (transform m image ⟨sx, 0, 0, sy⟩).height : Int) : K)
      / ((image.width * image.height : Int) : K) := by
  rw [transform_width, transform_height]
  have hpos : (0 : K) < ((image.width * image.height : Int) : K) := by
    exact_mod_cast Int.mul_pos (by omega) (by omega)
  have harea : ((image.width * image.height : Int) : K)
      ≤ ((4 * ((transformSetup m image ⟨sx, 0, 0, sy⟩).outW
          * (transformSetup m image ⟨sx, 0, 0, sy⟩).outH) : Int) : K) := by
    exact_mod_cast scaleSetup_area m image sx sy hw hh hsx hsy
  rw [le_div_iff₀ hpos]
  push_cast at harea ⊢
  linarith

/-! ### Degenerate bounding boxes -/

theorem transformSetup_degenerate_x (m : Libm K) (image : Image K) (t : Mat2 K)
    (h : (transformSetup m image t).newMaxX - (transformSetup m image t).newMinX = 0) :
    (transform m image t).width = 1 ∧ (transformSetup m image t).dx = 0 := by
  refine ⟨?_, ?_⟩
  · rw [transform_width, transformSetup_outW_eq, h, Int.floor_zero]
    rfl
  · rw [transformSetup_dx, h, zero_div]

theorem transformSetup_degenerate_y (m : Libm K) (image : Image K) (t : Mat2 K)
    (h : (transformSetup m image t).newMaxY - (transformSetup m image t).newMinY = 0) :
    (transform m image t).height = 1 ∧ (transformSetup m image t).dy = 0 := by
  refine ⟨?_, ?_⟩
  · rw [transform_height, transformSetup_outH_eq, h, Int.floor_zero]
    rfl
  · rw [transformSetup_dy, h, zero_div]

theorem column_setup :
    (transformSetup realLibm columnImage identityMat).newMaxX = 0 ∧
    (transformSetup realLibm columnImage identityMat).newMinX = 0 ∧
    (transformSetup realLibm columnImage identityMat).newMaxY = 2 ∧
    (transformSetup realLibm columnImage identityMat).newMinY = 0 := by
  unfold identityMat
  rw [scaleSetup_newMaxX realLibm columnImage 1 1 (by decide) one_pos,
    scaleSetup_newMinX realLibm columnImage 1 1 (by decide) one_pos,
    scaleSetup_newMaxY realLibm columnImage 1 1 (by decide) one_pos,
    scaleSetup_newMinY realLibm columnImage 1 1 (by decide) one_pos]
  norm_num [columnImage]

theorem column_height : (transform realLibm columnImage identityMat).height = 3 :=
  identity_height realLibm columnImage (by decide)

theorem column_dy : (transformSetup realLibm columnImage identityMat).dy = 2 / 3 := by
  obtain ⟨_, _, h3, h4⟩ := column_setup
  have hH : (transformSetup realLibm columnImage identityMat).outH = 3 := by
    rw [← transform_height]; exact column_height
  rw [transformSetup_dy, h3, h4, hH]
  norm_num

/-! ### Traces of the loops -/

theorem forRange_sim {σ τ : Type} (R : σ → τ → Prop) (lo hi : Int) (f : Int → σ → σ)
    (g : Int → τ → τ) (s : σ) (t : τ) (h0 : R s t)
    (hstep : ∀ i s t, R s t → R (f i s) (g i t)) :
    R (forRange lo hi f s) (forRange lo hi g t) := by
  unfold forRange
  generalize List.range (hi - lo + 1).toNat = l
  induction l generalizing s t with
  | nil => exact h0
  | cons k l ih =>
    simp only [List.foldl_cons]
    exact ih _ _ (hstep _ _ _ h0)

theorem forRange_append {τ : Type} (lo hi : Int) (G : Int → List τ) (acc : List τ) :
    forRange lo hi (fun i taps => taps ++ G i) acc
      = acc ++ (List.range (hi - lo + 1).toNat).flatMap (fun (k : Nat) => G (lo + (k : Int))) := by
  unfold forRange
  generalize (hi - lo + 1).toNat = n
  induction n with
  | zero => simp
  | succ n ih =>
    rw [List.range_succ, List.foldl_append, List.flatMap_append, ih]
    simp [List.flatMap_singleton, List.append_assoc]

theorem flatMap_singleton_eq_map {α τ : Type} (l : List α) (g : α → τ) :
    l.flatMap (fun k => [g k]) = l.map g := by
  induction l with
  | nil => rfl
  | cons a l ih => simp [List.flatMap_cons, ih]

theorem forRange_snoc {τ : Type} (lo hi : Int) (g : Int → τ) (acc : List τ) :
    forRange lo hi (fun i taps => taps ++ [g i]) acc
      = acc ++ (List.range (hi - lo + 1).toNat).map (fun (k : Nat) => g (lo + (k : Int))) := by
  rw [forRange_append lo hi (fun i => [g i]) acc, flatMap_singleton_eq_map]

/-- The taps of `convolvePixel2D` for a filter of size `2r+1`, enumerated. -/
theorem convolvePixel2DTaps_eq (image : Image K) (filter : FilterType2D K) (r : Nat)
    (hlen : filter.length = 2 * r + 1) (x y : Int) :
    convolvePixel2DTaps image filter x y
      = (List.range (2 * r + 1)).flatMap (fun (b : Nat) =>
          (List.range (2 * r + 1)).map (fun (a : Nat) =>
            (⟨(a : Int), (b : Int), max 0 (min (x - r + a) (image.width - 1)),
              max 0 (min (y - r + b) (image.height - 1))⟩ : Tap2D))) := by
  unfold convolvePixel2DTaps
  rw [hlen, filterRadius_odd]
  simp only []
  have hnx : (x + (r : Int) - (x - r) + 1).toNat = 2 * r + 1 := by omega
  have hny : (y + (r : Int) - (y - r) + 1).toNat = 2 * r + 1 := by omega
  have inner : ∀ (j : Int),
      (fun (taps : List Tap2D) => forRange (x - r) (x + r) (fun i taps =>
          taps ++ [(⟨i - x + r, j - y + r, max 0 (min i (image.width - 1)),
            max 0 (min j (image.height - 1))⟩ : Tap2D)]) taps)
        = fun taps => taps ++ (List.range (2 * r + 1)).map (fun (a : Nat) =>
            (⟨(a : Int), j - y + r, max 0 (min (x - r + a) (image.width - 1)),
              max 0 (min j (image.height - 1))⟩ : Tap2D)) := by
    intro j
    funext taps
    rw [forRange_snoc, hnx]
    congr 1
    refine List.map_congr_left (fun a _ => ?_)
    have e : x - (r : Int) + a - x + r = a := by ring
    rw [e]
  simp only [inner]
  rw [forRange_append, hny, List.nil_append]
  refine List.flatMap_congr (fun b _ => ?_)
  have e : y - (r : Int) + b - y + r = b := by ring
  rw [e]

/-- The taps of the horizontal `convolvePixel1D` for a filter of length `2r+1`, enumerated. -/
theorem convolvePixel1DTaps_horizontal_eq (image : Image K) (filter : FilterType1D K) (r : Nat)
    (hlen : filter.length = 2 * r + 1) (x y : Int) :
    convolvePixel1DTaps image filter x y false
      = (List.range (2 * r + 1)).map (fun (a : Nat) =>
          (⟨(a : Int), max 0 (min (x - r + a) (image.width - 1)), y⟩ : Tap1D)) := by
  unfold convolvePixel1DTaps
  rw [hlen, filterRadius_odd]
  simp only [Bool.false_eq_true, if_false]
  have hnx : (x + (r : Int) - (x - r) + 1).toNat = 2 * r + 1 := by omega
  rw [forRange_snoc, hnx, List.nil_append]
  refine List.map_congr_left (fun a _ => ?_)
  have e : x - (r : Int) + a - x + r = a := by ring
  rw [e]

/-- The taps of the vertical `convolvePixel1D` for a filter of length `2r+1`, enumerated. -/
theorem convolvePixel1DTaps_vertical_eq (image : Image K) (filter : FilterType1D K) (r : Nat)
    (hlen : filter.length = 2 * r + 1) (x y : Int) :
    convolvePixel1DTaps image filter x y true
      = (List.range (2 * r + 1)).map (fun (b : Nat) =>
          (⟨(b : Int), x, max 0 (min (y - r + b) (image.height - 1))⟩ : Tap1D)) := by
  unfold convolvePixel1DTaps
  rw [hlen, filterRadius_odd]
  simp only [if_true]
  have hny : (y + (r : Int) - (y - r) + 1).toNat = 2 * r + 1 := by omega
  rw [forRange_snoc, hny, List.nil_append]
  refine List.map_congr_left (fun a _ => ?_)
  have e : y - (r : Int) + a - y + r = a := by ring
  rw [e]

/-- The value of `convolvePixel2D` is the accumulation over its recorded taps. -/
theorem convolvePixel2D_eq_foldl_taps (image : Image K) (filter : FilterType2D K) (x y : Int) :
    convolvePixel2D image filter x y
      = (convolvePixel2DTaps image filter x y).foldl
          (fun sum t => sum.accum (image.getColor t.ix t.iy) (FilterType2D.at filter t.fa t.fb))
          Pixel.zero := by
  unfold convolvePixel2D convolvePixel2DTaps
  simp only []
  refine forRange_sim
    (fun (s : Pixel K) (t : List Tap2D) => s = t.foldl
      (fun sum t => sum.accum (image.getColor t.ix t.iy) (FilterType2D.at filter t.fa t.fb))
      Pixel.zero) _ _ _ _ _ _ rfl ?_
  intro j s t hst
  refine forRange_sim
    (fun (s : Pixel K) (t : List Tap2D) => s = t.foldl
      (fun sum t => sum.accum (image.getColor t.ix t.iy) (FilterType2D.at filter t.fa t.fb))
      Pixel.zero) _ _ _ _ _ _ hst ?_
  intro i s t hst
  rw [List.foldl_append, ← hst]
  rfl

/-- The value of `convolvePixel1D` is the accumulation over its recorded taps. -/
theorem convolvePixel1D_eq_foldl_taps (image : Image K) (filter : FilterType1D K) (x y : Int)
    (vert : Bool) :
    convolvePixel1D image filter x y vert
      = (convolvePixel1DTaps image filter x y vert).foldl
          (fun sum t => sum.accum (image.getColor t.ix t.iy) (FilterType1D.at filter t.fi))
          Pixel.zero := by
  unfold convolvePixel1D convolvePixel1DTaps
  simp only []
  refine forRange_sim
    (fun (s : Pixel K) (t : List Tap1D) => s = t.foldl
      (fun sum t => sum.accum (image.getColor t.ix t.iy) (FilterType1D.at filter t.fi))
      Pixel.zero) _ _ _ _ _ _ rfl ?_
  intro i s t hst
  cases vert
  · simp only [Bool.false_eq_true, if_false]
    rw [List.foldl_append, ← hst]
    rfl
  · simp only [if_true]
    rw [List.foldl_append, ← hst]
    rfl

theorem convolvePixel2DTaps_length (image : Image K) (filter : FilterType2D K) (r : Nat)
    (hlen : filter.length = 2 * r + 1) (x y : Int) :
    (convolvePixel2DTaps image filter x y).length = (2 * r + 1) * (2 * r + 1) := by
  rw [convolvePixel2DTaps_eq image filter r hlen]
  generalize 2 * r + 1 = n
  have h : ∀ l : List Nat, (l.flatMap (fun (b : Nat) =>
      (List.range n).map (fun (a : Nat) =>
        (⟨(a : Int), (b : Int), max 0 (min (x - r + a) (image.width - 1)),
          max 0 (min (y - r + b) (image.height - 1))⟩ : Tap2D)))).length = l.length * n := by
    intro l
    induction l with
    | nil => simp
    | cons b l ih =>
      rw [List.flatMap_cons, List.length_append, ih, List.length_map, List.length_range,
        List.length_cons]
      ring
  rw [h, List.length_range]

/-! ### Reads of the bilinear sampler -/

theorem bilinearInterpReads_in_range (image : Image K) (x y : K)
    (hw : 1 ≤ image.width) (hh : 1 ≤ image.height) (hx : 0 ≤ x) (hy : 0 ≤ y)
    (q : Int × Int) (hq : q ∈ bilinearInterpReads image x y) :
    0 ≤ q.1 ∧ q.1 ≤ image.width - 1 ∧ 0 ≤ q.2 ∧ q.2 ≤ image.height - 1 := by
  have hx0 := truncInt_nonneg x hx
  have hy0 := truncInt_nonneg y hy
  simp only [bilinearInterpReads, List.mem_cons, List.mem_singleton, List.not_mem_nil,
    or_false] at hq
  rcases hq with rfl | rfl | rfl | rfl <;>
    simp only [bilinearX0, bilinearX1, bilinearY0, bilinearY1] <;> omega

/-- The value of `bilinearInterp` depends on the image only through its four reads. -/
theorem bilinearInterp_congr_reads (image image2 : Image K) (x y : K)
    (hw : image2.width = image.width) (hh : image2.height = image.height)
    (hagree : ∀ q ∈ bilinearInterpReads image x y,
      image2.getColor q.1 q.2 = image.getColor q.1 q.2) :
    bilinearInterp image2 x y = bilinearInterp image x y := by
  have eX0 : bilinearX0 image2 x = bilinearX0 image x := by unfold bilinearX0; rw [hw]
  have eY0 : bilinearY0 image2 y = bilinearY0 image y := by unfold bilinearY0; rw [hh]
  have eX1 : bilinearX1 image2 x = bilinearX1 image x := by unfold bilinearX1; rw [eX0, hw]
  have eY1 : bilinearY1 image2 y = bilinearY1 image y := by unfold bilinearY1; rw [eY0, hh]
  apply Pixel.ext_get
  intro c
  rw [bilinearInterp_get, bilinearInterp_get, eX0, eY0, eX1, eY1,
    hagree (bilinearX0 image x, bilinearY0 image y) (by simp [bilinearInterpReads]),
    hagree (bilinearX0 image x, bilinearY1 image y) (by simp [bilinearInterpReads]),
    hagree (bilinearX1 image x, bilinearY0 image y) (by simp [bilinearInterpReads]),
    hagree (bilinearX1 image x, bilinearY1 image y) (by simp [bilinearInterpReads])]

/-! ### Single-precision rounding -/

theorem roundHalfEven_intCast (k : Int) : roundHalfEven (k : ℚ) = k := by
  unfold roundHalfEven
  rw [Int.floor_intCast, sub_self, if_pos (by norm_num)]

theorem roundHalfEven_le (q : ℚ) (n : Int) (h : q < (n : ℚ)) : roundHalfEven q ≤ n := by
  have hf : ⌊q⌋ < n := Int.floor_lt.mpr h
  unfold roundHalfEven
  split_ifs <;> omega

theorem le_roundHalfEven (q : ℚ) (n : Int) (h : (n : ℚ) ≤ q) : n ≤ roundHalfEven q := by
  have hf : n ≤ ⌊q⌋ := Int.le_floor.mpr h
  unfold roundHalfEven
  split_ifs <;> omega

theorem roundHalfEven_of_lt (q : ℚ) (f : Int) (h1 : (f : ℚ) ≤ q) (h2 : q - (f : ℚ) < 1 / 2) :
    roundHalfEven q = f := by
  have hf : ⌊q⌋ = f := by
    rw [Int.floor_eq_iff]
    exact ⟨h1, by linarith⟩
  unfold roundHalfEven
  rw [hf, if_pos h2]

theorem roundHalfEven_of_gt (q : ℚ) (f : Int) (h1 : q < (f : ℚ) + 1)
    (h2 : 1 / 2 < q - (f : ℚ)) : roundHalfEven q = f + 1 := by
  have hf : ⌊q⌋ = f := by
    rw [Int.floor_eq_iff]
    exact ⟨by linarith, h1⟩
  unfold roundHalfEven
  rw [hf, if_neg (by linarith), if_pos h2]

theorem f32Exponent_ge (x : ℚ) : -126 ≤ f32Exponent x := le_max_right _ _

theorem f32Ulp_pos (x : ℚ) : 0 < f32Ulp x := zpow_pos (by norm_num) _

theorem roundF32_zero : roundF32 0 = 0 := by
  unfold roundF32
  rw [zero_div]
  have : roundHalfEven 0 = 0 := roundHalfEven_intCast 0
  rw [this]
  simp

theorem roundF32_nonneg (x : ℚ) (hx : 0 ≤ x) : 0 ≤ roundF32 x := by
  unfold roundF32
  have h : (0 : Int) ≤ roundHalfEven (x / f32Ulp x) :=
    le_roundHalfEven _ 0 (by simpa using div_nonneg hx (f32Ulp_pos x).le)
  exact mul_nonneg (by exact_mod_cast h) (f32Ulp_pos x).le

theorem abs_lt_two_zpow_exponent (x : ℚ) : |x| < (2 : ℚ) ^ (f32Exponent x + 1) := by
  have h := Int.lt_zpow_succ_log_self (b := 2) (by norm_num) |x|
  have h2 : ((2 : ℕ) : ℚ) ^ (Int.log 2 |x| + 1) ≤ (2 : ℚ) ^ (f32Exponent x + 1) := by
    rw [Nat.cast_ofNat]
    exact zpow_le_zpow_right₀ (by norm_num) (by unfold f32Exponent; omega)
  exact lt_of_lt_of_le h h2

theorem roundF32_of_multiple (y : ℚ) (k : Int) (hk : y = (k : ℚ) * f32Ulp y) :
    roundF32 y = y := by
  have hu : f32Ulp y ≠ 0 := (f32Ulp_pos y).ne'
  have hq : y / f32Ulp y = (k : ℚ) := by
    rw [div_eq_iff hu]
    exact hk
  unfold roundF32
  rw [hq, roundHalfEven_intCast]
  exact hk.symm

theorem f32Exponent_of_bounds (y : ℚ) (e : Int) (he : -126 ≤ e)
    (hlo : (2 : ℚ) ^ e ≤ |y|) (hhi : |y| < (2 : ℚ) ^ (e + 1)) : f32Exponent y = e := by
  have hpos : 0 < |y| := lt_of_lt_of_le (zpow_pos (by norm_num) _) hlo
  have h1 : e ≤ Int.log 2 |y| := by
    rw [← Int.zpow_le_iff_le_log (by norm_num) hpos, Nat.cast_ofNat]
    exact hlo
  have h2 : Int.log 2 |y| < e + 1 := by
    rw [← Int.lt_zpow_iff_log_lt (by norm_num) hpos, Nat.cast_ofNat]
    exact hhi
  unfold f32Exponent
  omega

theorem f32Exponent_le_of_lt (y : ℚ) (e : Int) (he : -126 ≤ e) (hy : y ≠ 0)
    (hhi : |y| < (2 : ℚ) ^ (e + 1)) : f32Exponent y ≤ e := by
  have hpos : 0 < |y| := abs_pos.mpr hy
  have h2 : Int.log 2 |y| < e + 1 := by
    rw [← Int.lt_zpow_iff_log_lt (by norm_num) hpos, Nat.cast_ofNat]
    exact hhi
  unfold f32Exponent
  omega

theorem two_zpow_succ (e : Int) : (2 : ℚ) ^ (e + 1) = 16777216 * (2 : ℚ) ^ (e - 23) := by
  have h : e + 1 = 24 + (e - 23) := by ring
  rw [h, zpow_add₀ (by norm_num : (2 : ℚ) ≠ 0)]
  norm_num

/-- A rounded value is a `float`: rounding it again changes nothing. -/
theorem roundF32_idem (x : ℚ) : roundF32 (roundF32 x) = roundF32 x := by
  have hu : 0 < f32Ulp x := f32Ulp_pos x
  have he : -126 ≤ f32Exponent x := f32Exponent_ge x
  have habs := abs_lt_two_zpow_exponent x
  rw [two_zpow_succ] at habs
  have hux : f32Ulp x = (2 : ℚ) ^ (f32Exponent x - 23) := rfl
  rw [← hux] at habs
  obtain ⟨hlo, hhi⟩ := abs_lt.mp habs
  have hq1 : x / f32Ulp x < ((16777216 : Int) : ℚ) := by
    rw [div_lt_iff₀ hu]
    push_cast
    exact hhi
  have hq2 : ((-16777216 : Int) : ℚ) ≤ x / f32Ulp x := by
    rw [le_div_iff₀ hu]
    push_cast
    linarith
  have hm1 := roundHalfEven_le _ _ hq1
  have hm2 := le_roundHalfEven _ _ hq2
  have hy : roundF32 x = (roundHalfEven (x / f32Ulp x) : ℚ) * f32Ulp x := rfl
  generalize roundHalfEven (x / f32Ulp x) = m at hm1 hm2 hy
  by_cases hm0 : m = 0
  · rw [hy, hm0]
    simp [roundF32_zero]
  have hy0 : roundF32 x ≠ 0 := by
    rw [hy]
    exact mul_ne_zero (by exact_mod_cast hm0) hu.ne'
  have habsy : |roundF32 x| = |(m : ℚ)| * f32Ulp x := by
    rw [hy, abs_mul, abs_of_pos hu]
  by_cases hbig : m = 16777216 ∨ m = -16777216
  · have hmabs : |(m : ℚ)| = 16777216 := by
      rcases hbig with h | h <;> rw [h] <;> norm_num
    have hye : f32Exponent (roundF32 x) = f32Exponent x + 1 := by
      apply f32Exponent_of_bounds _ _ (by omega)
      · rw [habsy, hmabs, two_zpow_succ, ← hux]
      · rw [habsy, hmabs, hux, ← two_zpow_succ]
        exact zpow_lt_zpow_right₀ (by norm_num) (by omega)
    have hulp : f32Ulp (roundF32 x) = 2 * f32Ulp x := by
      unfold f32Ulp
      rw [hye]
      have h : f32Exponent x + 1 - 23 = 1 + (f32Exponent x - 23) := by ring
      rw [h, zpow_add₀ (by norm_num : (2 : ℚ) ≠ 0)]
      norm_num
    rcases hbig with h | h
    · apply roundF32_of_multiple _ 8388608
      rw [hulp, hy, h]
      push_cast
      ring
    · apply roundF32_of_multiple _ (-8388608)
      rw [hulp, hy, h]
      push_cast
      ring
  · have hmabs : |(m : ℚ)| ≤ 16777215 := by
      have h1 : m ≤ 16777215 := by omega
      have h2 : -16777215 ≤ m := by omega
      rw [abs_le]
      exact ⟨by exact_mod_cast h2, by exact_mod_cast h1⟩
    have hlt : |roundF32 x| < (2 : ℚ) ^ (f32Exponent x + 1) := by
      rw [habsy, two_zpow_succ, ← hux]
      exact mul_lt_mul_of_pos_right (lt_of_le_of_lt hmabs (by norm_num)) hu
    have hle := f32Exponent_le_of_lt _ _ he hy0 hlt
    obtain ⟨n, hn⟩ := Int.eq_ofNat_of_zero_le (sub_nonneg.mpr hle)
    have hulp : f32Ulp x = (2 : ℚ) ^ n * f32Ulp (roundF32 x) := by
      unfold f32Ulp
      have h : f32Exponent x - 23 = (n : Int) + (f32Exponent (roundF32 x) - 23) := by omega
      rw [h, zpow_add₀ (by norm_num : (2 : ℚ) ≠ 0), zpow_natCast]
    apply roundF32_of_multiple _ (m * 2 ^ n)
    calc roundF32 x = (m : ℚ) * f32Ulp x := hy
      _ = (m : ℚ) * ((2 : ℚ) ^ n * f32Ulp (roundF32 x)) := by rw [← hulp]
      _ = ((m * 2 ^ n : Int) : ℚ) * f32Ulp (roundF32 x) := by push_cast; ring

/-! ### Output dimensions of `scale` in single precision -/

theorem scaleDimsF32_fst (image : Image ℚ) (sx sy : ℚ) (hw : 1 ≤ image.width) (hsx : 0 < sx) :
    (scaleDimsF32 image sx sy).1
      = truncInt (roundF32 (roundF32 (sx * roundF32 ((image.width - 1 : Int) : ℚ)) + 1)) := by
  have hX : (0 : ℚ) ≤ roundF32 ((image.width - 1 : Int) : ℚ) :=
    roundF32_nonneg _ (by exact_mod_cast (by omega : 0 ≤ image.width - 1))
  have hP : 0 ≤ roundF32 (sx * roundF32 ((image.width - 1 : Int) : ℚ)) :=
    roundF32_nonneg _ (mul_nonneg hsx.le hX)
  simp only [scaleDimsF32, transformDimsF32, Mat2.mulVecF32, mul_zero, zero_mul, roundF32_zero,
    add_zero, zero_add, roundF32_idem]
  rw [max4_diag _ hP, min4_diag _ hP, sub_zero, roundF32_idem]

theorem scaleDimsF32_snd (image : Image ℚ) (sx sy : ℚ) (hh : 1 ≤ image.height) (hsy : 0 < sy) :
    (scaleDimsF32 image sx sy).2
      = truncInt (roundF32 (roundF32 (sy * roundF32 ((image.height - 1 : Int) : ℚ)) + 1)) := by
  have hY : (0 : ℚ) ≤ roundF32 ((image.height - 1 : Int) : ℚ) :=
    roundF32_nonneg _ (by exact_mod_cast (by omega : 0 ≤ image.height - 1))
  have hQ : 0 ≤ roundF32 (sy * roundF32 ((image.height - 1 : Int) : ℚ)) :=
    roundF32_nonneg _ (mul_nonneg hsy.le hY)
  simp only [scaleDimsF32, transformDimsF32, Mat2.mulVecF32, mul_zero, zero_mul, roundF32_zero,
    add_zero, zero_add, roundF32_idem]
  rw [max4_diag2 _ hQ, min4_diag2 _ hQ, sub_zero, roundF32_idem]

theorem truncInt_roundF32_succ (p : ℚ) (hp : 0 ≤ p) :
    truncInt (roundF32 (p + 1)) = ⌊roundF32 (p + 1)⌋ :=
  truncInt_of_nonneg _ (roundF32_nonneg _ (by linarith))

theorem f32Exponent_of_pos_bounds (x : ℚ) (e : Int) (he : -126 ≤ e) (hlo : (2 : ℚ) ^ e ≤ x)
    (hhi : x < (2 : ℚ) ^ (e + 1)) : f32Exponent x = e := by
  have hx : 0 < x := lt_of_lt_of_le (zpow_pos (by norm_num) _) hlo
  apply f32Exponent_of_bounds x e he
  · rw [abs_of_pos hx]; exact hlo
  · rw [abs_of_pos hx]; exact hhi

theorem roundF32_exact (x : ℚ) (e k : Int) (he : -126 ≤ e) (hlo : (2 : ℚ) ^ e ≤ x)
    (hhi : x < (2 : ℚ) ^ (e + 1)) (hk : x = (k : ℚ) * (2 : ℚ) ^ (e - 23)) :
    roundF32 x = x := by
  apply roundF32_of_multiple x k
  unfold f32Ulp
  rw [f32Exponent_of_pos_bounds x e he hlo hhi]
  exact hk

theorem roundF32_eval (x : ℚ) (e m : Int) (he : -126 ≤ e) (hlo : (2 : ℚ) ^ e ≤ x)
    (hhi : x < (2 : ℚ) ^ (e + 1)) (hm : roundHalfEven (x / (2 : ℚ) ^ (e - 23)) = m) :
    roundF32 x = (m : ℚ) * (2 : ℚ) ^ (e - 23) := by
  unfold roundF32 f32Ulp
  rw [f32Exponent_of_pos_bounds x e he hlo hhi, hm]

/-! ### Concrete single-precision values -/

theorem roundF32_two : roundF32 2 = 2 :=
  roundF32_exact 2 1 8388608 (by norm_num) (by norm_num) (by norm_num) (by norm_num)

theorem roundF32_eight : roundF32 8 = 8 :=
  roundF32_exact 8 3 8388608 (by norm_num) (by norm_num) (by norm_num) (by norm_num)

theorem roundF32_nine : roundF32 9 = 9 :=
  roundF32_exact 9 3 9437184 (by norm_num) (by norm_num) (by norm_num) (by norm_num)

theorem roundF32_ten : roundF32 10 = 10 :=
  roundF32_exact 10 3 10485760 (by norm_num) (by norm_num) (by norm_num) (by norm_num)

theorem roundF32_eighteen : roundF32 18 = 18 :=
  roundF32_exact 18 4 9437184 (by norm_num) (by norm_num) (by norm_num) (by norm_num)

theorem roundF32_nineteen : roundF32 19 = 19 :=
  roundF32_exact 19 4 9961472 (by norm_num) (by norm_num) (by norm_num) (by norm_num)

/-- The literal `0.7f` is the `float` nearest to `7/10`. -/
theorem roundF32_seven_tenths : roundF32 (7 / 10) = sevenTenthsF32 := by
  rw [roundF32_eval (7 / 10) (-1) 11744051 (by norm_num) (by norm_num) (by norm_num)
    (roundHalfEven_of_lt _ _ (by norm_num) (by norm_num))]
  norm_num [sevenTenthsF32]

theorem roundF32_sevenTenthsF32 : roundF32 sevenTenthsF32 = sevenTenthsF32 :=
  roundF32_exact _ (-1) 11744051 (by norm_num) (by norm_num [sevenTenthsF32])
    (by norm_num [sevenTenthsF32]) (by norm_num [sevenTenthsF32])

/-- The `float` product `0.7f * 10.0f` is `7.0f`, although the exact product is below 7. -/
theorem roundF32_sevenTenths_mul_ten : roundF32 (sevenTenthsF32 * 10) = 7 := by
  rw [roundF32_eval (sevenTenthsF32 * 10) 2 14680064 (by norm_num)
    (by norm_num [sevenTenthsF32]) (by norm_num [sevenTenthsF32])
    (roundHalfEven_of_gt _ 14680063 (by norm_num [sevenTenthsF32])
      (by norm_num [sevenTenthsF32]))]
  norm_num

theorem floor_sevenTenths_mul_ten : ⌊sevenTenthsF32 * 10⌋ = 6 := by
  rw [Int.floor_eq_iff]
  norm_num [sevenTenthsF32]

theorem strip_span : roundF32 (roundF32 (sevenTenthsF32
    * roundF32 ((stripImage.width - 1 : Int) : ℚ)) + 1) = 8 := by
  have e : ((stripImage.width - 1 : Int) : ℚ) = 10 := by norm_num [stripImage]
  rw [e, roundF32_ten, roundF32_sevenTenths_mul_ten]
  have e2 : (7 : ℚ) + 1 = 8 := by norm_num
  rw [e2, roundF32_eight]

theorem dot_span : roundF32 (roundF32 (2 * roundF32 ((dotImage.width - 1 : Int) : ℚ)) + 1)
    = 19 := by
  have e : ((dotImage.width - 1 : Int) : ℚ) = 9 := by norm_num [dotImage]
  have e1 : (2 : ℚ) * 9 = 18 := by norm_num
  have e2 : (18 : ℚ) + 1 = 19 := by norm_num
  rw [e, roundF32_nine, e1, roundF32_eighteen, e2, roundF32_nineteen]

theorem floor_eight : ⌊(8 : ℚ)⌋ = 8 := by
  have : (8 : ℚ) = ((8 : Int) : ℚ) := by norm_num
  rw [this, Int.floor_intCast]

theorem floor_nineteen : ⌊(19 : ℚ)⌋ = 19 := by
  have : (19 : ℚ) = ((19 : Int) : ℚ) := by norm_num
  rw [this, Int.floor_intCast]

end Lemmas

/-! # Claims -/

section Claims

variable {K : Type} [LinearOrderedField K] [FloorRing K]

/-- C3: for an image with width and height at least 1 and a 1D filter `f` of
odd length `2r+1`, `convolveImageSeparable image f` (horizontal then vertical
pass, clamp-to-edge) has the dimensions of, and at every in-range pixel the same
value on every channel as, `convolveImage2D image F` with `F[a][b] = f[a] * f[b]`. -/
theorem convolveImageSeparable_eq_convolveImage2D_outerProduct (image : Image K)
    (f : FilterType1D K) (r : Nat) (x y : Int)
    (hw : 1 ≤ image.width) (hh : 1 ≤ image.height) (hlen : f.length = 2 * r + 1)
    (hx0 : 0 ≤ x) (hxw : x < image.width) (hy0 : 0 ≤ y) (hyh : y < image.height) :
    (convolveImageSeparable image f).width = (convolveImage2D image (outerProduct f)).width ∧
    (convolveImageSeparable image f).height = (convolveImage2D image (outerProduct f)).height ∧
    (convolveImageSeparable image f).getColor x y
      = (convolveImage2D image (outerProduct f)).getColor x y := by
  refine ⟨?_, ?_, separable_eq_outer image f r hw hh hlen x y hx0 hxw hy0 hyh⟩
  · rw [convolveImageSeparable_width, convolveImage2D_width]
  · rw [convolveImageSeparable_height, convolveImage2D_height]

/-- C1: for an image with width and height at least 1 and a radius `r ≥ 0`,
`boxBlur image r` and `boxBlurSeparable image r` have the same dimensions and
the same pixel (every channel, exact arithmetic) at every in-range position. -/
theorem boxBlur_eq_boxBlurSeparable (image : Image K) (radius : Int) (x y : Int)
    (hw : 1 ≤ image.width) (hh : 1 ≤ image.height) (hr : 0 ≤ radius)
    (hx0 : 0 ≤ x) (hxw : x < image.width) (hy0 : 0 ≤ y) (hyh : y < image.height) :
    (boxBlur image radius).width = (boxBlurSeparable image radius).width ∧
    (boxBlur image radius).height = (boxBlurSeparable image radius).height ∧
    (boxBlur image radius).getColor x y = (boxBlurSeparable image radius).getColor x y := by
  obtain ⟨r, rfl⟩ := Int.eq_ofNat_of_zero_le hr
  refine ⟨?_, ?_, boxBlur_getColor_eq image r hw hh x y hx0 hxw hy0 hyh⟩
  · rw [boxBlur_width, boxBlurSeparable_width]
  · rw [boxBlur_height, boxBlurSeparable_height]

/-- C9: for an image with width and height at least 1 all of whose pixels equal
one value `p`, and a radius `r ≥ 0`, both `boxBlur image r` and
`boxBlurSeparable image r` have the image's dimensions and the pixel `p` at every
in-range position. -/
theorem boxBlur_const (image : Image K) (radius : Int) (p : Pixel K) (x y : Int)
    (hw : 1 ≤ image.width) (hh : 1 ≤ image.height) (hr : 0 ≤ radius)
    (hconst : ∀ a b, 0 ≤ a → a < image.width → 0 ≤ b → b < image.height →
      image.getColor a b = p)
    (hx0 : 0 ≤ x) (hxw : x < image.width) (hy0 : 0 ≤ y) (hyh : y < image.height) :
    ((boxBlur image radius).width = image.width ∧ (boxBlur image radius).height = image.height ∧
      (boxBlur image radius).getColor x y = p) ∧
    ((boxBlurSeparable image radius).width = image.width ∧
      (boxBlurSeparable image radius).height = image.height ∧
      (boxBlurSeparable image radius).getColor x y = p) := by
  obtain ⟨r, rfl⟩ := Int.eq_ofNat_of_zero_le hr
  have hsep := boxBlurSeparable_const image r p hw hh hconst x y hx0 hxw hy0 hyh
  refine ⟨⟨boxBlur_width _ _, boxBlur_height _ _, ?_⟩,
    ⟨boxBlurSeparable_width _ _, boxBlurSeparable_height _ _, hsep⟩⟩
  rw [boxBlur_getColor_eq image r hw hh x y hx0 hxw hy0 hyh, hsep]

/-- C6: for an image of width `w ≥ 1` and height `h ≥ 1` and a square filter of
odd size `2r+1`, `convolveImage2D` returns an image of the same width and height
whose pixel at an in-range `(x, y)` has on each channel the value
`Σ a b ∈ [0, 2r], filter[a][b] * image(clamp(x+a-r, 0, w-1), clamp(y+b-r, 0, h-1))`:
first filter index horizontal, second vertical, no flip, no normalisation. -/
theorem convolveImage2D_tap_sum (image : Image K) (filter : FilterType2D K) (r : Nat)
    (x y : Int) (c : Channel)
    (hw : 1 ≤ image.width) (hh : 1 ≤ image.height)
    (hlen : filter.length = 2 * r + 1) (hsq : ∀ row ∈ filter, row.length = 2 * r + 1)
    (hx0 : 0 ≤ x) (hxw : x < image.width) (hy0 : 0 ≤ y) (hyh : y < image.height) :
    (convolveImage2D image filter).width = image.width ∧
    (convolveImage2D image filter).height = image.height ∧
    ((convolveImage2D image filter).getColor x y).get c
      = ∑ a in Finset.range (2 * r + 1), ∑ b in Finset.range (2 * r + 1),
          FilterType2D.at filter (a : Int) (b : Int)
          * (image.getColor (max 0 (min (x + a - r) (image.width - 1)))
              (max 0 (min (y + b - r) (image.height - 1)))).get c := by
  refine ⟨convolveImage2D_width _ _, convolveImage2D_height _ _, ?_⟩
  rw [convolveImage2D_getColor image filter x y hx0 hxw hy0 hyh,
    convolvePixel2D_get image filter r hlen, Finset.sum_comm]
  refine Finset.sum_congr rfl (fun a _ => Finset.sum_congr rfl (fun b _ => ?_))
  have e1 : x - (r : Int) + a = x + a - r := by ring
  have e2 : y - (r : Int) + b = y + b - r := by ring
  rw [e1, e2, mul_comm]

/-- C10: for a 1×1 image with pixel `p` and a square filter of odd size `2r+1`,
`convolveImage2D` returns a 1×1 image whose pixel is, on each channel, `p`'s
channel times the sum of all `(2r+1)²` filter weights. -/
theorem convolveImage2D_single_pixel (image : Image K) (filter : FilterType2D K) (r : Nat)
    (c : Channel) (hw : image.width = 1) (hh : image.height = 1)
    (hlen : filter.length = 2 * r + 1) (hsq : ∀ row ∈ filter, row.length = 2 * r + 1) :
    (convolveImage2D image filter).width = 1 ∧
    (convolveImage2D image filter).height = 1 ∧
    ((convolveImage2D image filter).getColor 0 0).get c
      = (image.getColor 0 0).get c * kernelSum filter ∧
    kernelSum filter = ∑ a in Finset.range (2 * r + 1), ∑ b in Finset.range (2 * r + 1),
      FilterType2D.at filter (a : Int) (b : Int) := by
  refine ⟨(convolveImage2D_width _ _).trans hw, (convolveImage2D_height _ _).trans hh, ?_,
    (sum_at_eq_kernelSum filter r hlen hsq).symm⟩
  rw [convolveImage2D_getColor image filter 0 0 le_rfl (by omega) le_rfl (by omega),
    convolvePixel2D_get image filter r hlen, ← sum_at_eq_kernelSum filter r hlen hsq,
    Finset.sum_comm, Finset.mul_sum]
  refine Finset.sum_congr rfl (fun a _ => ?_)
  rw [Finset.mul_sum]
  refine Finset.sum_congr rfl (fun b _ => ?_)
  have e1 : max 0 (min (0 - (r : Int) + a) (image.width - 1)) = 0 := by omega
  have e2 : max 0 (min (0 - (r : Int) + b) (image.height - 1)) = 0 := by omega
  rw [e1, e2]

/-- C1 (witness): the 3×2 ramp image, radius 1, pixel `(2, 1)`. -/
theorem boxBlur_eq_boxBlurSeparable_witness :
    (1 ≤ rampImage.width ∧ 1 ≤ rampImage.height ∧ (0 : Int) ≤ 1 ∧
      (0 : Int) ≤ 2 ∧ 2 < rampImage.width ∧ (0 : Int) ≤ 1 ∧ 1 < rampImage.height) ∧
    ((boxBlur rampImage 1).width = (boxBlurSeparable rampImage 1).width ∧
      (boxBlur rampImage 1).height = (boxBlurSeparable rampImage 1).height ∧
      (boxBlur rampImage 1).getColor 2 1 = (boxBlurSeparable rampImage 1).getColor 2 1) :=
  ⟨by decide, boxBlur_eq_boxBlurSeparable rampImage 1 2 1
    (by decide) (by decide) (by decide) (by decide) (by decide) (by decide) (by decide)⟩

/-- C3 (witness): the 3×2 ramp image, the filter `[1, 2, 1]`, pixel `(0, 1)`. -/
theorem convolveImageSeparable_eq_convolveImage2D_outerProduct_witness :
    (1 ≤ rampImage.width ∧ 1 ≤ rampImage.height ∧ binomialFilter.length = 2 * 1 + 1 ∧
      (0 : Int) ≤ 0 ∧ 0 < rampImage.width ∧ (0 : Int) ≤ 1 ∧ 1 < rampImage.height) ∧
    ((convolveImageSeparable rampImage binomialFilter).width
        = (convolveImage2D rampImage (outerProduct binomialFilter)).width ∧
      (convolveImageSeparable rampImage binomialFilter).height
        = (convolveImage2D rampImage (outerProduct binomialFilter)).height ∧
      (convolveImageSeparable rampImage binomialFilter).getColor 0 1
        = (convolveImage2D rampImage (outerProduct binomialFilter)).getColor 0 1) :=
  ⟨by decide, convolveImageSeparable_eq_convolveImage2D_outerProduct rampImage binomialFilter 1 0 1
    (by decide) (by decide) (by decide) (by decide) (by decide) (by decide) (by decide)⟩

/-- C6 (witness): the 3×2 ramp image, the 3×3 counting filter, pixel `(0, 0)`, red channel. -/
theorem convolveImage2D_tap_sum_witness :
    (1 ≤ rampImage.width ∧ 1 ≤ rampImage.height ∧ countingFilter.length = 2 * 1 + 1 ∧
      (∀ row ∈ countingFilter, row.length = 2 * 1 + 1) ∧
      (0 : Int) ≤ 0 ∧ 0 < rampImage.width ∧ (0 : Int) ≤ 0 ∧ 0 < rampImage.height) ∧
    ((convolveImage2D rampImage countingFilter).width = rampImage.width ∧
      (convolveImage2D rampImage countingFilter).height = rampImage.height ∧
      ((convolveImage2D rampImage countingFilter).getColor 0 0).get Channel.r
        = ∑ a in Finset.range (2 * 1 + 1), ∑ b in Finset.range (2 * 1 + 1),
            FilterType2D.at countingFilter (a : Int) (b : Int)
            * (rampImage.getColor (max 0 (min (0 + a - (1 : Nat)) (rampImage.width - 1)))
                (max 0 (min (0 + b - (1 : Nat)) (rampImage.height - 1)))).get Channel.r) :=
  ⟨⟨by decide, by decide, by decide, by simp [countingFilter], by decide, by decide, by decide,
      by decide⟩,
    convolveImage2D_tap_sum rampImage countingFilter 1 0 0 Channel.r
      (by decide) (by decide) (by decide) (by simp [countingFilter])
      (by decide) (by decide) (by decide) (by decide)⟩

/-- C9 (witness): the 2×2 image of all `(1, 1, 1)`, radius 1, pixel `(1, 0)`. -/
theorem boxBlur_const_witness :
    (1 ≤ onesImage.width ∧ 1 ≤ onesImage.height ∧ (0 : Int) ≤ 1 ∧
      (∀ a b, 0 ≤ a → a < onesImage.width → 0 ≤ b → b < onesImage.height →
        onesImage.getColor a b = ⟨1, 1, 1⟩) ∧
      (0 : Int) ≤ 1 ∧ 1 < onesImage.width ∧ (0 : Int) ≤ 0 ∧ 0 < onesImage.height) ∧
    (((boxBlur onesImage 1).width = onesImage.width ∧
        (boxBlur onesImage 1).height = onesImage.height ∧
        (boxBlur onesImage 1).getColor 1 0 = ⟨1, 1, 1⟩) ∧
      ((boxBlurSeparable onesImage 1).width = onesImage.width ∧
        (boxBlurSeparable onesImage 1).height = onesImage.height ∧
        (boxBlurSeparable onesImage 1).getColor 1 0 = ⟨1, 1, 1⟩)) :=
  ⟨⟨by decide, by decide, by decide, fun _ _ _ _ _ _ => rfl, by decide, by decide, by decide,
      by decide⟩,
    boxBlur_const onesImage 1 ⟨1, 1, 1⟩ 1 0 (by decide) (by decide) (by decide)
      (fun _ _ _ _ _ _ => rfl) (by decide) (by decide) (by decide) (by decide)⟩

/-- C10 (witness): the 1×1 image with pixel `(2, 3, 5)`, the 3×3 counting filter, green channel. -/
theorem convolveImage2D_single_pixel_witness :
    (singlePixelImage.width = 1 ∧ singlePixelImage.height = 1 ∧
      countingFilter.length = 2 * 1 + 1 ∧ (∀ row ∈ countingFilter, row.length = 2 * 1 + 1)) ∧
    ((convolveImage2D singlePixelImage countingFilter).width = 1 ∧
      (convolveImage2D singlePixelImage countingFilter).height = 1 ∧
      ((convolveImage2D singlePixelImage countingFilter).getColor 0 0).get Channel.g
        = (singlePixelImage.getColor 0 0).get Channel.g * kernelSum countingFilter ∧
      kernelSum countingFilter = ∑ a in Finset.range (2 * 1 + 1), ∑ b in Finset.range (2 * 1 + 1),
        FilterType2D.at countingFilter (a : Int) (b : Int)) :=
  ⟨⟨rfl, rfl, rfl, by simp [countingFilter]⟩,
    convolveImage2D_single_pixel singlePixelImage countingFilter 1 Channel.g rfl rfl rfl
      (by simp [countingFilter])⟩

/-- C2: in exact real arithmetic, for an image with width and height at least
1, a radius `r ≥ 0` and `σ > 0`, `gaussianBlur image r σ` and
`gaussianBlurSeparable image r σ` have the same dimensions and the same pixel at
every in-range position, and for `i, j ∈ [0, 2r]` the 2D kernel entry
`exp(-((i-r)²+(j-r)²)/(2σ²)) / (π·2σ²)` is the product of the 1D kernel entries
`exp(-(k-r)²/(2σ²)) / sqrt(π·2σ²)` at `i` and at `j`. -/
theorem gaussianBlur_eq_gaussianBlurSeparable (image : Image ℝ) (radius : Int) (stddev : ℝ)
    (x y : Int) (i j : Nat)
    (hw : 1 ≤ image.width) (hh : 1 ≤ image.height) (hr : 0 ≤ radius) (hs : 0 < stddev)
    (hx0 : 0 ≤ x) (hxw : x < image.width) (hy0 : 0 ≤ y) (hyh : y < image.height)
    (hi : (i : Int) ≤ 2 * radius) (hj : (j : Int) ≤ 2 * radius) :
    ((gaussianBlur realLibm image radius stddev).width
        = (gaussianBlurSeparable realLibm image radius stddev).width ∧
      (gaussianBlur realLibm image radius stddev).height
        = (gaussianBlurSeparable realLibm image radius stddev).height ∧
      (gaussianBlur realLibm image radius stddev).getColor x y
        = (gaussianBlurSeparable realLibm image radius stddev).getColor x y) ∧
    FilterType2D.at (gaussianFilter2D realLibm radius stddev) (i : Int) (j : Int)
      = Real.exp (-((((i : Int) - radius : Int) : ℝ) ^ 2 + (((j : Int) - radius : Int) : ℝ) ^ 2)
          / (2 * stddev ^ 2)) / (Real.pi * (2 * stddev ^ 2)) ∧
    FilterType1D.at (gaussianFilter1D realLibm radius stddev) (i : Int)
      = Real.exp (-((((i : Int) - radius : Int) : ℝ) ^ 2) / (2 * stddev ^ 2))
          / Real.sqrt (Real.pi * (2 * stddev ^ 2)) ∧
    FilterType1D.at (gaussianFilter1D realLibm radius stddev) (j : Int)
      = Real.exp (-((((j : Int) - radius : Int) : ℝ) ^ 2) / (2 * stddev ^ 2))
          / Real.sqrt (Real.pi * (2 * stddev ^ 2)) ∧
    FilterType2D.at (gaussianFilter2D realLibm radius stddev) (i : Int) (j : Int)
      = FilterType1D.at (gaussianFilter1D realLibm radius stddev) (i : Int)
        * FilterType1D.at (gaussianFilter1D realLibm radius stddev) (j : Int) := by
  have e : (2 : ℝ) * stddev ^ 2 = 2 * stddev * stddev := by ring
  refine ⟨⟨?_, ?_, ?_⟩, ?_, ?_, ?_, ?_⟩
  · exact (convolveImage2D_width _ _).trans (convolveImageSeparable_width _ _).symm
  · exact (convolveImage2D_height _ _).trans (convolveImageSeparable_height _ _).symm
  · obtain ⟨r, rfl⟩ := Int.eq_ofNat_of_zero_le hr
    unfold gaussianBlur gaussianBlurSeparable
    rw [gaussianFilter2D_real_eq_outer]
    exact (separable_eq_outer image _ r hw hh (gaussianFilter1D_length _ r _)
      x y hx0 hxw hy0 hyh).symm
  · rw [gaussianFilter2D_at realLibm radius stddev i j (by omega) (by omega), e, sq, sq]
    rfl
  · rw [gaussianFilter1D_at realLibm radius stddev i (by omega), e, sq]
    rfl
  · rw [gaussianFilter1D_at realLibm radius stddev j (by omega), e, sq]
    rfl
  · rw [gaussianFilter2D_real_eq_outer, outerProduct_at]

/-- C2 (witness): the real 3×2 ramp image, radius 1, `σ = 3`, pixel `(2, 1)`, kernel entry `[0][2]`. -/
theorem gaussianBlur_eq_gaussianBlurSeparable_witness :
    (1 ≤ realRampImage.width ∧ 1 ≤ realRampImage.height ∧ (0 : Int) ≤ 1 ∧ (0 : ℝ) < 3 ∧
      (0 : Int) ≤ 2 ∧ 2 < realRampImage.width ∧ (0 : Int) ≤ 1 ∧ 1 < realRampImage.height ∧
      ((0 : Nat) : Int) ≤ 2 * 1 ∧ ((2 : Nat) : Int) ≤ 2 * 1) ∧
    (gaussianBlur realLibm realRampImage 1 3).getColor 2 1
      = (gaussianBlurSeparable realLibm realRampImage 1 3).getColor 2 1 :=
  ⟨⟨by decide, by decide, by decide, by norm_num, by decide, by decide, by decide, by decide,
      by decide, by decide⟩,
    (gaussianBlur_eq_gaussianBlurSeparable realRampImage 1 3 2 1 0 2
      (by decide) (by decide) (by decide) (by norm_num) (by decide) (by decide) (by decide)
      (by decide) (by decide) (by decide)).1.2.2⟩

/-- C7: for an image of width `W ≥ 1`, height `H ≥ 1` and an invertible `M`, with
`outW`, `outH` the dimensions of `transform image M`: an output index `(x, y)`
whose inverse-mapped position `p = M⁻¹·(newMinX + x·dx, newMinY + y·dy)` passes
the acceptance test is written, at storage position `(x, outH-1-y)`, with the
bilinear sample at `(p.x + 1/2, (H-1) - p.y + 1/2)` of
`gaussianBlurSeparable image 9 3` if `outW·outH / (W·H) < 1/4`, and of the
original image if `outW·outH / (W·H) ≥ 1/4`. -/
theorem transform_sampling_source (m : Libm K) (image : Image K) (t : Mat2 K) (x y : Int)
    (hw : 1 ≤ image.width) (hh : 1 ≤ image.height) (hdet : t.det ≠ 0)
    (hx0 : 0 ≤ x) (hxw : x < (transform m image t).width)
    (hy0 : 0 ≤ y) (hyh : y < (transform m image t).height)
    (hacc : -(1 / 2) ≤ ((transformSetup m image t).samplePos x y).x ∧
      ((transformSetup m image t).samplePos x y).x ≤ (image.width : K) - 1 / 2 ∧
      -(1 / 2) ≤ ((transformSetup m image t).samplePos x y).y ∧
      ((transformSetup m image t).samplePos x y).y ≤ (image.height : K) - 1 / 2) :
    (transformSetup m image t).samplePos x y
      = t.inverse.mulVec ⟨(transformSetup m image t).newMinX + (x : K) * (transformSetup m image t).dx,
          (transformSetup m image t).newMinY + (y : K) * (transformSetup m image t).dy⟩ ∧
    ((((transform m image t).width * (transform m image t).height : Int) : K)
        / ((image.width * image.height : Int) : K) < 1 / 4 →
      (transform m image t).getColor x ((transform m image t).height - 1 - y)
        = bilinearInterp (gaussianBlurSeparable m image 9 3)
            (((transformSetup m image t).samplePos x y).x + 1 / 2)
            (((image.height - 1 : Int) : K) - ((transformSetup m image t).samplePos x y).y
              + 1 / 2)) ∧
    (1 / 4 ≤ (((transform m image t).width * (transform m image t).height : Int) : K)
        / ((image.width * image.height : Int) : K) →
      (transform m image t).getColor x ((transform m image t).height - 1 - y)
        = bilinearInterp image
            (((transformSetup m image t).samplePos x y).x + 1 / 2)
            (((image.height - 1 : Int) : K) - ((transformSetup m image t).samplePos x y).y
              + 1 / 2)) := by
  refine ⟨rfl, fun hlt => ?_, fun hge => ?_⟩
  · rw [transform_getColor m image t x y hx0 hxw hy0 hyh, if_pos hacc,
      transformSetup_source_of_lt m image t hlt]
  · rw [transform_getColor m image t x y hx0 hxw hy0 hyh, if_pos hacc,
      transformSetup_source_of_ge m image t hge]

/-- C8: for an image with width and height at least 1 and an invertible `M`, an
output index `(x, y)`, `0 ≤ x < outW`, `0 ≤ y < outH`, whose inverse-mapped
position fails the acceptance test leaves the pixel of `transform image M` at
storage position `(x, outH-1-y)` equal to `(0, 0, 0)`; no other output index
is stored at that position. -/
theorem transform_rejected_pixel_zero (m : Libm K) (image : Image K) (t : Mat2 K) (x y : Int)
    (hw : 1 ≤ image.width) (hh : 1 ≤ image.height) (hdet : t.det ≠ 0)
    (hx0 : 0 ≤ x) (hxw : x < (transform m image t).width)
    (hy0 : 0 ≤ y) (hyh : y < (transform m image t).height)
    (hrej : ¬ (-(1 / 2) ≤ ((transformSetup m image t).samplePos x y).x ∧
      ((transformSetup m image t).samplePos x y).x ≤ (image.width : K) - 1 / 2 ∧
      -(1 / 2) ≤ ((transformSetup m image t).samplePos x y).y ∧
      ((transformSetup m image t).samplePos x y).y ≤ (image.height : K) - 1 / 2)) :
    (transformSetup m image t).samplePos x y
      = t.inverse.mulVec ⟨(transformSetup m image t).newMinX + (x : K) * (transformSetup m image t).dx,
          (transformSetup m image t).newMinY + (y : K) * (transformSetup m image t).dy⟩ ∧
    (transform m image t).getColor x ((transform m image t).height - 1 - y) = ⟨0, 0, 0⟩ ∧
    ∀ x2 y2 : Int, 0 ≤ x2 → x2 < (transform m image t).width →
      0 ≤ y2 → y2 < (transform m image t).height →
      x2 = x ∧ (transform m image t).height - 1 - y2 = (transform m image t).height - 1 - y →
      x2 = x ∧ y2 = y := by
  refine ⟨rfl, ?_, fun x2 y2 _ _ _ _ h => ⟨h.1, by omega⟩⟩
  rw [transform_getColor m image t x y hx0 hxw hy0 hyh, if_neg hrej]
  rfl

/-- C8 (witness): the 3×2 ramp image sheared by `skew(image, 2, 0)`; output index
`(0, 1)` maps back to `(-1, 1/2)`, outside the image, and stays `(0, 0, 0)`. -/
theorem transform_rejected_pixel_zero_witness :
    (1 ≤ realRampImage.width ∧ 1 ≤ realRampImage.height ∧ shearMat.det ≠ 0 ∧
      (0 : Int) ≤ 0 ∧ 0 < (transform realLibm realRampImage shearMat).width ∧
      (0 : Int) ≤ 1 ∧ 1 < (transform realLibm realRampImage shearMat).height ∧
      (transformSetup realLibm realRampImage shearMat).samplePos 0 1 = ⟨-1, 1 / 2⟩) ∧
    (transform realLibm realRampImage shearMat).getColor 0
        ((transform realLibm realRampImage shearMat).height - 1 - 1) = ⟨0, 0, 0⟩ :=
  ⟨⟨by decide, by decide, by norm_num [Mat2.det, shearMat], le_rfl,
      by rw [shear_width]; decide, by decide, by rw [shear_height]; decide,
      by rw [shear_samplePos]; norm_num⟩,
    (transform_rejected_pixel_zero realLibm realRampImage shearMat 0 1 (by decide) (by decide)
      (by norm_num [Mat2.det, shearMat]) le_rfl (by rw [shear_width]; decide) (by decide)
      (by rw [shear_height]; decide)
      (by rw [shear_samplePos]; norm_num)).2.1⟩

/-- C7 (witness): the 8×8 gradient image scaled by `(1/4, 1/4)` is 2×2, a ratio of
`4/64 < 1/4`; output index `(0, 0)` samples the pre-blurred image. -/
theorem transform_sampling_source_witness :
    (1 ≤ gradient8.width ∧ 1 ≤ gradient8.height ∧ quarterScaleMat.det ≠ 0 ∧
      (0 : Int) ≤ 0 ∧ 0 < (transform realLibm gradient8 quarterScaleMat).width ∧
      (0 : Int) ≤ 0 ∧ 0 < (transform realLibm gradient8 quarterScaleMat).height ∧
      (transformSetup realLibm gradient8 quarterScaleMat).samplePos 0 0 = ⟨0, 0⟩ ∧
      (((transform realLibm gradient8 quarterScaleMat).width
          * (transform realLibm gradient8 quarterScaleMat).height : Int) : ℝ)
        / ((gradient8.width * gradient8.height : Int) : ℝ) < 1 / 4) ∧
    (transform realLibm gradient8 quarterScaleMat).getColor 0
        ((transform realLibm gradient8 quarterScaleMat).height - 1 - 0)
      = bilinearInterp (gaussianBlurSeparable realLibm gradient8 9 3)
          (((transformSetup realLibm gradient8 quarterScaleMat).samplePos 0 0).x + 1 / 2)
          (((gradient8.height - 1 : Int) : ℝ)
            - ((transformSetup realLibm gradient8 quarterScaleMat).samplePos 0 0).y + 1 / 2) :=
  ⟨⟨by decide, by decide, by norm_num [Mat2.det, quarterScaleMat], le_rfl,
      by rw [quarter_width]; decide, le_rfl, by rw [quarter_height]; decide,
      quarter_samplePos, quarter_ratio⟩,
    (transform_sampling_source realLibm gradient8 quarterScaleMat 0 0 (by decide) (by decide)
      (by norm_num [Mat2.det, quarterScaleMat]) le_rfl (by rw [quarter_width]; decide) le_rfl
      (by rw [quarter_height]; decide)
      (by rw [quarter_samplePos]; norm_num [gradient8])).2.1 quarter_ratio⟩

/-- C4 (counterexample): for the 4×4 image with pixel `(x, y) = (x/3, y/3, 0)`
the identity transform returns at `(0, 0)` the pixel `(1/6, 5/12, 0)`, while the
input pixel there is `(0, 0, 0)`: the red channels differ by more than `1e-5`. -/
theorem transform_identity_counterexample :
    (transform realLibm gradient4 identityMat).getColor 0 0 = ⟨1 / 6, 5 / 12, 0⟩ ∧
    gradient4.getColor 0 0 = ⟨0, 0, 0⟩ ∧
    ¬ (|((transform realLibm gradient4 identityMat).getColor 0 0).r - (gradient4.getColor 0 0).r|
        ≤ 1 / 100000) := by
  have h0 : gradient4.getColor 0 0 = ⟨0, 0, 0⟩ := by
    norm_num [gradient4, Image.getColor]
  refine ⟨gradient4_identity_pixel, h0, ?_⟩
  rw [gradient4_identity_pixel, h0]
  simp only [sub_zero]
  rw [abs_of_pos (by norm_num : (0 : ℝ) < 1 / 6)]
  norm_num

/-- C4 (amended): for an image `I` with width `W ≥ 1` and height `H ≥ 1`,
`transform I identity` — which is also `skew I 0 0`, `scale I 1 1`, and
`rotate I 0` when `cosf 0 = 1` and `sinf 0 = 0` — has the dimensions of `I`, and
its pixel at storage position `(x, H-1-y)`, `0 ≤ x < W`, `0 ≤ y < H`, is the
bilinear sample of `I` at `(x·(W-1)/W + 1/2, (H-1) - y·(H-1)/H + 1/2)`; it equals
`I`'s pixel there whenever `I` is constant. -/
theorem transform_identity_resamples (m : Libm K) (image : Image K) (x y : Int)
    (hw : 1 ≤ image.width) (hh : 1 ≤ image.height)
    (hx0 : 0 ≤ x) (hxw : x < image.width) (hy0 : 0 ≤ y) (hyh : y < image.height) :
    (transform m image identityMat).width = image.width ∧
    (transform m image identityMat).height = image.height ∧
    (transform m image identityMat).getColor x (image.height - 1 - y)
      = bilinearInterp image
          ((x : K) * (((image.width - 1 : Int) : K) / (image.width : K)) + 1 / 2)
          (((image.height - 1 : Int) : K)
            - (y : K) * (((image.height - 1 : Int) : K) / (image.height : K)) + 1 / 2) ∧
    skew m image 0 0 = transform m image identityMat ∧
    scale m image 1 1 = transform m image identityMat ∧
    (m.cosf 0 = 1 → m.sinf 0 = 0 → rotate m image 0 = transform m image identityMat) ∧
    ∀ p : Pixel K,
      (∀ a b, 0 ≤ a → a < image.width → 0 ≤ b → b < image.height → image.getColor a b = p) →
      (transform m image identityMat).getColor x (image.height - 1 - y)
        = image.getColor x (image.height - 1 - y) := by
  have key := transform_identity_getColor m image x y hw hh hx0 hxw hy0 hyh
  obtain ⟨a1, a2⟩ := unit_step_bounds (K := K) x image.width hx0 hxw
  obtain ⟨b1, b2⟩ := unit_step_bounds (K := K) y image.height hy0 hyh
  refine ⟨identity_width m image hw, identity_height m image hh, key, rfl, rfl, ?_, ?_⟩
  · intro hc hs
    unfold rotate
    simp only [mul_zero, zero_div, hc, hs, neg_zero]
    rfl
  · intro p hconst
    rw [key, hconst x (image.height - 1 - y) hx0 hxw (by omega) (by omega)]
    apply bilinearInterp_const image p _ _ hw hh hconst
    · linarith
    · have e : ((image.height - 1 : Int) : K) = (image.height : K) - 1 := by push_cast; ring
      linarith

/-- C4 (witness): the 4×4 image with pixel `(x, y) = (x/3, y/3, 0)`, output index `(0, 3)`. -/
theorem transform_identity_resamples_witness :
    (1 ≤ gradient4.width ∧ 1 ≤ gradient4.height ∧ (0 : Int) ≤ 0 ∧ 0 < gradient4.width ∧
      (0 : Int) ≤ 3 ∧ 3 < gradient4.height) ∧
    (transform realLibm gradient4 identityMat).width = gradient4.width ∧
    (transform realLibm gradient4 identityMat).height = gradient4.height ∧
    (transform realLibm gradient4 identityMat).getColor 0 (gradient4.height - 1 - 3)
      = bilinearInterp gradient4
          (((0 : Int) : ℝ) * (((gradient4.width - 1 : Int) : ℝ) / (gradient4.width : ℝ)) + 1 / 2)
          (((gradient4.height - 1 : Int) : ℝ)
            - ((3 : Int) : ℝ) * (((gradient4.height - 1 : Int) : ℝ) / (gradient4.height : ℝ))
            + 1 / 2) :=
  ⟨by decide,
    (transform_identity_resamples realLibm gradient4 0 3 (by decide) (by decide) (by decide)
      (by decide) (by decide) (by decide)).1,
    (transform_identity_resamples realLibm gradient4 0 3 (by decide) (by decide) (by decide)
      (by decide) (by decide) (by decide)).2.1,
    (transform_identity_resamples realLibm gradient4 0 3 (by decide) (by decide) (by decide)
      (by decide) (by decide) (by decide)).2.2.1⟩

/-- C14: for an image of width `W ≥ 1` and height `H ≥ 1` and coordinates
`x ≥ 0`, `y ≥ 0`, `bilinearInterp image x y = bilinearInterp image (min x (W-1))
(min y (H-1))`; in particular for `x ≥ W-1` and `y ≥ H-1` the result is the pixel
at `(W-1, H-1)`, although the bias `x - x0` is taken against the clamped anchor
`x0 = W-1` (and exceeds 1 once `x > W`). -/
theorem bilinearInterp_high_edge_clamp (image : Image K) (x y : K)
    (hw : 1 ≤ image.width) (hh : 1 ≤ image.height) (hx : 0 ≤ x) (hy : 0 ≤ y) :
    bilinearInterp image x y
      = bilinearInterp image (min x ((image.width - 1 : Int) : K))
          (min y ((image.height - 1 : Int) : K)) ∧
    (((image.width - 1 : Int) : K) ≤ x → ((image.height - 1 : Int) : K) ≤ y →
      bilinearInterp image x y = image.getColor (image.width - 1) (image.height - 1) ∧
      x - (bilinearX0 image x : K) = x - ((image.width - 1 : Int) : K)) := by
  have h1 : bilinearInterp image x y
      = bilinearInterp image (min x ((image.width - 1 : Int) : K))
          (min y ((image.height - 1 : Int) : K)) := by
    rw [bilinearInterp_clamp_x image x y hw hx, bilinearInterp_clamp_y image _ y hh hy]
  refine ⟨h1, fun hxw hyh => ⟨?_, ?_⟩⟩
  · rw [h1, min_eq_right hxw, min_eq_right hyh]
    exact bilinearInterp_intCast image _ _ (by omega) (by omega) (by omega) (by omega)
  · rw [bilinearX0_of_ge image x hw hxw]

/-- C18: for an image of width `W ≥ 1` and height `H ≥ 1` and integers
`0 ≤ i < W`, `0 ≤ j < H`, `bilinearInterp image i j` is the pixel at `(i, j)`. -/
theorem bilinearInterp_at_integer (image : Image K) (i j : Int)
    (hw : 1 ≤ image.width) (hh : 1 ≤ image.height)
    (hi0 : 0 ≤ i) (hiw : i < image.width) (hj0 : 0 ≤ j) (hjh : j < image.height) :
    bilinearInterp image (i : K) (j : K) = image.getColor i j ∧
    (i : K) - (bilinearX0 image (i : K) : K) = 0 ∧
    (j : K) - (bilinearY0 image (j : K) : K) = 0 := by
  refine ⟨bilinearInterp_intCast image i j hi0 hiw hj0 hjh, ?_, ?_⟩
  · unfold bilinearX0
    rw [truncInt_intCast i hi0, min_eq_left (by omega), sub_self]
  · unfold bilinearY0
    rw [truncInt_intCast j hj0, min_eq_left (by omega), sub_self]

/-- C19: for an image of width `W ≥ 1` and height `H ≥ 1` and coordinates
`0 ≤ x < W`, `0 ≤ y < H`, the biases `x - x0` and `y - y0` lie in `[0, 1)` and each
channel of `bilinearInterp image x y` lies between the minimum and the maximum of
that channel over the four corner pixels `c00`, `c01`, `c10`, `c11`. -/
theorem bilinearInterp_within_corners (image : Image K) (x y : K) (c : Channel)
    (hw : 1 ≤ image.width) (hh : 1 ≤ image.height)
    (hx0 : 0 ≤ x) (hxw : x < (image.width : K)) (hy0 : 0 ≤ y) (hyh : y < (image.height : K)) :
    (0 ≤ x - (bilinearX0 image x : K) ∧ x - (bilinearX0 image x : K) < 1 ∧
      0 ≤ y - (bilinearY0 image y : K) ∧ y - (bilinearY0 image y : K) < 1) ∧
    min4 ((image.getColor (bilinearX0 image x) (bilinearY0 image y)).get c)
        ((image.getColor (bilinearX0 image x) (bilinearY1 image y)).get c)
        ((image.getColor (bilinearX1 image x) (bilinearY0 image y)).get c)
        ((image.getColor (bilinearX1 image x) (bilinearY1 image y)).get c)
      ≤ (bilinearInterp image x y).get c ∧
    (bilinearInterp image x y).get c
      ≤ max4 ((image.getColor (bilinearX0 image x) (bilinearY0 image y)).get c)
        ((image.getColor (bilinearX0 image x) (bilinearY1 image y)).get c)
        ((image.getColor (bilinearX1 image x) (bilinearY0 image y)).get c)
        ((image.getColor (bilinearX1 image x) (bilinearY1 image y)).get c) := by
  have bx0 : 0 ≤ x - (bilinearX0 image x : K) := by
    rw [bilinearX0_of_lt image x hx0 hxw]
    exact sub_nonneg.mpr (Int.floor_le x)
  have bx1 : x - (bilinearX0 image x : K) < 1 := by
    rw [bilinearX0_of_lt image x hx0 hxw]
    linarith [Int.lt_floor_add_one x]
  have by0 : 0 ≤ y - (bilinearY0 image y : K) := by
    rw [bilinearY0_of_lt image y hy0 hyh]
    exact sub_nonneg.mpr (Int.floor_le y)
  have by1 : y - (bilinearY0 image y : K) < 1 := by
    rw [bilinearY0_of_lt image y hy0 hyh]
    linarith [Int.lt_floor_add_one y]
  refine ⟨⟨bx0, bx1, by0, by1⟩, ?_, ?_⟩
  · rw [bilinearInterp_get]
    obtain ⟨m1, m2, m3, m4⟩ := min4_le
      ((image.getColor (bilinearX0 image x) (bilinearY0 image y)).get c)
      ((image.getColor (bilinearX0 image x) (bilinearY1 image y)).get c)
      ((image.getColor (bilinearX1 image x) (bilinearY0 image y)).get c)
      ((image.getColor (bilinearX1 image x) (bilinearY1 image y)).get c)
    exact bilinear_lower _ _ _ _ _ _ _ bx0 bx1.le by0 by1.le m1 m3 m2 m4
  · rw [bilinearInterp_get]
    obtain ⟨m1, m2, m3, m4⟩ := le_max4
      ((image.getColor (bilinearX0 image x) (bilinearY0 image y)).get c)
      ((image.getColor (bilinearX0 image x) (bilinearY1 image y)).get c)
      ((image.getColor (bilinearX1 image x) (bilinearY0 image y)).get c)
      ((image.getColor (bilinearX1 image x) (bilinearY1 image y)).get c)
    exact bilinear_upper _ _ _ _ _ _ _ bx0 bx1.le by0 by1.le m1 m3 m2 m4

/-- C14 (witness): the 3×2 ramp image sampled at `(5, 7/2)`, past both edges. -/
theorem bilinearInterp_high_edge_clamp_witness :
    (1 ≤ rampImage.width ∧ 1 ≤ rampImage.height ∧ (0 : ℚ) ≤ 5 ∧ (0 : ℚ) ≤ 7 / 2) ∧
    bilinearInterp rampImage 5 (7 / 2)
      = bilinearInterp rampImage (min 5 ((rampImage.width - 1 : Int) : ℚ))
          (min (7 / 2) ((rampImage.height - 1 : Int) : ℚ)) :=
  ⟨⟨by decide, by decide, by norm_num, by norm_num⟩,
    (bilinearInterp_high_edge_clamp rampImage 5 (7 / 2) (by decide) (by decide) (by norm_num)
      (by norm_num)).1⟩

/-- C18 (witness): the 3×2 ramp image sampled at the integer position `(2, 1)`. -/
theorem bilinearInterp_at_integer_witness :
    (1 ≤ rampImage.width ∧ 1 ≤ rampImage.height ∧ (0 : Int) ≤ 2 ∧ 2 < rampImage.width ∧
      (0 : Int) ≤ 1 ∧ 1 < rampImage.height) ∧
    bilinearInterp rampImage ((2 : Int) : ℚ) ((1 : Int) : ℚ) = rampImage.getColor 2 1 :=
  ⟨by decide,
    (bilinearInterp_at_integer rampImage 2 1 (by decide) (by decide) (by decide) (by decide)
      (by decide) (by decide)).1⟩

/-- C19 (witness): the 3×2 ramp image sampled at `(3/2, 1/4)`, red channel. -/
theorem bilinearInterp_within_corners_witness :
    (1 ≤ rampImage.width ∧ 1 ≤ rampImage.height ∧ (0 : ℚ) ≤ 3 / 2 ∧
      (3 / 2 : ℚ) < (rampImage.width : ℚ) ∧ (0 : ℚ) ≤ 1 / 4 ∧
      (1 / 4 : ℚ) < (rampImage.height : ℚ)) ∧
    (0 ≤ (3 / 2 : ℚ) - (bilinearX0 rampImage (3 / 2 : ℚ) : ℚ) ∧
      (3 / 2 : ℚ) - (bilinearX0 rampImage (3 / 2 : ℚ) : ℚ) < 1 ∧
      0 ≤ (1 / 4 : ℚ) - (bilinearY0 rampImage (1 / 4 : ℚ) : ℚ) ∧
      (1 / 4 : ℚ) - (bilinearY0 rampImage (1 / 4 : ℚ) : ℚ) < 1) ∧
    min4 ((rampImage.getColor (bilinearX0 rampImage (3 / 2 : ℚ)) (bilinearY0 rampImage (1 / 4 : ℚ))).get Channel.r)
        ((rampImage.getColor (bilinearX0 rampImage (3 / 2 : ℚ)) (bilinearY1 rampImage (1 / 4 : ℚ))).get Channel.r)
        ((rampImage.getColor (bilinearX1 rampImage (3 / 2 : ℚ)) (bilinearY0 rampImage (1 / 4 : ℚ))).get Channel.r)
        ((rampImage.getColor (bilinearX1 rampImage (3 / 2 : ℚ)) (bilinearY1 rampImage (1 / 4 : ℚ))).get Channel.r)
      ≤ (bilinearInterp rampImage (3 / 2) (1 / 4)).get Channel.r ∧
    (bilinearInterp rampImage (3 / 2) (1 / 4)).get Channel.r
      ≤ max4 ((rampImage.getColor (bilinearX0 rampImage (3 / 2 : ℚ)) (bilinearY0 rampImage (1 / 4 : ℚ))).get Channel.r)
        ((rampImage.getColor (bilinearX0 rampImage (3 / 2 : ℚ)) (bilinearY1 rampImage (1 / 4 : ℚ))).get Channel.r)
        ((rampImage.getColor (bilinearX1 rampImage (3 / 2 : ℚ)) (bilinearY0 rampImage (1 / 4 : ℚ))).get Channel.r)
        ((rampImage.getColor (bilinearX1 rampImage (3 / 2 : ℚ)) (bilinearY1 rampImage (1 / 4 : ℚ))).get Channel.r) :=
  ⟨⟨by decide, by decide, by norm_num, by norm_num [rampImage], by norm_num,
      by norm_num [rampImage]⟩,
    bilinearInterp_within_corners rampImage (3 / 2) (1 / 4) Channel.r (by decide) (by decide)
      (by norm_num) (by norm_num [rampImage]) (by norm_num) (by norm_num [rampImage])⟩

/-- C20: for an image with width and height at least 1, `boxBlur image 0` and
`boxBlurSeparable image 0` have the image's dimensions and return the input pixel
at every in-range position. -/
theorem boxBlur_radius_zero (image : Image K) (x y : Int)
    (hw : 1 ≤ image.width) (hh : 1 ≤ image.height)
    (hx0 : 0 ≤ x) (hxw : x < image.width) (hy0 : 0 ≤ y) (hyh : y < image.height) :
    ((boxBlur image 0).width = image.width ∧ (boxBlur image 0).height = image.height ∧
      (boxBlur image 0).getColor x y = image.getColor x y) ∧
    ((boxBlurSeparable image 0).width = image.width ∧
      (boxBlurSeparable image 0).height = image.height ∧
      (boxBlurSeparable image 0).getColor x y = image.getColor x y) :=
  ⟨⟨boxBlur_width _ _, boxBlur_height _ _,
      boxBlur_zero_getColor image hw hh x y hx0 hxw hy0 hyh⟩,
    ⟨boxBlurSeparable_width _ _, boxBlurSeparable_height _ _,
      boxBlurSeparable_zero_getColor image hw hh x y hx0 hxw hy0 hyh⟩⟩

/-- C20 (witness): the 3×2 ramp image, pixel `(2, 1)`. -/
theorem boxBlur_radius_zero_witness :
    (1 ≤ rampImage.width ∧ 1 ≤ rampImage.height ∧ (0 : Int) ≤ 2 ∧ 2 < rampImage.width ∧
      (0 : Int) ≤ 1 ∧ 1 < rampImage.height) ∧
    ((boxBlur rampImage 0).width = rampImage.width ∧
      (boxBlur rampImage 0).height = rampImage.height ∧
      (boxBlur rampImage 0).getColor 2 1 = rampImage.getColor 2 1) ∧
    ((boxBlurSeparable rampImage 0).width = rampImage.width ∧
      (boxBlurSeparable rampImage 0).height = rampImage.height ∧
      (boxBlurSeparable rampImage 0).getColor 2 1 = rampImage.getColor 2 1) :=
  ⟨by decide, boxBlur_radius_zero rampImage 2 1 (by decide) (by decide) (by decide) (by decide)
    (by decide) (by decide)⟩

/-- C11 (counterexample): the 1×1 image with pixel `(2, 3, 5)` and the filter
`[1, 2, 1]` of sum 4: the two-pass result has red channel `32 = 2·4²`, while the
pixel's red channel times the sum of the weights is `8`. -/
theorem convolveImageSeparable_single_pixel_counterexample :
    ((convolveImageSeparable singlePixelImage binomialFilter).getColor 0 0).get Channel.r = 32 ∧
    (singlePixelImage.getColor 0 0).get Channel.r * binomialFilter.sum = 8 ∧
    ((convolveImageSeparable singlePixelImage binomialFilter).getColor 0 0).get Channel.r
      ≠ (singlePixelImage.getColor 0 0).get Channel.r * binomialFilter.sum := by
  have h1 : ((convolveImageSeparable singlePixelImage binomialFilter).getColor 0 0).get Channel.r
      = 32 := by
    rw [convolveImageSeparable_single_get singlePixelImage binomialFilter 1 rfl rfl rfl]
    norm_num [singlePixelImage, binomialFilter, Image.getColor, Pixel.get]
  have h2 : (singlePixelImage.getColor 0 0).get Channel.r * binomialFilter.sum = 8 := by
    norm_num [singlePixelImage, binomialFilter, Image.getColor, Pixel.get]
  refine ⟨h1, h2, ?_⟩
  rw [h1, h2]
  norm_num

/-- C11 (amended): for a 1×1 image with pixel `p` and a 1D filter `f` of odd
length `2r+1`, `convolveImageSeparable image f` is a 1×1 image whose pixel is, on
each channel, `p`'s channel times the square of the sum of `f`'s weights (each of
the two passes multiplies by the sum). -/
theorem convolveImageSeparable_single_pixel (image : Image K) (f : FilterType1D K) (r : Nat)
    (c : Channel) (hw : image.width = 1) (hh : image.height = 1)
    (hlen : f.length = 2 * r + 1) :
    (convolveImageSeparable image f).width = 1 ∧
    (convolveImageSeparable image f).height = 1 ∧
    ((convolveImageSeparable image f).getColor 0 0).get c
      = (image.getColor 0 0).get c * (f.sum * f.sum) ∧
    ((horizontalPass image f).getColor 0 0).get c = (image.getColor 0 0).get c * f.sum := by
  refine ⟨(convolveImageSeparable_width _ _).trans hw,
    (convolveImageSeparable_height _ _).trans hh,
    convolveImageSeparable_single_get image f r hw hh hlen c, ?_⟩
  rw [horizontalPass_getColor image f 0 0 le_rfl (by omega) le_rfl (by omega),
    convolvePixel1D_horizontal_get image f r hlen, ← sum_range_at f r hlen, Finset.mul_sum]
  refine Finset.sum_congr rfl (fun a _ => ?_)
  have e1 : max 0 (min (0 - (r : Int) + a) (image.width - 1)) = 0 := by omega
  rw [e1]

/-- C11 (witness): the 1×1 image with pixel `(2, 3, 5)`, the filter `[1, 2, 1]`, blue channel. -/
theorem convolveImageSeparable_single_pixel_witness :
    (singlePixelImage.width = 1 ∧ singlePixelImage.height = 1 ∧
      binomialFilter.length = 2 * 1 + 1) ∧
    (convolveImageSeparable singlePixelImage binomialFilter).width = 1 ∧
    (convolveImageSeparable singlePixelImage binomialFilter).height = 1 ∧
    ((convolveImageSeparable singlePixelImage binomialFilter).getColor 0 0).get Channel.b
      = (singlePixelImage.getColor 0 0).get Channel.b
        * (binomialFilter.sum * binomialFilter.sum) ∧
    ((horizontalPass singlePixelImage binomialFilter).getColor 0 0).get Channel.b
      = (singlePixelImage.getColor 0 0).get Channel.b * binomialFilter.sum :=
  ⟨⟨rfl, rfl, rfl⟩,
    convolveImageSeparable_single_pixel singlePixelImage binomialFilter 1 Channel.b rfl rfl rfl⟩

/-- C17: for a 1×1 image with pixel `p` and an invertible `M`, `transform image M`
is the 1×1 image with pixel `p`: the bounding box is the point `(0, 0)`, the steps
`dx`, `dy` are 0, the sampling source is the original image, the single sample
position `(0, 0)` passes the acceptance test, and `bilinearInterp` at
`(1/2, 1/2)` is `p`. -/
theorem transform_single_pixel (m : Libm K) (image : Image K) (t : Mat2 K)
    (hw : image.width = 1) (hh : image.height = 1) (hdet : t.det ≠ 0) :
    ((transform m image t).width = 1 ∧ (transform m image t).height = 1 ∧
      (transform m image t).getColor 0 0 = image.getColor 0 0) ∧
    ((transformSetup m image t).newMaxX = 0 ∧ (transformSetup m image t).newMinX = 0 ∧
      (transformSetup m image t).newMaxY = 0 ∧ (transformSetup m image t).newMinY = 0) ∧
    ((transformSetup m image t).dx = 0 ∧ (transformSetup m image t).dy = 0) ∧
    (transformSetup m image t).source = image ∧
    ((transformSetup m image t).samplePos 0 0 = ⟨0, 0⟩ ∧
      (transformSetup m image t).accepts ((transformSetup m image t).samplePos 0 0)) ∧
    bilinearInterp image (1 / 2) (1 / 2) = image.getColor 0 0 := by
  obtain ⟨h1, h2, h3, h4⟩ := singleSetup_bounds m image t hw hh
  refine ⟨⟨(transform_width m image t).trans (singleSetup_outW m image t hw hh),
      (transform_height m image t).trans (singleSetup_outH m image t hw hh),
      single_getColor m image t hw hh⟩, ⟨h1, h2, h3, h4⟩, ⟨?_, ?_⟩,
    transformSetup_source_of_ge m image t (singleSetup_ratio m image t hw hh),
    ⟨singleSetup_samplePos m image t hw hh, ?_⟩, ?_⟩
  · rw [transformSetup_dx, h1, h2, sub_zero, zero_div]
  · rw [transformSetup_dy, h3, h4, sub_zero, zero_div]
  · rw [transformSetup_accepts_iff, singleSetup_samplePos m image t hw hh, hw, hh]
    norm_num
  · apply bilinearInterp_const image _ _ _ (by omega) (by omega)
    · intro a b ha0 haw hb0 hbh
      have ea : a = 0 := by omega
      have eb : b = 0 := by omega
      rw [ea, eb]
    · norm_num
    · norm_num

/-- C17 (witness): the real 1×1 image with pixel `(2, 3, 5)` under the shear `skew(image, 2, 0)`. -/
theorem transform_single_pixel_witness :
    (realSinglePixelImage.width = 1 ∧ realSinglePixelImage.height = 1 ∧ shearMat.det ≠ 0) ∧
    (transform realLibm realSinglePixelImage shearMat).width = 1 ∧
    (transform realLibm realSinglePixelImage shearMat).height = 1 ∧
    (transform realLibm realSinglePixelImage shearMat).getColor 0 0
      = realSinglePixelImage.getColor 0 0 :=
  ⟨⟨rfl, rfl, by norm_num [Mat2.det, shearMat]⟩,
    (transform_single_pixel realLibm realSinglePixelImage shearMat rfl rfl
      (by norm_num [Mat2.det, shearMat])).1⟩

/-- C16: for an image of width `W ≥ 1` and height `H ≥ 1` and scale factors
`sx ≥ 1/2`, `sy ≥ 1/2`, the output of `scale image sx sy` satisfies
`4·outW·outH ≥ W·H`, the size ratio is not below `1/4`, and the sampling source
of `transform` is the original image, not `gaussianBlurSeparable image 9 3`. -/
theorem scale_half_no_preblur (m : Libm K) (image : Image K) (sx sy : K)
    (hw : 1 ≤ image.width) (hh : 1 ≤ image.height) (hsx : 1 / 2 ≤ sx) (hsy : 1 / 2 ≤ sy) :
    image.width * image.height
      ≤ 4 * ((scale m image sx sy).width * (scale m image sx sy).height) ∧
    ¬ ((transformSetup m image ⟨sx, 0, 0, sy⟩).sizeRatio < 1 / 4) ∧
    (transformSetup m image ⟨sx, 0, 0, sy⟩).source = image ∧
    scale m image sx sy = transform m image ⟨sx, 0, 0, sy⟩ := by
  refine ⟨?_, ?_, transformSetup_source_of_ge m image _
    (scaleSetup_ratio m image sx sy hw hh hsx hsy), rfl⟩
  · unfold scale
    rw [transform_width, transform_height]
    exact scaleSetup_area m image sx sy hw hh hsx hsy
  · have h := scaleSetup_ratio m image sx sy hw hh hsx hsy
    rw [transform_width, transform_height, ← transformSetup_sizeRatio] at h
    exact not_lt.mpr h

/-- C16 (witness): the exact halving `scale(image, 1/2, 1/2)` of the 8×8 gradient image. -/
theorem scale_half_no_preblur_witness :
    (1 ≤ gradient8.width ∧ 1 ≤ gradient8.height ∧ (1 / 2 : ℝ) ≤ 1 / 2 ∧ (1 / 2 : ℝ) ≤ 1 / 2) ∧
    gradient8.width * gradient8.height
      ≤ 4 * ((scale realLibm gradient8 (1 / 2) (1 / 2)).width
          * (scale realLibm gradient8 (1 / 2) (1 / 2)).height) ∧
    ¬ ((transformSetup realLibm gradient8 ⟨1 / 2, 0, 0, 1 / 2⟩).sizeRatio < 1 / 4) ∧
    (transformSetup realLibm gradient8 ⟨1 / 2, 0, 0, 1 / 2⟩).source = gradient8 ∧
    scale realLibm gradient8 (1 / 2) (1 / 2) = transform realLibm gradient8 ⟨1 / 2, 0, 0, 1 / 2⟩ :=
  ⟨⟨by decide, by decide, le_rfl, le_rfl⟩,
    scale_half_no_preblur realLibm gradient8 (1 / 2) (1 / 2) (by decide) (by decide) le_rfl
      le_rfl⟩

/-- C15 (counterexample): the identity transform of a 1×3 image has a bounding
box of zero area (x-span 0, y-span 2), yet the output is 1×3 and `dy = 2/3`. -/
theorem transform_zero_area_counterexample :
    ((transformSetup realLibm columnImage identityMat).newMaxX
        - (transformSetup realLibm columnImage identityMat).newMinX)
      * ((transformSetup realLibm columnImage identityMat).newMaxY
        - (transformSetup realLibm columnImage identityMat).newMinY) = 0 ∧
    (transform realLibm columnImage identityMat).height = 3 ∧
    (transformSetup realLibm columnImage identityMat).dy = 2 / 3 ∧
    ¬ ((transform realLibm columnImage identityMat).width = 1 ∧
        (transform realLibm columnImage identityMat).height = 1 ∧
        (transformSetup realLibm columnImage identityMat).dx = 0 ∧
        (transformSetup realLibm columnImage identityMat).dy = 0) := by
  obtain ⟨h1, h2, h3, h4⟩ := column_setup
  refine ⟨?_, column_height, column_dy, ?_⟩
  · rw [h1, h2]
    norm_num
  · rintro ⟨_, hH, _, _⟩
    rw [column_height] at hH
    exact absurd hH (by decide)

/-- C15 (amended): for an image with width and height at least 1 and a matrix
`M`, when the bounding box of the mapped corners has zero area, one of its two
spans is zero; on an axis whose span is zero the output dimension is 1 and the
sampling step is 0, so `transform image M` is 1×1 with `dx = dy = 0` when both
spans are zero. -/
theorem transform_degenerate_box (m : Libm K) (image : Image K) (t : Mat2 K)
    (hw : 1 ≤ image.width) (hh : 1 ≤ image.height)
    (harea : ((transformSetup m image t).newMaxX - (transformSetup m image t).newMinX)
      * ((transformSetup m image t).newMaxY - (transformSetup m image t).newMinY) = 0) :
    (((transformSetup m image t).newMaxX - (transformSetup m image t).newMinX = 0 ∧
        (transform m image t).width = 1 ∧ (transformSetup m image t).dx = 0) ∨
      ((transformSetup m image t).newMaxY - (transformSetup m image t).newMinY = 0 ∧
        (transform m image t).height = 1 ∧ (transformSetup m image t).dy = 0)) ∧
    ((transformSetup m image t).newMaxX - (transformSetup m image t).newMinX = 0 →
      (transformSetup m image t).newMaxY - (transformSetup m image t).newMinY = 0 →
      (transform m image t).width = 1 ∧ (transform m image t).height = 1 ∧
      (transformSetup m image t).dx = 0 ∧ (transformSetup m image t).dy = 0) := by
  refine ⟨?_, fun hx hy => ?_⟩
  · rcases mul_eq_zero.mp harea with hx | hy
    · exact Or.inl ⟨hx, transformSetup_degenerate_x m image t hx⟩
    · exact Or.inr ⟨hy, transformSetup_degenerate_y m image t hy⟩
  · exact ⟨(transformSetup_degenerate_x m image t hx).1,
      (transformSetup_degenerate_y m image t hy).1,
      (transformSetup_degenerate_x m image t hx).2,
      (transformSetup_degenerate_y m image t hy).2⟩

/-- C15 (witness): the identity transform of the 1×3 image, whose x-span is zero. -/
theorem transform_degenerate_box_witness :
    (1 ≤ columnImage.width ∧ 1 ≤ columnImage.height ∧
      ((transformSetup realLibm columnImage identityMat).newMaxX
          - (transformSetup realLibm columnImage identityMat).newMinX)
        * ((transformSetup realLibm columnImage identityMat).newMaxY
          - (transformSetup realLibm columnImage identityMat).newMinY) = 0) ∧
    (((transformSetup realLibm columnImage identityMat).newMaxX
          - (transformSetup realLibm columnImage identityMat).newMinX = 0 ∧
        (transform realLibm columnImage identityMat).width = 1 ∧
        (transformSetup realLibm columnImage identityMat).dx = 0) ∨
      ((transformSetup realLibm columnImage identityMat).newMaxY
          - (transformSetup realLibm columnImage identityMat).newMinY = 0 ∧
        (transform realLibm columnImage identityMat).height = 1 ∧
        (transformSetup realLibm columnImage identityMat).dy = 0)) :=
  ⟨⟨by decide, by decide, by rw [column_setup.1, column_setup.2.1]; norm_num⟩,
    (transform_degenerate_box realLibm columnImage identityMat (by decide) (by decide)
      (by rw [column_setup.1, column_setup.2.1]; norm_num)).1⟩

/-- C12: for an image with width and height at least 1 and an invertible `M`,
at every output index `(x, y)` whose sample position `p` passes the acceptance
test, the call `bilinearInterp(source, p.x + 1/2, (srcH-1) - p.y + 1/2)` made by
`transform` has both coordinates `≥ 0`, and its four pixel reads lie in
`[0, srcW-1] × [0, srcH-1]`, where the source (original or pre-blurred) has the
input's dimensions. -/
theorem transform_sample_reads_in_range (m : Libm K) (image : Image K) (t : Mat2 K) (x y : Int)
    (hw : 1 ≤ image.width) (hh : 1 ≤ image.height) (hdet : t.det ≠ 0)
    (hx0 : 0 ≤ x) (hxw : x < (transform m image t).width)
    (hy0 : 0 ≤ y) (hyh : y < (transform m image t).height)
    (hacc : (transformSetup m image t).accepts ((transformSetup m image t).samplePos x y)) :
    (transformSetup m image t).sample ((transformSetup m image t).samplePos x y)
      = bilinearInterp (transformSetup m image t).source
          (((transformSetup m image t).samplePos x y).x + 1 / 2)
          ((((transformSetup m image t).source.height - 1 : Int) : K)
            - ((transformSetup m image t).samplePos x y).y + 1 / 2) ∧
    ((transformSetup m image t).source.width = image.width ∧
      (transformSetup m image t).source.height = image.height) ∧
    (0 ≤ ((transformSetup m image t).samplePos x y).x + 1 / 2 ∧
      0 ≤ (((transformSetup m image t).source.height - 1 : Int) : K)
        - ((transformSetup m image t).samplePos x y).y + 1 / 2) ∧
    ∀ q ∈ bilinearInterpReads (transformSetup m image t).source
        (((transformSetup m image t).samplePos x y).x + 1 / 2)
        ((((transformSetup m image t).source.height - 1 : Int) : K)
          - ((transformSetup m image t).samplePos x y).y + 1 / 2),
      0 ≤ q.1 ∧ q.1 ≤ (transformSetup m image t).source.width - 1 ∧
      0 ≤ q.2 ∧ q.2 ≤ (transformSetup m image t).source.height - 1 := by
  have hsw := transformSetup_source_width m image t
  have hsh := transformSetup_source_height m image t
  obtain ⟨a1, a2, a3, a4⟩ := hacc
  have c1 : 0 ≤ ((transformSetup m image t).samplePos x y).x + 1 / 2 := by linarith
  have c2 : 0 ≤ (((transformSetup m image t).source.height - 1 : Int) : K)
      - ((transformSetup m image t).samplePos x y).y + 1 / 2 := by
    push_cast
    linarith
  refine ⟨rfl, ⟨hsw, hsh⟩, ⟨c1, c2⟩, fun q hq => ?_⟩
  exact bilinearInterpReads_in_range _ _ _ (by rw [hsw]; exact hw) (by rw [hsh]; exact hh)
    c1 c2 q hq

/-- C13: for an image with width and height at least 1, a square 2D filter of
odd size `2r+1` (resp. a 1D filter of odd length `2r+1`) and an output
coordinate `0 ≤ x < width`, `0 ≤ y < height`: `convolvePixel2D` makes
`(2r+1)²` taps and `convolvePixel1D` makes `2r+1` taps on either axis, one for
each filter index, and every tap reads the filter at indices in `[0, 2r]` and
the image at coordinates in `[0, width-1] × [0, height-1]`. -/
theorem convolution_taps_in_bounds (image : Image K) (filter2 : FilterType2D K)
    (filter1 : FilterType1D K) (r : Nat) (x y : Int)
    (hw : 1 ≤ image.width) (hh : 1 ≤ image.height)
    (hlen2 : filter2.length = 2 * r + 1) (hsq : ∀ row ∈ filter2, row.length = 2 * r + 1)
    (hlen1 : filter1.length = 2 * r + 1)
    (hx0 : 0 ≤ x) (hxw : x < image.width) (hy0 : 0 ≤ y) (hyh : y < image.height) :
    ((convolvePixel2DTaps image filter2 x y).length = (2 * r + 1) * (2 * r + 1) ∧
      (∀ t ∈ convolvePixel2DTaps image filter2 x y,
        0 ≤ t.fa ∧ t.fa ≤ 2 * r ∧ 0 ≤ t.fb ∧ t.fb ≤ 2 * r ∧
        0 ≤ t.ix ∧ t.ix ≤ image.width - 1 ∧ 0 ≤ t.iy ∧ t.iy ≤ image.height - 1) ∧
      (∀ a b : Nat, a ≤ 2 * r → b ≤ 2 * r →
        ∃ t ∈ convolvePixel2DTaps image filter2 x y, t.fa = a ∧ t.fb = b)) ∧
    ((convolvePixel1DTaps image filter1 x y false).length = 2 * r + 1 ∧
      (∀ t ∈ convolvePixel1DTaps image filter1 x y false,
        0 ≤ t.fi ∧ t.fi ≤ 2 * r ∧
        0 ≤ t.ix ∧ t.ix ≤ image.width - 1 ∧ 0 ≤ t.iy ∧ t.iy ≤ image.height - 1) ∧
      (∀ a : Nat, a ≤ 2 * r → ∃ t ∈ convolvePixel1DTaps image filter1 x y false, t.fi = a)) ∧
    ((convolvePixel1DTaps image filter1 x y true).length = 2 * r + 1 ∧
      (∀ t ∈ convolvePixel1DTaps image filter1 x y true,
        0 ≤ t.fi ∧ t.fi ≤ 2 * r ∧
        0 ≤ t.ix ∧ t.ix ≤ image.width - 1 ∧ 0 ≤ t.iy ∧ t.iy ≤ image.height - 1) ∧
      (∀ b : Nat, b ≤ 2 * r → ∃ t ∈ convolvePixel1DTaps image filter1 x y true, t.fi = b)) := by
  refine ⟨⟨convolvePixel2DTaps_length image filter2 r hlen2 x y, ?_, ?_⟩, ⟨?_, ?_, ?_⟩,
    ⟨?_, ?_, ?_⟩⟩
  · intro t ht
    rw [convolvePixel2DTaps_eq image filter2 r hlen2] at ht
    simp only [List.mem_flatMap, List.mem_map, List.mem_range] at ht
    obtain ⟨b, hb, a, ha, rfl⟩ := ht
    dsimp only
    omega
  · intro a b ha hb
    rw [convolvePixel2DTaps_eq image filter2 r hlen2]
    refine ⟨_, List.mem_flatMap.mpr ⟨b, List.mem_range.mpr (by omega),
      List.mem_map.mpr ⟨a, List.mem_range.mpr (by omega), rfl⟩⟩, rfl, rfl⟩
  · rw [convolvePixel1DTaps_horizontal_eq image filter1 r hlen1, List.length_map,
      List.length_range]
  · intro t ht
    rw [convolvePixel1DTaps_horizontal_eq image filter1 r hlen1] at ht
    simp only [List.mem_map, List.mem_range] at ht
    obtain ⟨a, ha, rfl⟩ := ht
    dsimp only
    omega
  · intro a ha
    rw [convolvePixel1DTaps_horizontal_eq image filter1 r hlen1]
    exact ⟨_, List.mem_map.mpr ⟨a, List.mem_range.mpr (by omega), rfl⟩, rfl⟩
  · rw [convolvePixel1DTaps_vertical_eq image filter1 r hlen1, List.length_map,
      List.length_range]
  · intro t ht
    rw [convolvePixel1DTaps_vertical_eq image filter1 r hlen1] at ht
    simp only [List.mem_map, List.mem_range] at ht
    obtain ⟨b, hb, rfl⟩ := ht
    dsimp only
    omega
  · intro b hb
    rw [convolvePixel1DTaps_vertical_eq image filter1 r hlen1]
    exact ⟨_, List.mem_map.mpr ⟨b, List.mem_range.mpr (by omega), rfl⟩, rfl⟩

/-- C12 (witness): the 8×8 gradient image scaled by `(1/4, 1/4)`, whose source
is the pre-blurred image; output index `(0, 0)`. -/
theorem transform_sample_reads_in_range_witness :
    (1 ≤ gradient8.width ∧ 1 ≤ gradient8.height ∧ quarterScaleMat.det ≠ 0 ∧
      (0 : Int) ≤ 0 ∧ 0 < (transform realLibm gradient8 quarterScaleMat).width ∧
      (0 : Int) ≤ 0 ∧ 0 < (transform realLibm gradient8 quarterScaleMat).height ∧
      (transformSetup realLibm gradient8 quarterScaleMat).accepts ((transformSetup realLibm gradient8 quarterScaleMat).samplePos 0 0) ∧
      (transformSetup realLibm gradient8 quarterScaleMat).source = gaussianBlurSeparable realLibm gradient8 9 3) ∧
    (0 ≤ ((transformSetup realLibm gradient8 quarterScaleMat).samplePos 0 0).x + 1 / 2 ∧
      0 ≤ ((((transformSetup realLibm gradient8 quarterScaleMat).source.height - 1 : Int) : ℝ)
        - ((transformSetup realLibm gradient8 quarterScaleMat).samplePos 0 0).y + 1 / 2)) ∧
    ∀ q ∈ bilinearInterpReads (transformSetup realLibm gradient8 quarterScaleMat).source
        (((transformSetup realLibm gradient8 quarterScaleMat).samplePos 0 0).x + 1 / 2)
        ((((transformSetup realLibm gradient8 quarterScaleMat).source.height - 1 : Int) : ℝ)
          - ((transformSetup realLibm gradient8 quarterScaleMat).samplePos 0 0).y + 1 / 2),
      0 ≤ q.1 ∧ q.1 ≤ (transformSetup realLibm gradient8 quarterScaleMat).source.width - 1 ∧
      0 ≤ q.2 ∧ q.2 ≤ (transformSetup realLibm gradient8 quarterScaleMat).source.height - 1 :=
  ⟨⟨by decide, by decide, by norm_num [Mat2.det, quarterScaleMat], le_rfl,
      by rw [quarter_width]; decide, le_rfl, by rw [quarter_height]; decide,
      by rw [transformSetup_accepts_iff, quarter_samplePos]; norm_num [gradient8],
      transformSetup_source_of_lt realLibm gradient8 quarterScaleMat quarter_ratio⟩,
    (transform_sample_reads_in_range realLibm gradient8 quarterScaleMat 0 0 (by decide)
      (by decide) (by norm_num [Mat2.det, quarterScaleMat]) le_rfl
      (by rw [quarter_width]; decide) le_rfl (by rw [quarter_height]; decide)
      (by rw [transformSetup_accepts_iff, quarter_samplePos]; norm_num [gradient8])).2.2⟩

/-- C13 (witness): the 3×2 ramp image, the 3×3 counting filter and the filter
`[1, 2, 1]`, output pixel `(0, 0)`, where the taps left of and above the image are clamped. -/
theorem convolution_taps_in_bounds_witness :
    (1 ≤ rampImage.width ∧ 1 ≤ rampImage.height ∧ countingFilter.length = 2 * 1 + 1 ∧
      (∀ row ∈ countingFilter, row.length = 2 * 1 + 1) ∧ binomialFilter.length = 2 * 1 + 1 ∧
      (0 : Int) ≤ 0 ∧ 0 < rampImage.width ∧ (0 : Int) ≤ 0 ∧ 0 < rampImage.height) ∧
    ((convolvePixel2DTaps rampImage countingFilter 0 0).length = (2 * 1 + 1) * (2 * 1 + 1) ∧
      (∀ t ∈ convolvePixel2DTaps rampImage countingFilter 0 0,
        0 ≤ t.fa ∧ t.fa ≤ 2 * (1 : Nat) ∧ 0 ≤ t.fb ∧ t.fb ≤ 2 * (1 : Nat) ∧
        0 ≤ t.ix ∧ t.ix ≤ rampImage.width - 1 ∧ 0 ≤ t.iy ∧ t.iy ≤ rampImage.height - 1) ∧
      (∀ a b : Nat, a ≤ 2 * 1 → b ≤ 2 * 1 →
        ∃ t ∈ convolvePixel2DTaps rampImage countingFilter 0 0, t.fa = a ∧ t.fb = b)) :=
  ⟨⟨by decide, by decide, by decide, by simp [countingFilter], by decide, by decide, by decide,
      by decide, by decide⟩,
    (convolution_taps_in_bounds rampImage countingFilter binomialFilter 1 0 0 (by decide)
      (by decide) (by decide) (by simp [countingFilter]) (by decide) (by decide) (by decide)
      (by decide) (by decide)).1⟩

/-- C5 (counterexample): an 11×1 image scaled by `0.7f` (the `float` nearest to
`7/10`): the exact product `0.7f·10` is below 7, so `⌊sx·(W-1)⌋ + 1 = 7`, but the
`float` product rounds to `7.0f` and the program's width is `int(7 + 1) = 8`. -/
theorem scale_dimensions_counterexample :
    roundF32 (7 / 10) = sevenTenthsF32 ∧
    (scaleDimsF32 stripImage sevenTenthsF32 sevenTenthsF32).1 = 8 ∧
    ⌊sevenTenthsF32 * ((stripImage.width - 1 : Int) : ℚ)⌋ + 1 = 7 ∧
    (scaleDimsF32 stripImage sevenTenthsF32 sevenTenthsF32).1
      ≠ ⌊sevenTenthsF32 * ((stripImage.width - 1 : Int) : ℚ)⌋ + 1 := by
  have h1 : (scaleDimsF32 stripImage sevenTenthsF32 sevenTenthsF32).1 = 8 := by
    rw [scaleDimsF32_fst stripImage _ _ (by decide) (by norm_num [sevenTenthsF32]),
      strip_span, truncInt_of_nonneg _ (by norm_num), floor_eight]
  have h2 : ⌊sevenTenthsF32 * ((stripImage.width - 1 : Int) : ℚ)⌋ + 1 = 7 := by
    have e : ((stripImage.width - 1 : Int) : ℚ) = 10 := by norm_num [stripImage]
    rw [e, floor_sevenTenths_mul_ten]
    rfl
  refine ⟨roundF32_seven_tenths, h1, h2, ?_⟩
  rw [h1, h2]
  decide

/-- C5 (amended): for an image of width `W ≥ 1` and height `H ≥ 1` and positive
`float` factors `sx`, `sy`, the image returned by `scale` has width
`⌊fl(fl(sx·fl(W-1)) + 1)⌋` and height `⌊fl(fl(sy·fl(H-1)) + 1)⌋`, where `fl` rounds
to `float` and the rounded sums are below `2^31`; this is `⌊sx·(W-1)⌋ + 1`
(resp. `⌊sy·(H-1)⌋ + 1`) when `W-1`, the product and the sum are computed without
rounding. -/
theorem scale_dimensions_float (image : Image ℚ) (sx sy : ℚ)
    (hw : 1 ≤ image.width) (hh : 1 ≤ image.height) (hsx : 0 < sx) (hsy : 0 < sy)
    (hsxF : roundF32 sx = sx) (hsyF : roundF32 sy = sy)
    (hxr : roundF32 (roundF32 (sx * roundF32 ((image.width - 1 : Int) : ℚ)) + 1) < 2147483648)
    (hyr : roundF32 (roundF32 (sy * roundF32 ((image.height - 1 : Int) : ℚ)) + 1)
      < 2147483648) :
    (scaleDimsF32 image sx sy).1
      = ⌊roundF32 (roundF32 (sx * roundF32 ((image.width - 1 : Int) : ℚ)) + 1)⌋ ∧
    (scaleDimsF32 image sx sy).2
      = ⌊roundF32 (roundF32 (sy * roundF32 ((image.height - 1 : Int) : ℚ)) + 1)⌋ ∧
    (roundF32 ((image.width - 1 : Int) : ℚ) = ((image.width - 1 : Int) : ℚ) →
      roundF32 (sx * ((image.width - 1 : Int) : ℚ)) = sx * ((image.width - 1 : Int) : ℚ) →
      roundF32 (sx * ((image.width - 1 : Int) : ℚ) + 1)
        = sx * ((image.width - 1 : Int) : ℚ) + 1 →
      (scaleDimsF32 image sx sy).1 = ⌊sx * ((image.width - 1 : Int) : ℚ)⌋ + 1) ∧
    (roundF32 ((image.height - 1 : Int) : ℚ) = ((image.height - 1 : Int) : ℚ) →
      roundF32 (sy * ((image.height - 1 : Int) : ℚ)) = sy * ((image.height - 1 : Int) : ℚ) →
      roundF32 (sy * ((image.height - 1 : Int) : ℚ) + 1)
        = sy * ((image.height - 1 : Int) : ℚ) + 1 →
      (scaleDimsF32 image sx sy).2 = ⌊sy * ((image.height - 1 : Int) : ℚ)⌋ + 1) := by
  have hX : (0 : ℚ) ≤ roundF32 ((image.width - 1 : Int) : ℚ) :=
    roundF32_nonneg _ (by exact_mod_cast (by omega : 0 ≤ image.width - 1))
  have hY : (0 : ℚ) ≤ roundF32 ((image.height - 1 : Int) : ℚ) :=
    roundF32_nonneg _ (by exact_mod_cast (by omega : 0 ≤ image.height - 1))
  have hP : 0 ≤ roundF32 (sx * roundF32 ((image.width - 1 : Int) : ℚ)) :=
    roundF32_nonneg _ (mul_nonneg hsx.le hX)
  have hQ : 0 ≤ roundF32 (sy * roundF32 ((image.height - 1 : Int) : ℚ)) :=
    roundF32_nonneg _ (mul_nonneg hsy.le hY)
  have h1 : (scaleDimsF32 image sx sy).1
      = ⌊roundF32 (roundF32 (sx * roundF32 ((image.width - 1 : Int) : ℚ)) + 1)⌋ := by
    rw [scaleDimsF32_fst image sx sy hw hsx, truncInt_roundF32_succ _ hP]
  have h2 : (scaleDimsF32 image sx sy).2
      = ⌊roundF32 (roundF32 (sy * roundF32 ((image.height - 1 : Int) : ℚ)) + 1)⌋ := by
    rw [scaleDimsF32_snd image sx sy hh hsy, truncInt_roundF32_succ _ hQ]
  refine ⟨h1, h2, fun e1 e2 e3 => ?_, fun e1 e2 e3 => ?_⟩
  · rw [h1, e1, e2, e3, Int.floor_add_one]
  · rw [h2, e1, e2, e3, Int.floor_add_one]

/-- C5 (witness): the 10×10 image scaled by `(2, 2)` is 19×19. -/
theorem scale_dimensions_float_witness :
    (1 ≤ dotImage.width ∧ 1 ≤ dotImage.height ∧ (0 : ℚ) < 2 ∧ roundF32 2 = 2 ∧
      roundF32 (roundF32 (2 * roundF32 ((dotImage.width - 1 : Int) : ℚ)) + 1) < 2147483648) ∧
    (scaleDimsF32 dotImage 2 2).1 = 19 ∧ (scaleDimsF32 dotImage 2 2).2 = 19 := by
  have hr : roundF32 (roundF32 (2 * roundF32 ((dotImage.width - 1 : Int) : ℚ)) + 1)
      < 2147483648 := by
    rw [dot_span]
    norm_num
  have h := scale_dimensions_float dotImage 2 2 (by decide) (by decide) (by norm_num)
    (by norm_num) roundF32_two roundF32_two hr hr
  have e : ⌊roundF32 (roundF32 (2 * roundF32 ((dotImage.width - 1 : Int) : ℚ)) + 1)⌋ = 19 := by
    rw [dot_span, floor_nineteen]
  exact ⟨⟨by decide, by decide, by norm_num, roundF32_two, hr⟩, h.1.trans e, h.2.1.trans e⟩

end Claims

end ImageManip
